import Mathlib

/-!
Verification development for `queue.c`.

A shallow embedding of the circular doubly-linked queue of `queue.c`.

* Memory is a `Heap`: the `next` / `prev` link fields and the `value` field of the
  element that embeds a node, all indexed by address (`0` is the C `NULL`).  An
  element and its embedded node share one address (`list_entry` is the identity).
* A `value` is the byte string an element owns (the bytes before the NUL).
* Loops run on a fuel counter; running out of fuel is `Fault.fuel`, a fixed array
  written past its capacity is `Fault.bounds`, handing `NULL` to `strcmp` is
  `Fault.null`.
-/

namespace Queue

/-! ## Strings -/

/-- Modelled from the spec: the C library `strcmp` (a string comparison primitive the
spec assumes available and correct), as the sign of the byte-wise lexicographic
comparison of two strings given by their bytes before the NUL. -/
def strcmp : List Nat → List Nat → Int
  | [], [] => 0
  | [], _ :: _ => -1
  | _ :: _, [] => 1
  | a :: as, b :: bs => if a < b then -1 else if b < a then 1 else strcmp as bs

/-! ## Memory -/

/-- Ways in which a run of the embedded code fails to produce a result. -/
inductive Fault where
  | fuel
  | bounds
  | null
  deriving DecidableEq, Repr

/-- The memory the queue code works on.  `next` and `prev` are the two fields of a
`struct list_head`, `value` the payload of the `element_t` around a node, `q` and
`size` the fields of the `queue_contex_t` around a chain node, and `released`
records the elements handed to `q_release_element`, most recent first. -/
structure Heap where
  next : Nat → Nat
  prev : Nat → Nat
  value : Nat → List Nat
  q : Nat → Nat
  size : Nat → Int
  released : List Nat

/-- Store `v` in `p->next`. -/
def Heap.setNext (h : Heap) (p v : Nat) : Heap :=
  { h with next := fun x => if x = p then v else h.next x }

/-- Store `v` in `p->prev`. -/
def Heap.setPrev (h : Heap) (p v : Nat) : Heap :=
  { h with prev := fun x => if x = p then v else h.prev x }

/-- Store `v` in the `value` field of the element around node `p`. -/
def Heap.setValue (h : Heap) (p : Nat) (v : List Nat) : Heap :=
  { h with value := fun x => if x = p then v else h.value x }

/-- Store `v` in the `size` field of the queue context around chain node `p`. -/
def Heap.setSize (h : Heap) (p : Nat) (v : Int) : Heap :=
  { h with size := fun x => if x = p then v else h.size x }

/-- Store `v` in the `q` field of the queue context around chain node `p`. -/
def Heap.setQ (h : Heap) (p v : Nat) : Heap :=
  { h with q := fun x => if x = p then v else h.q x }

/-- Two's-complement wrap of a mathematical integer into the range of a C `int`. -/
def int32 (x : Int) : Int := (x + 2147483648) % 4294967296 - 2147483648

/-- Wrap of a natural number into the range of a C `size_t` (64 bits). -/
def size_t (x : Int) : Nat := (x % 18446744073709551616).toNat

/-! ## `list.h` -/

/-- Modelled from the spec: `INIT_LIST_HEAD` of `list.h`, "initialize-empty (ring with
both pointers self-referencing)". -/
def INIT_LIST_HEAD (h : Heap) (head : Nat) : Heap :=
  (h.setNext head head).setPrev head head

/-- Modelled from the spec: `list_add` of `list.h`, insert `node` right after `head`. -/
def list_add (h : Heap) (node head : Nat) : Heap :=
  let next := h.next head
  (((h.setPrev next node).setNext node next).setPrev node head).setNext head node

/-- Modelled from the spec: `list_add_tail` of `list.h`, insert `node` right before
`head`. -/
def list_add_tail (h : Heap) (node head : Nat) : Heap :=
  let prev := h.prev head
  (((h.setNext prev node).setNext node head).setPrev node prev).setPrev head node

/-- Modelled from the spec: `list_del` of `list.h`, "unlink a node (splice its
neighbors together)"; the unlinked node keeps its own two pointers. -/
def list_del (h : Heap) (node : Nat) : Heap :=
  let next := h.next node
  let prev := h.prev node
  (h.setPrev next prev).setNext prev next

/-- Modelled from the spec: `list_del_init` of `list.h`, unlink then initialize-empty. -/
def list_del_init (h : Heap) (node : Nat) : Heap :=
  INIT_LIST_HEAD (list_del h node) node

/-- Modelled from the spec: `list_empty` of `list.h`, "test-empty". -/
def list_empty (h : Heap) (head : Nat) : Bool :=
  h.next head == head

/-- Modelled from the spec: `list_is_singular` of `list.h`, "test-singular (exactly one
non-sentinel node)". -/
def list_is_singular (h : Heap) (head : Nat) : Bool :=
  !list_empty h head && h.prev head == h.next head

/-- Modelled from the spec: `q_release_element`, "frees the owned string then the
element; is a no-op on a null reference". -/
def q_release_element (h : Heap) (e : Nat) : Heap :=
  if e = 0 then h else { h with released := e :: h.released }

/-- Modelled from the spec: the C library `strncpy(dst, src, n)` on a destination seen
as a map from offsets to bytes: the first `n` offsets receive the bytes of `src`,
padded with NUL bytes. -/
def strncpy (dst : Nat → Nat) (src : List Nat) (n : Nat) : Nat → Nat :=
  fun i => if i < n then src.getD i 0 else dst i

/-! ## `queue.c` -/

/-- The `node_get_val` of `queue.c`. -/
def node_get_val (h : Heap) (node : Nat) : Option (List Nat) :=
  if node = 0 then none else some (h.value node)

/-- A call of `strcmp` on two `char *` values; `NULL` is a fault. -/
def strcmpP (a b : Option (List Nat)) : Except Fault Int :=
  match a, b with
  | some x, some y => .ok (strcmp x y)
  | _, _ => .error .null

/-- The `node_swap_val` of `queue.c`. -/
def node_swap_val (h : Heap) (n1 n2 : Nat) : Heap :=
  if n1 = 0 ∨ n2 = 0 ∨ n1 = n2 then h
  else
    let tmp := h.value n1
    (h.setValue n1 (h.value n2)).setValue n2 tmp

/-- The `q_create_element` of `queue.c`.  `m` is what `test_malloc` returns (`0` when
it fails) and `dup` tells whether `test_strdup` succeeds. -/
def q_create_element (h : Heap) (sp : List Nat) (m : Nat) (dup : Bool) : Nat × Heap :=
  if m = 0 then (0, h)
  else if dup then (m, h.setValue m sp)
  else (0, h)

/-- The `q_new` of `queue.c`; `m` is what `test_malloc` returns. -/
def q_new (h : Heap) (m : Nat) : Nat × Heap :=
  if m = 0 then (0, h) else (m, INIT_LIST_HEAD h m)

/-- The `q_insert_head` of `queue.c`. -/
def q_insert_head (h : Heap) (head : Nat) (s : List Nat) (m : Nat) (dup : Bool) :
    Bool × Heap :=
  if head = 0 then (false, h)
  else
    let r := q_create_element h s m dup
    if r.1 = 0 then (false, r.2)
    else (true, list_add r.2 r.1 head)

/-- The `q_insert_tail` of `queue.c`. -/
def q_insert_tail (h : Heap) (head : Nat) (s : List Nat) (m : Nat) (dup : Bool) :
    Bool × Heap :=
  if head = 0 then (false, h)
  else
    let r := q_create_element h s m dup
    if r.1 = 0 then (false, r.2)
    else (true, list_add_tail r.2 r.1 head)

/-- The buffer update shared by `q_remove_head` and `q_remove_tail`:
`strncpy(sp, value, bufsize - 1); sp[bufsize - 1] = 0;` when `sp` is not `NULL`. -/
def copy_out (sp : Option (Nat → Nat)) (v : List Nat) (bufsize : Nat) :
    Option (Nat → Nat) :=
  match sp with
  | none => none
  | some buf =>
    let n := size_t ((bufsize : Int) - 1)
    let buf1 := strncpy buf v n
    some (fun i => if i = n then 0 else buf1 i)

/-- The `q_remove_head` of `queue.c`: the removed element (`0` for `NULL`), the
buffer, the memory. -/
def q_remove_head (h : Heap) (head : Nat) (sp : Option (Nat → Nat)) (bufsize : Nat) :
    Nat × Option (Nat → Nat) × Heap :=
  if head = 0 ∨ list_empty h head then (0, sp, h)
  else
    let target := h.next head
    (target, copy_out sp (h.value target) bufsize, list_del_init h target)

/-- The `q_remove_tail` of `queue.c`. -/
def q_remove_tail (h : Heap) (head : Nat) (sp : Option (Nat → Nat)) (bufsize : Nat) :
    Nat × Option (Nat → Nat) × Heap :=
  if head = 0 ∨ list_empty h head then (0, sp, h)
  else
    let target := h.prev head
    (target, copy_out sp (h.value target) bufsize, list_del h target)

/-- The loop of `q_size`. -/
def q_size_loop : Nat → Heap → Nat → Nat → Int → Except Fault Int
  | 0, _, _, _, _ => .error .fuel
  | fuel + 1, h, head, node, len =>
    if node ≠ head then q_size_loop fuel h head (h.next node) (int32 (len + 1))
    else .ok len

/-- The `q_size` of `queue.c`. -/
def q_size (fuel : Nat) (h : Heap) (head : Nat) : Except Fault Int :=
  if head = 0 ∨ list_empty h head then .ok 0
  else q_size_loop fuel h head (h.next head) 0

/-- The two-pointer walk of `q_delete_mid`: the final `slow`. -/
def q_delete_mid_loop : Nat → Heap → Nat → Nat → Nat → Except Fault Nat
  | 0, _, _, _, _ => .error .fuel
  | fuel + 1, h, head, slow, fast =>
    if fast ≠ head ∧ h.next fast ≠ head then
      q_delete_mid_loop fuel h head (h.next slow) (h.next (h.next fast))
    else .ok slow

/-- The `q_delete_mid` of `queue.c`. -/
def q_delete_mid (fuel : Nat) (h : Heap) (head : Nat) : Except Fault (Bool × Heap) :=
  if head = 0 ∨ list_empty h head then .ok (false, h)
  else
    match q_delete_mid_loop fuel h head head (h.next head) with
    | .error e => .error e
    | .ok slow =>
      let r := q_remove_head h slow none 0
      .ok (true, q_release_element r.2.2 r.1)

/-- The inner loop of `q_delete_dup`; `ind` is the node whose `next` field `indir`
points to, so `*indir` is `h.next ind`.  Returns `has_dup` and the memory. -/
def q_delete_dup_run : Nat → Heap → Nat → Nat → Bool → Except Fault (Bool × Heap)
  | 0, _, _, _, _ => .error .fuel
  | fuel + 1, h, head, ind, has_dup =>
    if h.next (h.next ind) ≠ head then
      match strcmpP (node_get_val h (h.next ind)) (node_get_val h (h.next (h.next ind))) with
      | .error e => .error e
      | .ok c =>
        if c = 0 then
          let r := q_remove_tail h (h.next (h.next ind)) none 0
          q_delete_dup_run fuel (q_release_element r.2.2 r.1) head ind true
        else .ok (has_dup, h)
    else .ok (has_dup, h)

/-- The outer loop of `q_delete_dup`; `fuel` bounds each inner loop. -/
def q_delete_dup_loop (fuel : Nat) : Nat → Heap → Nat → Nat → Except Fault Heap
  | 0, _, _, _ => .error .fuel
  | n + 1, h, head, ind =>
    if h.next ind ≠ head then
      match q_delete_dup_run fuel h head ind false with
      | .error e => .error e
      | .ok (has_dup, h1) =>
        let h2 :=
          if has_dup then
            let r := q_remove_tail h1 (h1.next (h1.next ind)) none 0
            q_release_element r.2.2 r.1
          else h1
        q_delete_dup_loop fuel n h2 head (h2.next ind)
    else .ok h

/-- The `q_delete_dup` of `queue.c`. -/
def q_delete_dup (fuel : Nat) (h : Heap) (head : Nat) : Except Fault (Bool × Heap) :=
  if head = 0 then .ok (false, h)
  else
    match q_delete_dup_loop fuel fuel h head head with
    | .error e => .error e
    | .ok h1 => .ok (true, h1)

/-- The loop of `q_swap`; `ind` is the node whose `next` field `indir` points to. -/
def q_swap_loop : Nat → Heap → Nat → Nat → Except Fault Heap
  | 0, _, _, _ => .error .fuel
  | fuel + 1, h, head, ind =>
    if h.next ind ≠ head ∧ h.next (h.next ind) ≠ head then
      q_swap_loop fuel (node_swap_val h (h.next ind) (h.next (h.next ind))) head
        (h.next (h.next ind))
    else .ok h

/-- The `q_swap` of `queue.c`. -/
def q_swap (fuel : Nat) (h : Heap) (head : Nat) : Except Fault Heap :=
  if head = 0 ∨ list_empty h head ∨ list_is_singular h head then .ok h
  else q_swap_loop fuel h head head

/-- The value-swapping loop `while (fw_iter != bw_iter && fw_iter != bw_iter->next)`
that `q_reverse` and `q_reverseK` both contain. -/
def swap_inward : Nat → Heap → Nat → Nat → Except Fault Heap
  | 0, _, _, _ => .error .fuel
  | fuel + 1, h, fw_iter, bw_iter =>
    if fw_iter ≠ bw_iter ∧ fw_iter ≠ h.next bw_iter then
      let h1 := node_swap_val h fw_iter bw_iter
      swap_inward fuel h1 (h1.next fw_iter) (h1.prev bw_iter)
    else .ok h

/-- The `q_reverse` of `queue.c`. -/
def q_reverse (fuel : Nat) (h : Heap) (head : Nat) : Except Fault Heap :=
  if head = 0 ∨ list_empty h head ∨ list_is_singular h head then .ok h
  else swap_inward fuel h (h.next head) (h.prev head)

/-- The counting loop `for (int count = 0; count++ < k - 1;)` of `q_reverseK`:
`none` when the loop hits `head` and the function returns, else the final `bw_iter`. -/
def q_reverseK_advance : Nat → Heap → Nat → Int → Int → Nat → Except Fault (Option Nat)
  | 0, _, _, _, _, _ => .error .fuel
  | fuel + 1, h, head, k, count, bw_iter =>
    if count < int32 (k - 1) then
      if h.next bw_iter = head then .ok none
      else q_reverseK_advance fuel h head k (int32 (count + 1)) (h.next bw_iter)
    else .ok (some bw_iter)

/-- The `for (;;)` loop of `q_reverseK`; `fuel` bounds each inner loop. -/
def q_reverseK_loop (fuel : Nat) : Nat → Heap → Nat → Int → Nat → Except Fault Heap
  | 0, _, _, _, _ => .error .fuel
  | n + 1, h, head, k, next_start =>
    match q_reverseK_advance fuel h head k 0 next_start with
    | .error e => .error e
    | .ok none => .ok h
    | .ok (some bw_iter) =>
      match swap_inward fuel h next_start bw_iter with
      | .error e => .error e
      | .ok h1 => q_reverseK_loop fuel n h1 head k (h.next bw_iter)

/-- The `q_reverseK` of `queue.c`. -/
def q_reverseK (fuel : Nat) (h : Heap) (head : Nat) (k : Int) : Except Fault Heap :=
  if head = 0 ∨ list_empty h head ∨ list_is_singular h head ∨ k ≤ 1 then .ok h
  else q_reverseK_loop fuel fuel h head k (h.next head)

/-- The store `*indir_iter = v` of `mergeTwoLists`: `indir_iter` is `&sorted`
(`none`) or `&p->next` (`some p`).  Returns the local `sorted` and the memory. -/
def store_indir (h : Heap) (sorted : Nat) (indir_iter : Option Nat) (v : Nat) :
    Nat × Heap :=
  match indir_iter with
  | none => (v, h)
  | some p => (sorted, h.setNext p v)

/-- The `for (;;)` loop of `mergeTwoLists`. -/
def mergeTwoLists_loop :
    Nat → Heap → Nat → Option Nat → Nat → Nat → Bool → Except Fault (Nat × Heap)
  | 0, _, _, _, _, _, _ => .error .fuel
  | fuel + 1, h, sorted, indir_iter, l1, l2, descend =>
    match strcmpP (node_get_val h l1) (node_get_val h l2) with
    | .error e => .error e
    | .ok c =>
      let cmp_result : Bool := if descend then decide (c > 0) else decide (c < 0)
      if cmp_result then
        let r := store_indir h sorted indir_iter l1
        if r.2.next l1 = 0 then .ok (r.1, r.2.setNext l1 l2)
        else mergeTwoLists_loop fuel r.2 r.1 (some l1) (r.2.next l1) l2 descend
      else
        let r := store_indir h sorted indir_iter l2
        if r.2.next l2 = 0 then .ok (r.1, r.2.setNext l2 l1)
        else mergeTwoLists_loop fuel r.2 r.1 (some l2) l1 (r.2.next l2) descend

/-- The `mergeTwoLists` of `queue.c`. -/
def mergeTwoLists (fuel : Nat) (h : Heap) (l1 l2 : Nat) (descend : Bool) :
    Except Fault (Nat × Heap) :=
  mergeTwoLists_loop fuel h 0 none l1 l2 descend

/-- The `merge_lists` of `queue.c`; the first argument bounds the recursion depth,
`fuel` bounds each `mergeTwoLists` loop. -/
def merge_lists (fuel : Nat) :
    Nat → Heap → (Nat → Nat) → Int → Int → Bool → Except Fault (Nat × Heap)
  | 0, _, _, _, _, _ => .error .fuel
  | n + 1, h, lists, low, high, descend =>
    if low > high then .ok (0, h)
    else if low = high then .ok (lists low.toNat, h)
    else
      let mid := (int32 (low + high)).tdiv 2
      match merge_lists fuel n h lists low mid descend with
      | .error e => .error e
      | .ok (left, h1) =>
        match merge_lists fuel n h1 lists (int32 (mid + 1)) high descend with
        | .error e => .error e
        | .ok (right, h2) => mergeTwoLists fuel h2 left right descend

/-- The run-detecting inner loop of `q_sort`: the final `iter`. -/
def q_sort_run : Nat → Heap → Nat → Nat → Except Fault Nat
  | 0, _, _, _ => .error .fuel
  | fuel + 1, h, head, iter =>
    if iter ≠ head ∧ h.next iter ≠ head then
      match strcmpP (node_get_val h iter) (node_get_val h (h.next iter)) with
      | .error e => .error e
      | .ok c => if c ≤ 0 then q_sort_run fuel h head (h.next iter) else .ok iter
    else .ok iter

/-- The capacity of the array `lists` of `q_sort`. -/
def LISTS_CAPACITY : Nat := 100000

/-- The run-splitting loop of `q_sort`; `lists[count++] = sorted` past the capacity of
the array is `Fault.bounds`.  Returns the array, `count` and the memory. -/
def q_sort_split (fuel : Nat) :
    Nat → Heap → Nat → Nat → (Nat → Nat) → Nat → Except Fault ((Nat → Nat) × Nat × Heap)
  | 0, _, _, _, _, _ => .error .fuel
  | n + 1, h, head, sorted, lists, count =>
    if sorted ≠ head then
      match q_sort_run fuel h head sorted with
      | .error e => .error e
      | .ok iter =>
        if count < LISTS_CAPACITY then
          q_sort_split fuel n (h.setNext iter 0) head (h.next iter)
            (fun i => if i = count then sorted else lists i) (count + 1)
        else .error .bounds
    else .ok (lists, count, h)

/-- The loop of `q_sort` that rebuilds the `prev` pointers: the final `sorted` and
the memory. -/
def q_sort_fix : Nat → Heap → Nat → Except Fault (Nat × Heap)
  | 0, _, _ => .error .fuel
  | fuel + 1, h, sorted =>
    if h.next sorted ≠ 0 then
      q_sort_fix fuel (h.setPrev (h.next sorted) sorted) (h.next sorted)
    else .ok (sorted, h)

/-- The `q_sort` of `queue.c`. -/
def q_sort (fuel : Nat) (h : Heap) (head : Nat) (descend : Bool) : Except Fault Heap :=
  if head = 0 ∨ list_empty h head ∨ list_is_singular h head then .ok h
  else
    match q_sort_split fuel fuel h head (h.next head) (fun _ => 0) 0 with
    | .error e => .error e
    | .ok (lists, count, h1) =>
      match merge_lists fuel fuel h1 lists 0 (int32 ((count : Int) - 1)) descend with
      | .error e => .error e
      | .ok (m, h2) =>
        match q_sort_fix fuel (h2.setNext head m) head with
        | .error e => .error e
        | .ok (sorted, h3) => .ok ((h3.setNext sorted head).setPrev head sorted)

/-- The loop of `q_ascend`: `count` and the memory. -/
def q_ascend_loop :
    Nat → Heap → Nat → Int → Option (List Nat) → Nat → Except Fault (Int × Heap)
  | 0, _, _, _, _, _ => .error .fuel
  | fuel + 1, h, head, count, min_val, bw_iter =>
    if h.prev bw_iter ≠ head then
      match strcmpP (node_get_val h (h.prev bw_iter)) min_val with
      | .error e => .error e
      | .ok c =>
        if c > 0 then
          let r := q_remove_tail h bw_iter none 0
          q_ascend_loop fuel (q_release_element r.2.2 r.1) head count min_val bw_iter
        else
          q_ascend_loop fuel h head (int32 (count + 1)) (node_get_val h (h.prev bw_iter))
            (h.prev bw_iter)
    else .ok (count, h)

/-- The `q_ascend` of `queue.c`. -/
def q_ascend (fuel : Nat) (h : Heap) (head : Nat) : Except Fault (Int × Heap) :=
  if head = 0 ∨ list_empty h head then .ok (0, h)
  else q_ascend_loop fuel h head 1 (node_get_val h (h.prev head)) (h.prev head)

/-- The loop of `q_descend`: `count` and the memory. -/
def q_descend_loop :
    Nat → Heap → Nat → Int → Option (List Nat) → Nat → Except Fault (Int × Heap)
  | 0, _, _, _, _, _ => .error .fuel
  | fuel + 1, h, head, count, max_val, bw_iter =>
    if h.prev bw_iter ≠ head then
      match strcmpP (node_get_val h (h.prev bw_iter)) max_val with
      | .error e => .error e
      | .ok c =>
        if c < 0 then
          let r := q_remove_tail h bw_iter none 0
          q_descend_loop fuel (q_release_element r.2.2 r.1) head count max_val bw_iter
        else
          q_descend_loop fuel h head (int32 (count + 1)) (node_get_val h (h.prev bw_iter))
            (h.prev bw_iter)
    else .ok (count, h)

/-- The `q_descend` of `queue.c`. -/
def q_descend (fuel : Nat) (h : Heap) (head : Nat) : Except Fault (Int × Heap) :=
  if head = 0 ∨ list_empty h head then .ok (0, h)
  else q_descend_loop fuel h head 1 (node_get_val h (h.prev head)) (h.prev head)

/-- The innermost loop of `q_merge`, the scan of the first queue: the final
`q1_node`.  `q1h` is `q1->q`. -/
def q_merge_scan : Nat → Heap → Nat → Nat → Nat → Except Fault Nat
  | 0, _, _, _, _ => .error .fuel
  | fuel + 1, h, q1h, q1_node, q2_node =>
    if q1_node ≠ q1h then
      match strcmpP (node_get_val h q1_node) (node_get_val h q2_node) with
      | .error e => .error e
      | .ok c => if c < 0 then q_merge_scan fuel h q1h (h.next q1_node) q2_node
                 else .ok q1_node
    else .ok q1_node

/-- The `for` loop of `q_merge` that empties the queue of context `q2` into the queue
of context `q1`. -/
def q_merge_drain (fuel : Nat) : Nat → Heap → Nat → Nat → Except Fault Heap
  | 0, _, _, _ => .error .fuel
  | n + 1, h, q1, q2 =>
    if h.next (h.q q2) ≠ h.q q2 then
      match q_merge_scan fuel h (h.q q1) (h.next (h.q q1)) (h.next (h.q q2)) with
      | .error e => .error e
      | .ok q1_node =>
        let q2_node := h.next (h.q q2)
        q_merge_drain fuel n (list_add_tail (list_del h q2_node) q2_node q1_node) q1 q2
    else .ok h

/-- The `while` loop of `q_merge` over the chain of contexts. -/
def q_merge_loop (fuel : Nat) : Nat → Heap → Nat → Nat → Nat → Except Fault Heap
  | 0, _, _, _, _ => .error .fuel
  | n + 1, h, head, q1, q_src_node =>
    if q_src_node ≠ head then
      match q_merge_drain fuel fuel h q1 q_src_node with
      | .error e => .error e
      | .ok h1 =>
        let h2 := h1.setSize q1 (int32 (h1.size q1 + h1.size q_src_node))
        let h3 := h2.setSize q_src_node 0
        q_merge_loop fuel n h3 head q1 (h3.next q_src_node)
    else .ok h

/-- The `q_merge` of `queue.c`; the parameter `descend` is not used by the body. -/
def q_merge (fuel : Nat) (h : Heap) (head : Nat) (_descend : Bool) :
    Except Fault (Int × Heap) :=
  if head = 0 then .ok (0, h)
  else
    let q1 := h.next head
    match q_merge_loop fuel fuel h head q1 (h.next (h.next head)) with
    | .error e => .error e
    | .ok h1 => .ok (h1.size q1, h1)

/-! ## Reading a queue -/

/-- The loop of `q_values`. -/
def q_values_loop : Nat → Heap → Nat → Nat → Except Fault (List (List Nat))
  | 0, _, _, _ => .error .fuel
  | fuel + 1, h, head, node =>
    if node ≠ head then
      match q_values_loop fuel h head (h.next node) with
      | .error e => .error e
      | .ok vs => .ok (h.value node :: vs)
    else .ok []

/-- The values of the elements of the queue at `head`, read front to back by following
`next` from the sentinel until it comes round again. -/
def q_values (fuel : Nat) (h : Heap) (head : Nat) : Except Fault (List (List Nat)) :=
  q_values_loop fuel h head (h.next head)

/-- A memory in which nothing is linked. -/
def Heap.blank : Heap :=
  { next := fun _ => 0, prev := fun _ => 0, value := fun _ => [], q := fun _ => 0,
    size := fun _ => 0, released := [] }

/-- Insert the strings `xs` at the tail of the queue at `head` with `q_insert_tail`, in
order; the element of the i-th string is allocated at the i-th address of `ms`, and
every `test_strdup` succeeds.  Returns whether every call returned `true`, and the
memory. -/
def insert_tails (h : Heap) (head : Nat) : List (List Nat) → List Nat → Bool × Heap
  | x :: xs, m :: ms =>
    let r := q_insert_tail h head x m true
    let r2 := insert_tails r.2 head xs ms
    (r.1 && r2.1, r2.2)
  | _, _ => (true, h)

/-- Call `q_remove_head` (with no buffer) `n` times: the value of each returned element
(`none` for a `NULL` return), and the memory. -/
def remove_heads : Nat → Heap → Nat → List (Option (List Nat)) × Heap
  | 0, h, _ => ([], h)
  | n + 1, h, head =>
    let r := q_remove_head h head none 0
    let rest := remove_heads n r.2.2 head
    (node_get_val r.2.2 r.1 :: rest.1, rest.2)

/-- Call `q_remove_tail` (with no buffer) `n` times: the value of each returned element
(`none` for a `NULL` return), and the memory. -/
def remove_tails : Nat → Heap → Nat → List (Option (List Nat)) × Heap
  | 0, h, _ => ([], h)
  | n + 1, h, head =>
    let r := q_remove_tail h head none 0
    let rest := remove_tails n r.2.2 head
    (node_get_val r.2.2 r.1 :: rest.1, rest.2)

/-- The queue with sentinel at address `1` that `q_new` and then `q_insert_tail` of
each of `xs` build in a blank memory, the elements at addresses `2`, `3`, ... -/
def build (xs : List (List Nat)) : Heap :=
  (insert_tails (q_new Heap.blank 1).2 1 xs (List.range' 2 xs.length)).2

/-- The values read front to back from the queue at `head` in the memory a run ended
with; `none` when the run, or the reading, faults. -/
def values_after (fuel : Nat) (r : Except Fault Heap) (head : Nat) :
    Option (List (List Nat)) :=
  match r with
  | .error _ => none
  | .ok h =>
    match q_values fuel h head with
    | .error _ => none
    | .ok vs => some vs

/-- The value a run returned; `none` when the run faults. -/
def returned {α : Type} (r : Except Fault (α × Heap)) : Option α :=
  match r with
  | .error _ => none
  | .ok (a, _) => some a

/-- The memory a run that returns a value ended with. -/
def memory_after {α : Type} (r : Except Fault (α × Heap)) : Except Fault Heap :=
  match r with
  | .error e => .error e
  | .ok (_, h) => .ok h

/-- The `value` field at address `p` in the memory a run ended with; `none` when the run
faults. -/
def value_after (r : Except Fault Heap) (p : Nat) : Option (List Nat) :=
  match r with
  | .error _ => none
  | .ok h => some (h.value p)

/-- What a test harness does to create one more queue in the chain at `chain`: a
context at `ctx` whose queue has its sentinel at `qhead` and holds `xs`, the elements at
the addresses `first`, `first + 1`, ..., with `size` counting them, linked at the tail
of the chain. -/
def add_queue (h : Heap) (chain ctx qhead first : Nat) (xs : List (List Nat)) : Heap :=
  let h1 := (q_new h qhead).2
  let h2 := (insert_tails h1 qhead xs (List.range' first xs.length)).2
  list_add_tail ((h2.setQ ctx qhead).setSize ctx xs.length) ctx chain

/-- A chain with sentinel at address `1` and two queue contexts: the context at `2`
with the queue at `10` holding `xs` (elements from `11`), the context at `3` with the
queue at `20` holding `ys` (elements from `21`). -/
def build_two (xs ys : List (List Nat)) : Heap :=
  add_queue (add_queue (INIT_LIST_HEAD Heap.blank 1) 1 2 10 11 xs) 1 3 20 21 ys

/-- A three-byte string for the number `k`, most significant byte first, no byte zero;
for `k` below 8000000 greater numbers give greater strings. -/
def key (k : Nat) : List Nat := [k / 40000 + 1, k / 200 % 200 + 1, k % 200 + 1]

/-- The values `key n`, `key (n - 1)`, ..., `key 1`: `n` strictly descending strings. -/
def descending_keys (n : Nat) : List (List Nat) := (List.range n).map (fun i => key (n - i))

/-! ## Well-formed queues -/

/-- The last entry of `d :: l`. -/
def lastOr (d : Nat) : List Nat → Nat
  | [] => d
  | a :: t => lastOr a t

/-- The first entry of `l ++ [d]`. -/
def firstOr (d : Nat) : List Nat → Nat
  | [] => d
  | a :: _ => a

/-- Node `b` follows node `a`: `a->next == b` and `b->prev == a`. -/
def Link (h : Heap) (a b : Nat) : Prop := h.next a = b ∧ h.prev b = a

instance Link.decidable (h : Heap) : DecidableRel (Link h) :=
  fun a b => inferInstanceAs (Decidable (h.next a = b ∧ h.prev b = a))

/-- Every entry of the list is linked to the entry after it. -/
def Linked (h : Heap) : List Nat → Prop
  | a :: b :: t => Link h a b ∧ Linked h (b :: t)
  | _ => True

instance Linked.decidable (h : Heap) : (l : List Nat) → Decidable (Linked h l)
  | [] => isTrue trivial
  | [_] => isTrue trivial
  | a :: b :: t =>
    have := Linked.decidable h (b :: t)
    inferInstanceAs (Decidable (Link h a b ∧ Linked h (b :: t)))

/-- The ring invariant: the sentinel `head` and the element nodes `ns`, in this order,
are distinct non-`NULL` addresses, each linked to the one after it, the last back to
`head`. -/
def Ring (h : Heap) (head : Nat) (ns : List Nat) : Prop :=
  (0 :: head :: ns).Nodup ∧ Linked h (head :: (ns ++ [head]))

instance Ring.decidable (h : Heap) (head : Nat) (ns : List Nat) : Decidable (Ring h head ns) :=
  inferInstanceAs (Decidable (_ ∧ _))

/-- The queue at `head` is well formed and its values, front to back, are `xs`. -/
def Holds (h : Heap) (head : Nat) (xs : List (List Nat)) : Prop :=
  ∃ ns, Ring h head ns ∧ ns.map h.value = xs

/-! ## Auxiliary definitions for `q_ascend` and `q_descend` -/

/-- The loop that `q_ascend_loop` and `q_descend_loop` are, up to the test `drop` applied
to the result of `strcmp`. -/
def keep_loop (drop : Int → Bool) :
    Nat → Heap → Nat → Int → Option (List Nat) → Nat → Except Fault (Int × Heap)
  | 0, _, _, _, _, _ => .error .fuel
  | fuel + 1, h, head, count, val, bw_iter =>
    if h.prev bw_iter ≠ head then
      match strcmpP (node_get_val h (h.prev bw_iter)) val with
      | .error e => .error e
      | .ok c =>
        if drop c then
          let r := q_remove_tail h bw_iter none 0
          keep_loop drop fuel (q_release_element r.2.2 r.1) head count val bw_iter
        else
          keep_loop drop fuel h head (int32 (count + 1)) (node_get_val h (h.prev bw_iter))
            (h.prev bw_iter)
    else .ok (count, h)

/-- The nodes the backward scan ends with: `rev` are the nodes before `bw`, nearest
first, and `kept` the nodes from `bw` on; `v` gives the value of a node. -/
def scan_keep (drop : Int → Bool) (v : Nat → List Nat) : List Nat → Nat → List Nat → List Nat
  | [], _, kept => kept
  | a :: rev, bw, kept =>
    if drop (strcmp (v a) (v bw)) then scan_keep drop v rev bw kept
    else scan_keep drop v rev a (a :: kept)

/-- The entries of a list that no entry to their right beats, in their order. -/
def undominated (beats : Nat → Nat → Bool) : List Nat → List Nat
  | [] => []
  | a :: t => if t.any (fun b => beats b a) then undominated beats t
              else a :: undominated beats t

/-- The wording of the claim on `q_ascend`: the nodes of `ns` that have no node with a
strictly smaller value anywhere to their right. -/
def no_smaller_right (v : Nat → List Nat) (ns : List Nat) : List Nat :=
  undominated (fun b a => decide (strcmp (v b) (v a) < 0)) ns

/-- The wording of the claim on `q_descend`: the nodes of `ns` that have no node with a
strictly greater value anywhere to their right. -/
def no_greater_right (v : Nat → List Nat) (ns : List Nat) : List Nat :=
  undominated (fun b a => decide (strcmp (v b) (v a) > 0)) ns

/-! ## Auxiliary definitions for `q_merge` -/

/-- The list `ns` with node `x` put before the first node whose value is not strictly
less than the value of `x`. -/
def insert_sorted (v : Nat → List Nat) (x : Nat) (ns : List Nat) : List Nat :=
  ns.takeWhile (fun a => decide (strcmp (v a) (v x) < 0)) ++
    x :: ns.dropWhile (fun a => decide (strcmp (v a) (v x) < 0))

/-- The list `ns1` after the nodes of `ns2` are put into it one at a time, front first. -/
def merge_into (v : Nat → List Nat) (ns1 ns2 : List Nat) : List Nat :=
  ns2.foldl (fun acc x => insert_sorted v x acc) ns1

/-- The nodes are in weakly ascending order of their values under `strcmp`. -/
def Ascending (v : Nat → List Nat) (ns : List Nat) : Prop :=
  ns.Pairwise (fun a b => strcmp (v a) (v b) ≤ 0)

/-- The chain at `head` holds the queue contexts `cs`, each given by its chain node and
the element nodes of its queue: the chain is a ring, every queue is a ring whose cached
`size` is its number of elements, and no address is used twice. -/
def Contexts (h : Heap) (head : Nat) (cs : List (Nat × List Nat)) : Prop :=
  Ring h head (cs.map Prod.fst) ∧
  (∀ c ∈ cs, Ring h (h.q c.1) c.2 ∧ h.size c.1 = (c.2.length : Int)) ∧
  (head :: cs.map Prod.fst ++ cs.map (fun c => h.q c.1) ++ (cs.map Prod.snd).flatten).Nodup

instance Ascending.decidable (v : Nat → List Nat) (ns : List Nat) : Decidable (Ascending v ns) :=
  inferInstanceAs (Decidable (List.Pairwise _ ns))

instance Contexts.decidable (h : Heap) (head : Nat) (cs : List (Nat × List Nat)) :
    Decidable (Contexts h head cs) :=
  inferInstanceAs (Decidable (_ ∧ _ ∧ _))

/-- The first queue after the queues of the contexts `rest` are emptied into it, one
context after the other. -/
def merge_all (v : Nat → List Nat) (ns1 : List Nat) (rest : List (Nat × List Nat)) :
    List Nat :=
  rest.foldl (fun acc c => merge_into v acc c.2) ns1

/-! ## Auxiliary definitions for `q_sort` -/

/-- The pointer `p` designates the `NULL`-terminated `next`-chain of the nodes `l`. -/
def NullList (h : Heap) : Nat → List Nat → Prop
  | p, [] => p = 0
  | p, a :: l => p = a ∧ a ≠ 0 ∧ NullList h (h.next a) l

/-- The maximal weakly ascending run that starts with node `s` followed by the nodes
`l`, and the nodes after the run. -/
def first_run (v : Nat → List Nat) : Nat → List Nat → List Nat × List Nat
  | s, [] => ([s], [])
  | s, t :: l =>
    if strcmp (v s) (v t) ≤ 0 then ((s :: (first_run v t l).1), (first_run v t l).2)
    else ([s], t :: l)

/-- The maximal weakly ascending runs of a list of nodes, front to back; the first
argument bounds the number of runs. -/
def runs_upto (v : Nat → List Nat) : Nat → List Nat → List (List Nat)
  | 0, _ => []
  | _ + 1, [] => []
  | n + 1, s :: l => (first_run v s l).1 :: runs_upto v n (first_run v s l).2

/-- The maximal weakly ascending runs of a list of nodes, front to back. -/
def runs_of (v : Nat → List Nat) (ns : List Nat) : List (List Nat) :=
  runs_upto v ns.length ns

/-- The test `cmp_result` of `mergeTwoLists` on the nodes `a` and `b`. -/
def picks_first (v : Nat → List Nat) (descend : Bool) (a b : Nat) : Bool :=
  if descend then decide (strcmp (v a) (v b) > 0) else decide (strcmp (v a) (v b) < 0)

/-! ## Auxiliary definitions for `q_swap` -/

/-- The list with the entries at positions 0 and 1, 2 and 3, ... exchanged; the last
entry of a list of odd length stays. -/
def swap_pairs {α : Type} : List α → List α
  | a :: b :: t => b :: a :: swap_pairs t
  | l => l

/-! ## Sequences of insertions and removals -/

/-- One call of a client of the queue: an insertion of the string `s` whose element
`test_malloc` places at address `m` (every allocation succeeding), or a removal with no
buffer. -/
inductive Op
  | insert_head (s : List Nat) (m : Nat)
  | insert_tail (s : List Nat) (m : Nat)
  | remove_head
  | remove_tail
  deriving DecidableEq

/-- The memory after one call. -/
def apply_op (h : Heap) (head : Nat) : Op → Heap
  | .insert_head s m => (q_insert_head h head s m true).2
  | .insert_tail s m => (q_insert_tail h head s m true).2
  | .remove_head => (q_remove_head h head none 0).2.2
  | .remove_tail => (q_remove_tail h head none 0).2.2

/-- The memory after a sequence of calls on the queue at `head`. -/
def run_ops (h : Heap) (head : Nat) : List Op → Heap
  | [] => h
  | op :: ops => run_ops (apply_op h head op) head ops

/-- The number of insertions of a sequence of calls. -/
def inserts : List Op → Nat
  | [] => 0
  | .insert_head _ _ :: ops => inserts ops + 1
  | .insert_tail _ _ :: ops => inserts ops + 1
  | _ :: ops => inserts ops

/-- The number of removals of a sequence of calls. -/
def removes : List Op → Nat
  | [] => 0
  | .remove_head :: ops => removes ops + 1
  | .remove_tail :: ops => removes ops + 1
  | _ :: ops => removes ops

/-- The addresses the insertions of a sequence of calls allocate. -/
def allocs : List Op → List Nat
  | [] => []
  | .insert_head _ m :: ops => m :: allocs ops
  | .insert_tail _ m :: ops => m :: allocs ops
  | _ :: ops => allocs ops

/-- Every removal of the sequence meets a queue that holds an element, when the queue
holds `n` elements at the start. -/
def removes_nonempty : Nat → List Op → Bool
  | _, [] => true
  | n, .insert_head _ _ :: ops => removes_nonempty (n + 1) ops
  | n, .insert_tail _ _ :: ops => removes_nonempty (n + 1) ops
  | 0, _ :: _ => false
  | n + 1, _ :: ops => removes_nonempty n ops

/-! ## Auxiliary definitions for the run count of `q_sort` -/

/-- The number of adjacent pairs of a list of nodes whose left value is strictly greater
than the right value. -/
def descents (v : Nat → List Nat) : List Nat → Nat
  | a :: b :: t => (if 0 < strcmp (v a) (v b) then 1 else 0) + descents v (b :: t)
  | _ => 0

/-! ## Links, rings and the `list.h` primitives -/

@[simp] theorem lastOr_nil (d : Nat) : lastOr d [] = d := rfl
@[simp] theorem lastOr_cons (d a : Nat) (t : List Nat) : lastOr d (a :: t) = lastOr a t := rfl
@[simp] theorem lastOr_append_cons (d x : Nat) : ∀ (A B : List Nat),
    lastOr d (A ++ x :: B) = lastOr x B
  | [], _ => rfl
  | a :: A, B => by simp [lastOr_append_cons a x A B]
@[simp] theorem firstOr_nil (d : Nat) : firstOr d [] = d := rfl
@[simp] theorem firstOr_cons (d a : Nat) (t : List Nat) : firstOr d (a :: t) = a := rfl
@[simp] theorem firstOr_append_cons (d x : Nat) : ∀ (A B : List Nat),
    firstOr d (A ++ x :: B) = firstOr x A
  | [], _ => rfl
  | _ :: _, _ => rfl

@[simp] theorem setNext_next (h : Heap) (p v x : Nat) :
    (h.setNext p v).next x = if x = p then v else h.next x := rfl
@[simp] theorem setNext_prev (h : Heap) (p v : Nat) : (h.setNext p v).prev = h.prev := rfl
@[simp] theorem setNext_value (h : Heap) (p v : Nat) : (h.setNext p v).value = h.value := rfl
@[simp] theorem setNext_q (h : Heap) (p v : Nat) : (h.setNext p v).q = h.q := rfl
@[simp] theorem setNext_size (h : Heap) (p v : Nat) : (h.setNext p v).size = h.size := rfl
@[simp] theorem setNext_released (h : Heap) (p v : Nat) :
    (h.setNext p v).released = h.released := rfl
@[simp] theorem setPrev_prev (h : Heap) (p v x : Nat) :
    (h.setPrev p v).prev x = if x = p then v else h.prev x := rfl
@[simp] theorem setPrev_next (h : Heap) (p v : Nat) : (h.setPrev p v).next = h.next := rfl
@[simp] theorem setPrev_value (h : Heap) (p v : Nat) : (h.setPrev p v).value = h.value := rfl
@[simp] theorem setPrev_q (h : Heap) (p v : Nat) : (h.setPrev p v).q = h.q := rfl
@[simp] theorem setPrev_size (h : Heap) (p v : Nat) : (h.setPrev p v).size = h.size := rfl
@[simp] theorem setPrev_released (h : Heap) (p v : Nat) :
    (h.setPrev p v).released = h.released := rfl

theorem linked_iff_chain (h : Heap) : ∀ (l : List Nat), Linked h l ↔ List.Chain' (Link h) l
  | [] => by simp [Linked]
  | [_] => by simp [Linked]
  | a :: b :: t => by
    rw [List.chain'_cons, ← linked_iff_chain h (b :: t)]
    rfl

theorem Ring.chain {h : Heap} {head : Nat} {ns : List Nat} (hr : Ring h head ns) :
    List.Chain' (Link h) (head :: (ns ++ [head])) :=
  (linked_iff_chain h _).1 hr.2

theorem Ring.of_chain {h : Heap} {head : Nat} {ns : List Nat} (hn : (0 :: head :: ns).Nodup)
    (hc : List.Chain' (Link h) (head :: (ns ++ [head]))) : Ring h head ns :=
  ⟨hn, (linked_iff_chain h _).2 hc⟩

theorem chain_frame {h h' : Heap} : ∀ {l : List Nat}, l.Chain' (Link h) →
    (∀ a ∈ l.dropLast, h'.next a = h.next a) → (∀ b ∈ l.tail, h'.prev b = h.prev b) →
    l.Chain' (Link h')
  | [], _, _, _ => List.chain'_nil
  | [_], _, _, _ => List.chain'_singleton _
  | a :: b :: t, hc, hn, hp => by
    rw [List.chain'_cons] at hc ⊢
    refine ⟨⟨?_, ?_⟩, chain_frame hc.2 ?_ ?_⟩
    · rw [hn a (by simp)]; exact hc.1.1
    · rw [hp b (by simp)]; exact hc.1.2
    · intro x hx; exact hn x (by simp [List.dropLast]; right; simpa using hx)
    · intro x hx; exact hp x (by simp at hx ⊢; right; exact hx)

theorem Ring.next_head {h : Heap} {head : Nat} {ns : List Nat} (hr : Ring h head ns) :
    h.next head = firstOr head ns := by
  have hc := hr.chain
  cases ns with
  | nil => simpa [Link] using (List.chain'_cons.1 hc).1.1
  | cons a t => simpa [Link] using (List.chain'_cons.1 hc).1.1

theorem Ring.split {h : Heap} {head x : Nat} {A B : List Nat} (hr : Ring h head (A ++ x :: B)) :
    List.Chain' (Link h) (head :: A ++ [x]) ∧ List.Chain' (Link h) (x :: (B ++ [head])) := by
  have hc := hr.chain
  have e : head :: ((A ++ x :: B) ++ [head]) = (head :: A) ++ x :: (B ++ [head]) := by simp
  rw [e, List.chain'_split] at hc
  exact hc

theorem chain_last_link {h : Heap} {a x : Nat} : ∀ {A : List Nat},
    List.Chain' (Link h) (a :: A ++ [x]) → Link h (lastOr a A) x
  | [], hc => by simpa using hc
  | b :: A, hc => by
    exact chain_last_link (A := A) (a := b) (List.chain'_cons.1 hc).2

theorem Ring.next_mem {h : Heap} {head x : Nat} {A B : List Nat}
    (hr : Ring h head (A ++ x :: B)) : h.next x = firstOr head B := by
  have hc := hr.split.2
  cases B with
  | nil => simpa [Link] using (List.chain'_cons.1 hc).1.1
  | cons a t => simpa [Link] using (List.chain'_cons.1 hc).1.1

theorem Ring.prev_mem {h : Heap} {head x : Nat} {A B : List Nat}
    (hr : Ring h head (A ++ x :: B)) : h.prev x = lastOr head A :=
  (chain_last_link hr.split.1).2

theorem Ring.next_last {h : Heap} {head x : Nat} {A B : List Nat}
    (hr : Ring h head (A ++ x :: B)) : h.next (lastOr head A) = x :=
  (chain_last_link hr.split.1).1

theorem Ring.prev_first {h : Heap} {head x : Nat} {A B : List Nat}
    (hr : Ring h head (A ++ x :: B)) : h.prev (firstOr head B) = x := by
  have hc := hr.split.2
  cases B with
  | nil => simpa [Link] using (List.chain'_cons.1 hc).1.2
  | cons a t => simpa [Link] using (List.chain'_cons.1 hc).1.2

theorem Ring.prev_head {h : Heap} {head : Nat} {ns : List Nat} (hr : Ring h head ns) :
    h.prev head = lastOr head ns := by
  rcases List.eq_nil_or_concat ns with rfl | ⟨A, x, rfl⟩
  · simpa [Link] using (List.chain'_cons.1 hr.chain).1.2
  · have := Ring.prev_first (B := []) (by simpa using hr)
    simpa using this


theorem lastOr_mem (d : Nat) : ∀ (A : List Nat), lastOr d A ∈ d :: A
  | [] => by simp
  | a :: A => by
    have := lastOr_mem a A
    simp only [lastOr_cons]
    exact List.mem_cons_of_mem _ this

theorem firstOr_mem (d : Nat) (B : List Nat) : firstOr d B ∈ B ++ [d] := by
  cases B <;> simp

theorem getLast?_cons_eq (d : Nat) : ∀ (A : List Nat), (d :: A).getLast? = some (lastOr d A)
  | [] => rfl
  | a :: A => by
    rw [List.getLast?_cons_cons, getLast?_cons_eq a A]; rfl

theorem head?_concat_eq (d : Nat) (B : List Nat) : (B ++ [d]).head? = some (firstOr d B) := by
  cases B <;> rfl

theorem lastOr_not_mem_dropLast : ∀ (d : Nat) (A : List Nat), (d :: A).Nodup →
    lastOr d A ∉ (d :: A).dropLast
  | d, [], _ => by simp
  | d, a :: A, hn => by
    have ih := lastOr_not_mem_dropLast a A (List.nodup_cons.1 hn).2
    have hm := lastOr_mem a A
    have hd : d ∉ a :: A := (List.nodup_cons.1 hn).1
    simp only [lastOr_cons, List.dropLast_cons₂, List.mem_cons, not_or]
    refine ⟨fun e => hd (e ▸ hm), ih⟩

theorem firstOr_not_mem_tail (d : Nat) (B : List Nat) (hn : (B ++ [d]).Nodup) :
    firstOr d B ∉ (B ++ [d]).tail := by
  cases B with
  | nil => simp
  | cons b B => simpa using (List.nodup_cons.1 hn).1

theorem chain_append_iff {R : Nat → Nat → Prop} (d e : Nat) (A B : List Nat) :
    List.Chain' R (d :: A ++ (B ++ [e])) ↔
      List.Chain' R (d :: A) ∧ List.Chain' R (B ++ [e]) ∧ R (lastOr d A) (firstOr e B) := by
  rw [List.chain'_append, getLast?_cons_eq, head?_concat_eq]
  simp

theorem Ring.link {h : Heap} {head : Nat} {A B : List Nat} (hr : Ring h head (A ++ B)) :
    Link h (lastOr head A) (firstOr head B) := by
  have hc := hr.chain
  have e : head :: ((A ++ B) ++ [head]) = head :: A ++ (B ++ [head]) := by simp
  rw [e, chain_append_iff] at hc
  exact hc.2.2

theorem Ring.nodup {h : Heap} {head : Nat} {ns : List Nat} (hr : Ring h head ns) :
    (0 :: head :: ns).Nodup := hr.1

theorem ring_del {h : Heap} {head x : Nat} {A B : List Nat} (hr : Ring h head (A ++ x :: B)) :
    Ring (list_del h x) head (A ++ B) := by
  have hnx := hr.next_mem
  have hpx := hr.prev_mem
  have hnd := hr.1
  have hc := hr.chain
  have e : head :: ((A ++ x :: B) ++ [head]) = head :: A ++ ((x :: B) ++ [head]) := by simp
  rw [e, chain_append_iff] at hc
  obtain ⟨hcA, hcB, -⟩ := hc
  have hcB' : List.Chain' (Link h) (B ++ [head]) := by
    have := hcB.tail; simpa using this
  have hndA : (head :: A).Nodup := by
    simp only [List.nodup_cons, List.nodup_append, List.mem_cons, List.mem_append,
      List.mem_singleton, not_or, List.disjoint_left, List.nodup_nil, List.not_mem_nil] at hnd ⊢
    aesop
  have hndB : (B ++ [head]).Nodup := by
    simp only [List.nodup_cons, List.nodup_append, List.mem_cons, List.mem_append,
      List.mem_singleton, not_or, List.disjoint_left, List.nodup_nil, List.not_mem_nil] at hnd ⊢
    aesop
  have hdisj : ∀ a, a ∈ head :: A → a ∈ B ++ [head] → a = head ∧ a ∉ A ∧ a ∉ B := by
    simp only [List.nodup_cons, List.nodup_append, List.mem_cons, List.mem_append,
      List.mem_singleton, not_or, List.disjoint_left, List.nodup_nil, List.not_mem_nil] at hnd ⊢
    aesop
  refine Ring.of_chain ?_ ?_
  · simp only [List.nodup_cons, List.nodup_append, List.mem_cons, List.mem_append,
      List.mem_singleton, not_or, List.disjoint_left, List.nodup_nil, List.not_mem_nil] at hnd ⊢
    aesop
  · have e2 : head :: ((A ++ B) ++ [head]) = head :: A ++ (B ++ [head]) := by simp
    rw [e2, chain_append_iff]
    unfold list_del
    rw [hnx, hpx]
    refine ⟨chain_frame hcA ?_ ?_, chain_frame hcB' ?_ ?_, ?_, ?_⟩
    · intro a ha
      have : a ≠ lastOr head A := fun e => lastOr_not_mem_dropLast head A hndA (e ▸ ha)
      simp [this]
    · intro b hb
      have hb' : b ∈ A := by simpa using hb
      have : b ≠ firstOr head B := fun e =>
        (hdisj b (List.mem_cons_of_mem _ hb') (e ▸ firstOr_mem head B)).2.1 hb'
      simp [this]
    · intro a ha
      have ha' : a ∈ B := by simpa using ha
      have : a ≠ lastOr head A := fun e =>
        (hdisj a (e ▸ lastOr_mem head A) (List.mem_append_left _ ha')).2.2 ha'
      simp [this]
    · intro b hb
      have : b ≠ firstOr head B := fun e => firstOr_not_mem_tail head B hndB (e ▸ hb)
      simp [this]
    · simp
    · simp

theorem ring_add_tail {h : Heap} {head m : Nat} {A B : List Nat} (hr : Ring h head (A ++ B))
    (hm : m ∉ 0 :: head :: (A ++ B)) :
    Ring (list_add_tail h m (firstOr head B)) head (A ++ m :: B) := by
  have hl := hr.link
  have hnd := hr.1
  have hc := hr.chain
  have e : head :: ((A ++ B) ++ [head]) = head :: A ++ (B ++ [head]) := by simp
  rw [e, chain_append_iff] at hc
  obtain ⟨hcA, hcB, -⟩ := hc
  have hndA : (head :: A).Nodup := by
    simp only [List.nodup_cons, List.nodup_append, List.mem_cons, List.mem_append,
      List.mem_singleton, not_or, List.disjoint_left, List.nodup_nil, List.not_mem_nil] at hnd ⊢
    aesop
  have hndB : (B ++ [head]).Nodup := by
    simp only [List.nodup_cons, List.nodup_append, List.mem_cons, List.mem_append,
      List.mem_singleton, not_or, List.disjoint_left, List.nodup_nil, List.not_mem_nil] at hnd ⊢
    aesop
  have hdisj : ∀ a, a ∈ head :: A → a ∈ B ++ [head] → a = head ∧ a ∉ A ∧ a ∉ B := by
    simp only [List.nodup_cons, List.nodup_append, List.mem_cons, List.mem_append,
      List.mem_singleton, not_or, List.disjoint_left, List.nodup_nil, List.not_mem_nil] at hnd ⊢
    aesop
  have hmA : m ∉ head :: A := by
    simp only [List.mem_cons, List.mem_append, not_or] at hm ⊢; tauto
  have hmB : m ∉ B ++ [head] := by
    simp only [List.mem_cons, List.mem_append, List.mem_singleton, not_or] at hm ⊢; tauto
  refine Ring.of_chain ?_ ?_
  · simp only [List.nodup_cons, List.nodup_append, List.mem_cons, List.mem_append,
      List.mem_singleton, not_or, List.disjoint_left, List.nodup_nil, List.not_mem_nil] at hnd hm ⊢
    aesop
  · have e2 : head :: ((A ++ m :: B) ++ [head]) = head :: A ++ ((m :: B) ++ [head]) := by simp
    rw [e2, chain_append_iff]
    unfold list_add_tail
    rw [hl.2]
    have hp1 : lastOr head A ≠ m := fun e => hmA (e ▸ lastOr_mem head A)
    have hf1 : firstOr head B ≠ m := fun e => hmB (e ▸ firstOr_mem head B)
    refine ⟨chain_frame hcA ?_ ?_, ?_, ?_, ?_⟩
    · intro a ha
      have h1 : a ≠ lastOr head A := fun e => lastOr_not_mem_dropLast head A hndA (e ▸ ha)
      have h2 : a ≠ m := fun e => hmA (e ▸ List.mem_of_mem_dropLast ha)
      simp [h1, h2]
    · intro b hb
      have hb' : b ∈ A := by simpa using hb
      have h1 : b ≠ firstOr head B := fun e =>
        (hdisj b (List.mem_cons_of_mem _ hb') (e ▸ firstOr_mem head B)).2.1 hb'
      have h2 : b ≠ m := fun e => hmA (e ▸ List.mem_cons_of_mem _ hb')
      simp [h1, h2]
    · show List.Chain' _ (m :: (B ++ [head]))
      rw [List.chain'_cons', head?_concat_eq]
      refine ⟨?_, chain_frame hcB ?_ ?_⟩
      · intro y hy
        have : y = firstOr head B := by simpa using hy.symm
        subst this
        simp [Link, hf1.symm]
      · intro a ha
        have ha' : a ∈ B := by simpa using ha
        have h1 : a ≠ lastOr head A := fun e =>
          (hdisj a (e ▸ lastOr_mem head A) (List.mem_append_left _ ha')).2.2 ha'
        have h2 : a ≠ m := fun e => hmB (e ▸ List.mem_append_left _ ha')
        simp [h1, h2]
      · intro b hb
        have h1 : b ≠ firstOr head B := fun e => firstOr_not_mem_tail head B hndB (e ▸ hb)
        have h2 : b ≠ m := fun e => hmB (e ▸ List.mem_of_mem_tail hb)
        simp [h1, h2]
    · simp [hp1]
    · simp [hf1.symm]


@[simp] theorem setValue_next (h : Heap) (p : Nat) (v : List Nat) :
    (h.setValue p v).next = h.next := rfl
@[simp] theorem setValue_prev (h : Heap) (p : Nat) (v : List Nat) :
    (h.setValue p v).prev = h.prev := rfl
@[simp] theorem setValue_value (h : Heap) (p : Nat) (v : List Nat) (x : Nat) :
    (h.setValue p v).value x = if x = p then v else h.value x := rfl
@[simp] theorem setValue_q (h : Heap) (p : Nat) (v : List Nat) : (h.setValue p v).q = h.q := rfl
@[simp] theorem setValue_size (h : Heap) (p : Nat) (v : List Nat) :
    (h.setValue p v).size = h.size := rfl
@[simp] theorem setValue_released (h : Heap) (p : Nat) (v : List Nat) :
    (h.setValue p v).released = h.released := rfl
@[simp] theorem setSize_next (h : Heap) (p : Nat) (v : Int) : (h.setSize p v).next = h.next := rfl
@[simp] theorem setSize_prev (h : Heap) (p : Nat) (v : Int) : (h.setSize p v).prev = h.prev := rfl
@[simp] theorem setSize_value (h : Heap) (p : Nat) (v : Int) :
    (h.setSize p v).value = h.value := rfl
@[simp] theorem setSize_q (h : Heap) (p : Nat) (v : Int) : (h.setSize p v).q = h.q := rfl
@[simp] theorem setSize_size (h : Heap) (p : Nat) (v : Int) (x : Nat) :
    (h.setSize p v).size x = if x = p then v else h.size x := rfl
@[simp] theorem setSize_released (h : Heap) (p : Nat) (v : Int) :
    (h.setSize p v).released = h.released := rfl

@[simp] theorem list_del_value (h : Heap) (x : Nat) : (list_del h x).value = h.value := rfl
@[simp] theorem list_del_q (h : Heap) (x : Nat) : (list_del h x).q = h.q := rfl
@[simp] theorem list_del_size (h : Heap) (x : Nat) : (list_del h x).size = h.size := rfl
@[simp] theorem list_del_released (h : Heap) (x : Nat) :
    (list_del h x).released = h.released := rfl
@[simp] theorem list_del_init_value (h : Heap) (x : Nat) :
    (list_del_init h x).value = h.value := rfl
@[simp] theorem list_del_init_released (h : Heap) (x : Nat) :
    (list_del_init h x).released = h.released := rfl
@[simp] theorem list_add_tail_value (h : Heap) (m y : Nat) :
    (list_add_tail h m y).value = h.value := rfl
@[simp] theorem list_add_tail_q (h : Heap) (m y : Nat) : (list_add_tail h m y).q = h.q := rfl
@[simp] theorem list_add_tail_size (h : Heap) (m y : Nat) :
    (list_add_tail h m y).size = h.size := rfl
@[simp] theorem list_add_tail_released (h : Heap) (m y : Nat) :
    (list_add_tail h m y).released = h.released := rfl

theorem Ring.mid {h : Heap} {head x : Nat} {A B : List Nat} (hr : Ring h head (A ++ x :: B)) :
    x ∉ 0 :: head :: (A ++ B) ∧ (0 :: head :: (A ++ B)).Nodup := by
  have := List.nodup_middle.1 (show ((0 :: head :: A) ++ x :: B).Nodup from hr.1)
  exact List.nodup_cons.1 this

theorem Ring.frame {h h' : Heap} {head : Nat} {ns : List Nat} (hr : Ring h head ns)
    (hn : ∀ a ∈ head :: ns, h'.next a = h.next a)
    (hp : ∀ a ∈ head :: ns, h'.prev a = h.prev a) : Ring h' head ns := by
  refine Ring.of_chain hr.1 (chain_frame hr.chain ?_ ?_)
  · intro a ha
    have e : (head :: (ns ++ [head])).dropLast = head :: ns := by
      rw [← List.cons_append, List.dropLast_concat]
    rw [e] at ha
    exact hn a ha
  · intro b hb
    have hb' : b ∈ head :: ns := by
      simp only [List.tail_cons, List.mem_append, List.mem_singleton, List.mem_cons] at hb ⊢
      tauto
    exact hp b hb'

theorem Ring.head_ne_zero {h : Heap} {head : Nat} {ns : List Nat} (hr : Ring h head ns) :
    head ≠ 0 := by
  have := hr.1
  simp only [List.nodup_cons, List.mem_cons, not_or] at this
  exact fun e => this.1.1 e.symm

theorem Ring.ne_zero {h : Heap} {head x : Nat} {ns : List Nat} (hr : Ring h head ns)
    (hx : x ∈ ns) : x ≠ 0 := by
  have := hr.1
  simp only [List.nodup_cons, List.mem_cons, not_or] at this
  exact fun e => this.1.2 (e ▸ hx)

theorem Ring.ne_head {h : Heap} {head x : Nat} {ns : List Nat} (hr : Ring h head ns)
    (hx : x ∈ ns) : x ≠ head := by
  have := hr.1
  simp only [List.nodup_cons, List.mem_cons, not_or] at this
  exact fun e => this.2.1 (e ▸ hx)

theorem ring_init {h : Heap} {head : Nat} (h0 : head ≠ 0) : Ring (INIT_LIST_HEAD h head) head [] := by
  refine Ring.of_chain (by simp [Ne.symm h0]) ?_
  simp [INIT_LIST_HEAD, Link]

theorem Ring.empty_iff {h : Heap} {head : Nat} {ns : List Nat} (hr : Ring h head ns) :
    list_empty h head = true ↔ ns = [] := by
  unfold list_empty
  rw [hr.next_head]
  cases ns with
  | nil => simp
  | cons a t =>
    have := hr.ne_head (x := a) (by simp)
    simp [this]

theorem ring_del_init {h : Heap} {head x : Nat} {A B : List Nat}
    (hr : Ring h head (A ++ x :: B)) : Ring (list_del_init h x) head (A ++ B) := by
  have hx : x ∉ head :: (A ++ B) := fun hx => hr.mid.1 (List.mem_cons_of_mem _ hx)
  refine (ring_del hr).frame ?_ ?_
  · intro a ha
    have : a ≠ x := fun e => hx (e ▸ ha)
    simp [list_del_init, INIT_LIST_HEAD, this]
  · intro a ha
    have : a ≠ x := fun e => hx (e ▸ ha)
    simp [list_del_init, INIT_LIST_HEAD, this]

theorem Ring.lastOr_ne_zero {h : Heap} {head : Nat} {A B : List Nat} (hr : Ring h head (A ++ B)) :
    lastOr head A ≠ 0 := by
  have hm := lastOr_mem head A
  have hnd := hr.1
  intro e
  rw [e] at hm
  simp only [List.nodup_cons, List.nodup_append, List.mem_cons, List.mem_append,
    List.mem_singleton, not_or, List.disjoint_left, List.nodup_nil, List.not_mem_nil] at hnd hm
  aesop

theorem Ring.firstOr_ne_zero {h : Heap} {head : Nat} {A B : List Nat}
    (hr : Ring h head (A ++ B)) : firstOr head B ≠ 0 := by
  have hm := firstOr_mem head B
  have hnd := hr.1
  intro e
  rw [e] at hm
  simp only [List.nodup_cons, List.nodup_append, List.mem_cons, List.mem_append,
    List.mem_singleton, not_or, List.disjoint_left, List.nodup_nil, List.not_mem_nil] at hnd hm
  aesop

theorem Ring.mid_ne_last {h : Heap} {head x : Nat} {A B : List Nat}
    (hr : Ring h head (A ++ x :: B)) : x ≠ lastOr head A := by
  have hm := lastOr_mem head A
  intro e
  rw [← e] at hm
  refine hr.mid.1 (List.mem_cons_of_mem _ ?_)
  simp only [List.mem_cons, List.mem_append] at hm ⊢
  tauto

theorem Ring.mid_ne_first {h : Heap} {head x : Nat} {A B : List Nat}
    (hr : Ring h head (A ++ x :: B)) : x ≠ firstOr head B := by
  have hm := firstOr_mem head B
  intro e
  rw [← e] at hm
  refine hr.mid.1 (List.mem_cons_of_mem _ ?_)
  simp only [List.mem_cons, List.mem_append, List.mem_singleton] at hm ⊢
  tauto

/-- `q_remove_head` called on the node before `x` unlinks `x`. -/
theorem remove_head_at {h : Heap} {head x : Nat} {A B : List Nat}
    (hr : Ring h head (A ++ x :: B)) (sp : Option (Nat → Nat)) (n : Nat) :
    q_remove_head h (lastOr head A) sp n
      = (x, copy_out sp (h.value x) n, list_del_init h x) := by
  unfold q_remove_head list_empty
  rw [hr.next_last]
  simp [hr.lastOr_ne_zero, hr.mid_ne_last]

/-- `q_remove_tail` called on the node after `x` unlinks `x`. -/
theorem remove_tail_at {h : Heap} {head x : Nat} {A B : List Nat}
    (hr : Ring h head (A ++ x :: B)) (sp : Option (Nat → Nat)) (n : Nat) :
    q_remove_tail h (firstOr head B) sp n
      = (x, copy_out sp (h.value x) n, list_del h x) := by
  have h1 : firstOr head B ≠ 0 := by
    have := Ring.firstOr_ne_zero (A := A ++ [x]) (B := B) (by simpa using hr)
    exact this
  have h2 : h.next (firstOr head B) ≠ firstOr head B := by
    intro e
    have hl := Ring.link (A := A ++ [x]) (B := B) (by simpa using hr)
    have hp := hl.2
    simp only [lastOr_append_cons, lastOr_nil] at hp
    cases B with
    | nil =>
      simp only [firstOr_nil] at e hp
      have := hr.next_head
      rw [e] at this
      cases A with
      | nil => simp at this; exact hr.mid_ne_first (by simpa using this.symm)
      | cons a A =>
        simp only [List.cons_append, firstOr_cons] at this
        exact hr.ne_head (x := a) (by simp) this.symm
    | cons b B =>
      simp only [firstOr_cons] at e hp
      have hr' : Ring h head ((A ++ [x]) ++ b :: B) := by simpa using hr
      have := hr'.next_mem
      rw [e] at this
      exact hr'.mid_ne_first this
  unfold q_remove_tail list_empty
  rw [hr.prev_first]
  simp [h1, h2]

theorem insert_tail_ring {h : Heap} {head m : Nat} {ns : List Nat} (hr : Ring h head ns)
    (hm : m ∉ 0 :: head :: ns) (s : List Nat) :
    q_insert_tail h head s m true = (true, list_add_tail (h.setValue m s) m head) ∧
      Ring (list_add_tail (h.setValue m s) m head) head (ns ++ [m]) := by
  have hm0 : m ≠ 0 := fun e => hm (by simp [e])
  refine ⟨by simp [q_insert_tail, q_create_element, hr.head_ne_zero, hm0], ?_⟩
  have hr0 : Ring (h.setValue m s) head ns := hr.frame (by simp) (by simp)
  have hr1 : Ring (h.setValue m s) head (ns ++ []) := by simpa using hr0
  have := ring_add_tail (m := m) hr1 (by simpa using hm)
  simpa using this

theorem insert_tails_ring : ∀ (xs : List (List Nat)) (ms : List Nat) (h : Heap) (head : Nat)
    (ns : List Nat), Ring h head ns → ms.length = xs.length → (0 :: head :: (ns ++ ms)).Nodup →
    (insert_tails h head xs ms).1 = true ∧ Ring (insert_tails h head xs ms).2 head (ns ++ ms) ∧
      (ns ++ ms).map (insert_tails h head xs ms).2.value = ns.map h.value ++ xs
  | [], [], h, head, ns, hr, _, _ => by simpa [insert_tails] using hr
  | [], _ :: _, _, _, _, _, hl, _ => by simp at hl
  | _ :: _, [], _, _, _, _, hl, _ => by simp at hl
  | x :: xs, m :: ms, h, head, ns, hr, hl, hnd => by
    have hm : m ∉ 0 :: head :: ns := by
      have := List.nodup_middle.1 (show ((0 :: head :: ns) ++ m :: ms).Nodup from hnd)
      intro hm
      exact (List.nodup_cons.1 this).1 (by
        simp only [List.mem_cons, List.mem_append] at hm ⊢; tauto)
    obtain ⟨e, hr1⟩ := insert_tail_ring hr hm x
    have ih := insert_tails_ring xs ms _ head (ns ++ [m]) hr1 (by simpa using hl)
      (by simpa using hnd)
    have hmns : m ∉ ns := fun hx => hm (by simp [hx])
    have hv : List.map (h.setValue m x).value ns = List.map h.value ns := by
      apply List.map_congr_left
      intro a ha
      have : a ≠ m := fun e => hmns (e ▸ ha)
      simp [this]
    simp only [insert_tails, e, Bool.true_and]
    simp only [List.append_assoc, List.singleton_append, List.map_append, List.map_cons,
      List.map_nil, list_add_tail_value, setValue_value, if_true, hv] at ih
    simpa using ih

theorem remove_heads_ring : ∀ (ns : List Nat) (h : Heap) (head : Nat), Ring h head ns →
    (remove_heads ns.length h head).1 = ns.map (fun a => some (h.value a)) ∧
      Ring (remove_heads ns.length h head).2 head []
  | [], h, head, hr => by simpa [remove_heads] using hr
  | x :: B, h, head, hr => by
    have e := remove_head_at (A := []) (x := x) (B := B) hr none 0
    have hr1 := ring_del_init (A := []) (x := x) (B := B) hr
    simp only [lastOr_nil, List.nil_append] at e hr1
    have ih := remove_heads_ring B _ head hr1
    have hx : x ≠ 0 := hr.ne_zero (by simp)
    simp only [List.length_cons, remove_heads, e, node_get_val, hx, if_false, List.map_cons]
    simpa using ih

theorem remove_tails_ring (ns : List Nat) : ∀ (h : Heap) (head : Nat), Ring h head ns →
    (remove_tails ns.length h head).1 = ns.reverse.map (fun a => some (h.value a)) ∧
      Ring (remove_tails ns.length h head).2 head [] := by
  induction ns using List.reverseRecOn with
  | nil => intro h head hr; simpa [remove_tails] using hr
  | append_singleton A x ih =>
    intro h head hr
    have e := remove_tail_at (A := A) (x := x) (B := []) hr none 0
    have hr1 := ring_del (A := A) (x := x) (B := []) hr
    simp only [firstOr_nil, List.append_nil] at e hr1
    have ih' := ih _ head hr1
    have hx : x ≠ 0 := hr.ne_zero (by simp)
    simp only [List.length_append, List.length_singleton, remove_tails, e, node_get_val, hx,
      if_false, List.reverse_append, List.reverse_singleton, List.singleton_append, List.map_cons]
    simpa using ih'

/-- C10: strings inserted at the tail of an empty queue (every allocation succeeding,
each returning a fresh address) come back in insertion order from `q_remove_head` called
as many times, in reverse order from `q_remove_tail`, and the queue ends empty. -/
theorem insert_tail_remove_roundtrip (h : Heap) (head : Nat) (xs : List (List Nat))
    (ms : List Nat) (hr : Ring h head []) (hlen : ms.length = xs.length)
    (hfresh : (0 :: head :: ms).Nodup) :
    (insert_tails h head xs ms).1 = true ∧
    (remove_heads xs.length (insert_tails h head xs ms).2 head).1 = xs.map some ∧
    Ring (remove_heads xs.length (insert_tails h head xs ms).2 head).2 head [] ∧
    (remove_tails xs.length (insert_tails h head xs ms).2 head).1 = xs.reverse.map some ∧
    Ring (remove_tails xs.length (insert_tails h head xs ms).2 head).2 head [] := by
  obtain ⟨h1, h2, h3⟩ := insert_tails_ring xs ms h head [] hr hlen (by simpa using hfresh)
  simp only [List.nil_append, List.map_nil] at h2 h3
  have a := remove_heads_ring ms _ head h2
  have b := remove_tails_ring ms _ head h2
  rw [hlen] at a b
  refine ⟨h1, ?_, a.2, ?_, b.2⟩
  · rw [a.1]; conv_rhs => rw [← h3]
    rw [List.map_map]; rfl
  · rw [b.1]; conv_rhs => rw [← h3]
    rw [← List.map_reverse, List.map_map]; rfl

/-- The round trip of C10 on the strings "a", "b", "c" inserted into a fresh queue. -/
theorem insert_tail_remove_roundtrip_witness :
    (insert_tails (q_new Heap.blank 1).2 1 [[97], [98], [99]] [2, 3, 4]).1 = true ∧
    (remove_heads 3 (insert_tails (q_new Heap.blank 1).2 1 [[97], [98], [99]] [2, 3, 4]).2 1).1
      = [some [97], some [98], some [99]] ∧
    Ring (remove_heads 3
      (insert_tails (q_new Heap.blank 1).2 1 [[97], [98], [99]] [2, 3, 4]).2 1).2 1 [] ∧
    (remove_tails 3 (insert_tails (q_new Heap.blank 1).2 1 [[97], [98], [99]] [2, 3, 4]).2 1).1
      = [some [99], some [98], some [97]] ∧
    Ring (remove_tails 3
      (insert_tails (q_new Heap.blank 1).2 1 [[97], [98], [99]] [2, 3, 4]).2 1).2 1 [] :=
  insert_tail_remove_roundtrip (q_new Heap.blank 1).2 1 [[97], [98], [99]] [2, 3, 4]
    (by decide) (by decide) (by decide)

@[simp] theorem release_next (h : Heap) (e : Nat) : (q_release_element h e).next = h.next := by
  unfold q_release_element; split <;> rfl
@[simp] theorem release_prev (h : Heap) (e : Nat) : (q_release_element h e).prev = h.prev := by
  unfold q_release_element; split <;> rfl
@[simp] theorem release_value (h : Heap) (e : Nat) :
    (q_release_element h e).value = h.value := by
  unfold q_release_element; split <;> rfl
@[simp] theorem release_q (h : Heap) (e : Nat) : (q_release_element h e).q = h.q := by
  unfold q_release_element; split <;> rfl
@[simp] theorem release_size (h : Heap) (e : Nat) : (q_release_element h e).size = h.size := by
  unfold q_release_element; split <;> rfl

theorem Ring.release {h : Heap} {head : Nat} {ns : List Nat} (hr : Ring h head ns) (e : Nat) :
    Ring (q_release_element h e) head ns :=
  hr.frame (by simp) (by simp)

theorem build_ring (xs : List (List Nat)) :
    Ring (build xs) 1 (List.range' 2 xs.length) ∧
      (List.range' 2 xs.length).map (build xs).value = xs := by
  have h0 : Ring (q_new Heap.blank 1).2 1 [] := ring_init (by decide)
  have hnd : (0 :: 1 :: ([] ++ List.range' 2 xs.length)).Nodup := by
    simp only [List.nil_append, List.nodup_cons, List.mem_cons, List.mem_range', not_or]
    refine ⟨⟨by decide, ?_⟩, ?_, List.nodup_range' 2 xs.length⟩ <;> simp <;> omega
  have := insert_tails_ring xs (List.range' 2 xs.length) _ 1 [] h0 (by simp) hnd
  simpa [build] using this.2

theorem Ring.next_drop {h : Heap} {head : Nat} {ns : List Nat} (hr : Ring h head ns) (j : Nat)
    (hj : j < ns.length) :
    h.next (firstOr head (ns.drop j)) = firstOr head (ns.drop (j + 1)) := by
  have e : ns = ns.take j ++ ns[j] :: ns.drop (j + 1) := by
    rw [← List.drop_eq_getElem_cons hj, List.take_append_drop]
  have hr' := hr
  rw [e] at hr'
  rw [List.drop_eq_getElem_cons hj]
  exact hr'.next_mem

theorem Ring.next_take {h : Heap} {head : Nat} {ns : List Nat} (hr : Ring h head ns) (i : Nat)
    (hi : i < ns.length) :
    h.next (lastOr head (ns.take i)) = lastOr head (ns.take (i + 1)) := by
  have e : ns = ns.take i ++ ns[i] :: ns.drop (i + 1) := by
    rw [← List.drop_eq_getElem_cons hi, List.take_append_drop]
  have hr' := hr
  rw [e] at hr'
  have e2 : ns.take (i + 1) = ns.take i ++ [ns[i]] := by
    rw [List.take_succ, List.getElem?_eq_getElem hi]; rfl
  rw [e2, lastOr_append_cons, lastOr_nil]
  exact hr'.next_last

theorem firstOr_drop_eq_head {h : Heap} {head : Nat} {ns : List Nat} (hr : Ring h head ns)
    (j : Nat) : firstOr head (ns.drop j) = head ↔ ns.length ≤ j := by
  constructor
  · intro e
    by_contra hj
    rw [not_le] at hj
    rw [List.drop_eq_getElem_cons hj, firstOr_cons] at e
    exact hr.ne_head (List.getElem_mem _) e
  · intro hj
    rw [List.drop_eq_nil_of_le hj]; rfl

theorem q_delete_mid_loop_spec {h : Heap} {head : Nat} {ns : List Nat} (hr : Ring h head ns) :
    ∀ (fuel i : Nat), 2 * i ≤ ns.length → ns.length < 2 * (i + fuel) →
      q_delete_mid_loop fuel h head (lastOr head (ns.take i)) (firstOr head (ns.drop (2 * i)))
        = .ok (lastOr head (ns.take (ns.length / 2)))
  | 0, i, h1, h2 => by omega
  | fuel + 1, i, h1, h2 => by
    unfold q_delete_mid_loop
    by_cases c1 : firstOr head (ns.drop (2 * i)) = head
    · have := (firstOr_drop_eq_head hr _).1 c1
      have e : ns.length / 2 = i := by omega
      simp [c1, e]
    · have hlt : 2 * i < ns.length := by
        have := (firstOr_drop_eq_head hr (2 * i)).not.1 c1
        omega
      rw [hr.next_drop _ hlt]
      by_cases c2 : firstOr head (ns.drop (2 * i + 1)) = head
      · have := (firstOr_drop_eq_head hr _).1 c2
        have e : ns.length / 2 = i := by omega
        simp [c1, c2, e]
      · have hlt2 : 2 * i + 1 < ns.length := by
          have := (firstOr_drop_eq_head hr (2 * i + 1)).not.1 c2
          omega
        rw [if_pos ⟨c1, c2⟩, hr.next_drop _ hlt2, hr.next_take i (by omega)]
        have := q_delete_mid_loop_spec hr fuel (i + 1) (by omega) (by omega)
        rw [show 2 * (i + 1) = 2 * i + 1 + 1 by ring] at this
        exact this

/-- C9: on a non-empty queue of `n` elements `q_delete_mid` returns `true` and unlinks
exactly the node at 0-based index `n / 2`; every other node stays, in order, with its
value, and the unlinked element is the one released. -/
theorem q_delete_mid_removes_middle (h : Heap) (head : Nat) (ns : List Nat) (fuel : Nat)
    (hr : Ring h head ns) (hne : ns ≠ []) (hfuel : ns.length ≤ fuel) :
    ∃ h', q_delete_mid fuel h head = .ok (true, h') ∧
      Ring h' head (ns.eraseIdx (ns.length / 2)) ∧ h'.value = h.value ∧
      (∀ x ∈ ns[ns.length / 2]?, h'.released = x :: h.released) := by
  have hpos : 0 < ns.length := List.length_pos.2 hne
  have hmid : ns.length / 2 < ns.length := Nat.div_lt_self hpos (by decide)
  have hloop := q_delete_mid_loop_spec hr fuel 0 (by omega) (by omega)
  simp only [List.take_zero, lastOr_nil, Nat.mul_zero, List.drop_zero] at hloop
  rw [← hr.next_head] at hloop
  have hemp : list_empty h head = false := by
    have := hr.empty_iff.not.2 hne
    simpa using this
  have e : ns = ns.take (ns.length / 2) ++ ns[ns.length / 2] :: ns.drop (ns.length / 2 + 1) := by
    rw [← List.drop_eq_getElem_cons hmid, List.take_append_drop]
  have hr' := hr
  rw [e] at hr'
  have hrem := remove_head_at hr' none 0
  have hring := ring_del_init hr'
  rw [← List.eraseIdx_eq_take_drop_succ] at hring
  have hx0 : ns[ns.length / 2] ≠ 0 := hr.ne_zero (List.getElem_mem _)
  refine ⟨q_release_element (list_del_init h ns[ns.length / 2]) ns[ns.length / 2], ?_,
    hring.release _, ?_, ?_⟩
  · simp only [q_delete_mid, hr.head_ne_zero, hemp, false_or, Bool.false_eq_true, if_false,
      hloop, hrem]
  · simp
  · intro x hx
    rw [List.getElem?_eq_getElem hmid] at hx
    cases hx
    simp [q_release_element, hx0]

/-- The queue "1","2","3" loses its middle element "2" (C9 at a concrete queue). -/
theorem q_delete_mid_removes_middle_witness :
    ∃ h', q_delete_mid 3 (build [[49], [50], [51]]) 1 = .ok (true, h') ∧
      Ring h' 1 ([2, 3, 4].eraseIdx ([2, 3, 4].length / 2)) ∧
      h'.value = (build [[49], [50], [51]]).value ∧
      (∀ x ∈ [2, 3, 4][[2, 3, 4].length / 2]?,
        h'.released = x :: (build [[49], [50], [51]]).released) :=
  q_delete_mid_removes_middle (build [[49], [50], [51]]) 1 [2, 3, 4] 3
    (by decide) (by decide) (by decide)


/-! ## The order `strcmp` induces -/

theorem strcmp_range : ∀ (a b : List Nat), strcmp a b = -1 ∨ strcmp a b = 0 ∨ strcmp a b = 1
  | [], [] => by simp [strcmp]
  | [], _ :: _ => by simp [strcmp]
  | _ :: _, [] => by simp [strcmp]
  | a :: as, b :: bs => by
    unfold strcmp
    split
    · simp
    · split
      · simp
      · exact strcmp_range as bs

theorem strcmp_antisymm : ∀ (a b : List Nat), strcmp b a = - strcmp a b
  | [], [] => by simp [strcmp]
  | [], _ :: _ => by simp [strcmp]
  | _ :: _, [] => by simp [strcmp]
  | a :: as, b :: bs => by
    have ih := strcmp_antisymm as bs
    unfold strcmp
    by_cases h1 : a < b
    · have h2 : ¬ b < a := by omega
      simp [h1, h2]
    · by_cases h2 : b < a
      · simp [h1, h2]
      · simp [h1, h2, ih]

theorem strcmp_self (a : List Nat) : strcmp a a = 0 := by
  have := strcmp_antisymm a a
  omega

theorem strcmp_eq_zero : ∀ (a b : List Nat), strcmp a b = 0 → a = b
  | [], [], _ => rfl
  | [], _ :: _, h => by simp [strcmp] at h
  | _ :: _, [], h => by simp [strcmp] at h
  | a :: as, b :: bs, h => by
    unfold strcmp at h
    by_cases h1 : a < b
    · simp [h1] at h
    · by_cases h2 : b < a
      · simp [h1, h2] at h
      · simp only [h1, h2, if_false] at h
        have := strcmp_eq_zero as bs h
        have : a = b := by omega
        simp [*]

theorem strcmp_le_trans : ∀ (a b c : List Nat), strcmp a b ≤ 0 → strcmp b c ≤ 0 →
    strcmp a c ≤ 0
  | [], _, [], _, _ => by simp [strcmp]
  | [], _, _ :: _, _, _ => by simp [strcmp]
  | _ :: _, [], _, h, _ => by simp [strcmp] at h
  | _ :: _, _ :: _, [], _, h => by simp [strcmp] at h
  | a :: as, b :: bs, c :: cs, h1, h2 => by
    have ih := strcmp_le_trans as bs cs
    unfold strcmp at h1 h2 ⊢
    by_cases ab : a < b
    · by_cases bc : b < c
      · have : a < c := by omega
        simp [this]
      · by_cases cb : c < b
        · simp [bc, cb] at h2
        · have : a < c := by omega
          simp [this]
    · by_cases ba : b < a
      · simp [ab, ba] at h1
      · simp only [ab, ba, if_false] at h1
        have e : a = b := by omega
        subst e
        by_cases bc : a < c
        · simp [bc]
        · by_cases cb : c < a
          · simp [bc, cb] at h2
          · simp only [bc, cb, if_false] at h2 ⊢
            exact ih h1 h2

theorem strcmp_lt_iff_gt (a b : List Nat) : strcmp a b < 0 ↔ 0 < strcmp b a := by
  have := strcmp_antisymm a b
  omega

theorem strcmp_le_total (a b : List Nat) : strcmp a b ≤ 0 ∨ strcmp b a ≤ 0 := by
  have := strcmp_antisymm a b
  omega

theorem strcmp_lt_of_lt_of_le {a b c : List Nat} (h1 : strcmp a b < 0) (h2 : strcmp b c ≤ 0) :
    strcmp a c < 0 := by
  by_contra hn
  have h3 : strcmp c a ≤ 0 := by have := strcmp_antisymm a c; omega
  have h4 := strcmp_le_trans b c a h2 h3
  have := strcmp_antisymm a b
  omega

theorem strcmp_lt_of_le_of_lt {a b c : List Nat} (h1 : strcmp a b ≤ 0) (h2 : strcmp b c < 0) :
    strcmp a c < 0 := by
  by_contra hn
  have h3 : strcmp c a ≤ 0 := by have := strcmp_antisymm a c; omega
  have h4 := strcmp_le_trans c a b h3 h1
  have := strcmp_antisymm b c
  omega

theorem int32_of_range {x : Int} (h1 : -2147483648 ≤ x) (h2 : x < 2147483648) : int32 x = x := by
  unfold int32
  omega

/-! ## `q_ascend` and `q_descend` -/

theorem q_ascend_loop_eq : ∀ (fuel : Nat) (h : Heap) (head : Nat) (count : Int)
    (val : Option (List Nat)) (bw : Nat),
    q_ascend_loop fuel h head count val bw
      = keep_loop (fun c => decide (c > 0)) fuel h head count val bw
  | 0, _, _, _, _, _ => rfl
  | fuel + 1, h, head, count, val, bw => by
    unfold q_ascend_loop keep_loop
    simp only [q_ascend_loop_eq fuel, decide_eq_true_eq]

theorem q_descend_loop_eq : ∀ (fuel : Nat) (h : Heap) (head : Nat) (count : Int)
    (val : Option (List Nat)) (bw : Nat),
    q_descend_loop fuel h head count val bw
      = keep_loop (fun c => decide (c < 0)) fuel h head count val bw
  | 0, _, _, _, _, _ => rfl
  | fuel + 1, h, head, count, val, bw => by
    unfold q_descend_loop keep_loop
    simp only [q_descend_loop_eq fuel, decide_eq_true_eq]

theorem scan_keep_length (drop : Int → Bool) (v : Nat → List Nat) : ∀ (R : List Nat) (bw : Nat)
    (K : List Nat), K.length ≤ (scan_keep drop v R bw K).length ∧
      (scan_keep drop v R bw K).length ≤ R.length + K.length
  | [], _, K => by simp [scan_keep]
  | a :: R, bw, K => by
    unfold scan_keep
    split
    · have := scan_keep_length drop v R bw K
      simp only [List.length_cons]; omega
    · have := scan_keep_length drop v R a (a :: K)
      simp only [List.length_cons] at this ⊢; omega

theorem keep_loop_spec (drop : Int → Bool) (head : Nat) : ∀ (R : List Nat) (bw : Nat)
    (K : List Nat) (h : Heap) (fuel : Nat),
    Ring h head (R.reverse ++ bw :: K) → R.length < fuel →
    (scan_keep drop h.value R bw (bw :: K)).length < 2147483648 →
    ∃ h', keep_loop drop fuel h head ((K.length + 1 : Nat) : Int) (some (h.value bw)) bw
        = .ok (((scan_keep drop h.value R bw (bw :: K)).length : Int), h') ∧
      Ring h' head (scan_keep drop h.value R bw (bw :: K)) ∧ h'.value = h.value
  | [], bw, K, h, fuel, hr, hf, _ => by
    obtain ⟨fuel, rfl⟩ : ∃ f, fuel = f + 1 := ⟨fuel - 1, by simp at hf; omega⟩
    have hp : h.prev bw = head := by
      have := Ring.prev_mem (A := []) (by simpa using hr)
      simpa using this
    refine ⟨h, ?_, by simpa [scan_keep] using hr, rfl⟩
    simp [keep_loop, hp, scan_keep]
  | a :: R, bw, K, h, fuel, hr, hf, hc => by
    obtain ⟨fuel, rfl⟩ : ∃ f, fuel = f + 1 := ⟨fuel - 1, by simp at hf; omega⟩
    have hr' : Ring h head (R.reverse ++ a :: bw :: K) := by simpa using hr
    have hr2 : Ring h head ((R.reverse ++ [a]) ++ bw :: K) := by simpa using hr
    have hp : h.prev bw = a := by
      have := hr2.prev_mem
      simpa using this
    have ha0 : a ≠ 0 := hr'.ne_zero (by simp)
    have hah : a ≠ head := hr'.ne_head (by simp)
    simp only [List.length_cons] at hf
    unfold keep_loop
    simp only [hp, ne_eq, hah, not_false_eq_true, if_true, node_get_val, ha0, if_false, strcmpP]
    by_cases hd : drop (strcmp (h.value a) (h.value bw)) = true
    · have hrem := remove_tail_at hr' none 0
      simp only [firstOr_cons] at hrem
      have hring := (ring_del hr').release a
      have hc' : (scan_keep drop h.value R bw (bw :: K)).length < 2147483648 := by
        simpa [scan_keep, hd] using hc
      obtain ⟨h', e1, e2, e3⟩ := keep_loop_spec drop head R bw K _ fuel hring (by omega)
        (by simpa using hc')
      simp only [release_value, list_del_value] at e1 e2 e3
      refine ⟨h', ?_, ?_, e3⟩
      · simp only [hd, if_true, hrem, scan_keep]
        exact e1
      · simpa [scan_keep, hd] using e2
    · have hc' : (scan_keep drop h.value R a (a :: bw :: K)).length < 2147483648 := by
        simpa [scan_keep, hd] using hc
      obtain ⟨h', e1, e2, e3⟩ := keep_loop_spec drop head R a (bw :: K) h fuel hr'
        (by omega) hc'
      have hlen := (scan_keep_length drop h.value R a (a :: bw :: K)).1
      simp only [List.length_cons] at hlen
      have hi : int32 (((K.length + 1 : Nat) : Int) + 1) = (((K.length + 1 + 1 : Nat)) : Int) := by
        rw [int32_of_range] <;> push_cast <;> omega
      refine ⟨h', ?_, ?_, e3⟩
      · simp only [hd, Bool.false_eq_true, if_false, hi, scan_keep]
        exact e1
      · simpa [scan_keep, hd] using e2

theorem undominated_sublist (beats : Nat → Nat → Bool) : ∀ (l : List Nat),
    (undominated beats l).Sublist l
  | [] => List.Sublist.slnil
  | a :: t => by
    unfold undominated
    split
    · exact (undominated_sublist beats t).cons a
    · exact (undominated_sublist beats t).cons₂ a

theorem undominated_pairwise (beats : Nat → Nat → Bool) : ∀ (l : List Nat),
    (undominated beats l).Pairwise (fun a b => beats b a = false)
  | [] => List.Pairwise.nil
  | a :: t => by
    unfold undominated
    split
    · exact undominated_pairwise beats t
    · rename_i hn
      refine List.Pairwise.cons ?_ (undominated_pairwise beats t)
      intro b hb
      have hb' := (undominated_sublist beats t).subset hb
      simp only [List.any_eq_true, not_exists, not_and, Bool.not_eq_true] at hn
      exact hn b hb'

theorem undominated_drop_mid (beats : Nat → Nat → Bool)
    (htrans : ∀ a b c, beats c b = true → beats b a = true → beats c a = true)
    (a : Nat) (K : List Nat) (hK : ∃ b ∈ K, beats b a = true) : ∀ (P : List Nat),
    undominated beats (P ++ a :: K) = undominated beats (P ++ K)
  | [] => by
    have : K.any (fun b => beats b a) = true := by simpa using hK
    simp [undominated, this]
  | p :: P => by
    have ih := undominated_drop_mid beats htrans a K hK P
    have e : (P ++ a :: K).any (fun b => beats b p) = (P ++ K).any (fun b => beats b p) := by
      rw [Bool.eq_iff_iff]
      simp only [List.any_eq_true, List.mem_append, List.mem_cons]
      constructor
      · rintro ⟨x, hx | rfl | hx, hb⟩
        · exact ⟨x, Or.inl hx, hb⟩
        · obtain ⟨b, hbK, hba⟩ := hK
          exact ⟨b, Or.inr hbK, htrans _ _ _ hba hb⟩
        · exact ⟨x, Or.inr hx, hb⟩
      · rintro ⟨x, hx | hx, hb⟩
        · exact ⟨x, Or.inl hx, hb⟩
        · exact ⟨x, Or.inr (Or.inr hx), hb⟩
    show undominated beats (p :: (P ++ a :: K)) = undominated beats (p :: (P ++ K))
    rw [undominated, undominated, e, ih]

theorem scan_keep_eq_undominated (drop : Int → Bool) (v : Nat → List Nat)
    (beats : Nat → Nat → Bool)
    (hdrop : ∀ a b, drop (strcmp (v a) (v b)) = beats b a)
    (hirr : ∀ a, beats a a = false)
    (htrans : ∀ a b c, beats c b = true → beats b a = true → beats c a = true)
    (hneg : ∀ a b c, beats b a = false → beats c b = false → beats c a = false) :
    ∀ (R : List Nat) (bw : Nat) (K : List Nat),
      undominated beats (bw :: K) = bw :: K → (∀ k ∈ bw :: K, beats k bw = false) →
      scan_keep drop v R bw (bw :: K) = undominated beats (R.reverse ++ bw :: K)
  | [], bw, K, hK, _ => by simp [scan_keep, hK]
  | a :: R, bw, K, hK, hmin => by
    unfold scan_keep
    by_cases hd : drop (strcmp (v a) (v bw)) = true
    · rw [if_pos hd, scan_keep_eq_undominated drop v beats hdrop hirr htrans hneg R bw K hK hmin]
      have := undominated_drop_mid beats htrans a (bw :: K)
        ⟨bw, by simp, by rw [← hdrop]; exact hd⟩ R.reverse
      simp only [List.reverse_cons, List.append_assoc, List.singleton_append]
      exact this.symm
    · rw [if_neg hd]
      have hba : beats bw a = false := by
        rw [← hdrop]; simpa using hd
      have hmin' : ∀ k ∈ a :: bw :: K, beats k a = false := by
        intro k hk
        rcases List.mem_cons.1 hk with rfl | hk
        · exact hirr _
        · exact hneg _ _ _ hba (hmin k hk)
      have hK' : undominated beats (a :: bw :: K) = a :: bw :: K := by
        have : (bw :: K).any (fun b => beats b a) = false := by
          rw [List.any_eq_false]
          intro k hk
          simpa using hmin' k (List.mem_cons_of_mem _ hk)
        rw [undominated, this, hK]; rfl
      rw [scan_keep_eq_undominated drop v beats hdrop hirr htrans hneg R a (bw :: K) hK' hmin']
      simp


theorem keep_loop_main (drop : Int → Bool) (beats : Nat → Nat → Bool) (h : Heap) (head : Nat)
    (ns : List Nat) (fuel : Nat)
    (hdrop : ∀ a b, drop (strcmp (h.value a) (h.value b)) = beats b a)
    (hirr : ∀ a, beats a a = false)
    (htrans : ∀ a b c, beats c b = true → beats b a = true → beats c a = true)
    (hneg : ∀ a b c, beats b a = false → beats c b = false → beats c a = false)
    (hr : Ring h head ns) (hne : ns ≠ []) (hfuel : ns.length ≤ fuel)
    (hint : (undominated beats ns).length < 2147483648) :
    ∃ h', keep_loop drop fuel h head 1 (node_get_val h (h.prev head)) (h.prev head)
        = .ok (((undominated beats ns).length : Int), h') ∧
      Ring h' head (undominated beats ns) ∧ h'.value = h.value := by
  rcases List.eq_nil_or_concat ns with rfl | ⟨A, t, rfl⟩
  · exact absurd rfl hne
  · have hp : h.prev head = t := by
      have := hr.prev_head
      simpa using this
    have ht0 : t ≠ 0 := hr.ne_zero (by simp)
    have hr' : Ring h head (A.reverse.reverse ++ t :: []) := by simpa using hr
    simp only [List.concat_eq_append, List.length_append, List.length_singleton] at hfuel hint ⊢
    have hs := scan_keep_eq_undominated drop h.value beats hdrop hirr htrans hneg A.reverse t []
      (by simp [undominated]) (by simpa using hirr t)
    simp only [List.reverse_reverse] at hs
    obtain ⟨h', e1, e2, e3⟩ := keep_loop_spec drop head A.reverse t [] h fuel hr'
      (by simp; omega) (by rw [hs]; exact hint)
    rw [hs] at e1 e2
    refine ⟨h', ?_, e2, e3⟩
    rw [hp]
    simp only [node_get_val, ht0, if_false]
    exact e1

/-- C7: on a non-empty queue `q_ascend` leaves exactly the nodes that have no node with a
strictly smaller value anywhere to their right, in their original order and with their
values, so the survivors are weakly non-decreasing, and it returns their number. -/
theorem q_ascend_keeps_no_smaller_right (h : Heap) (head : Nat) (ns : List Nat) (fuel : Nat)
    (hr : Ring h head ns) (hne : ns ≠ []) (hfuel : ns.length ≤ fuel)
    (hint : (no_smaller_right h.value ns).length < 2147483648) :
    ∃ h', q_ascend fuel h head = .ok (((no_smaller_right h.value ns).length : Int), h') ∧
      Ring h' head (no_smaller_right h.value ns) ∧ h'.value = h.value ∧
      (no_smaller_right h.value ns).Sublist ns ∧
      (no_smaller_right h.value ns).Pairwise
        (fun a b => strcmp (h.value a) (h.value b) ≤ 0) := by
  have hemp : list_empty h head = false := by
    have := hr.empty_iff.not.2 hne
    simpa using this
  obtain ⟨h', e1, e2, e3⟩ := keep_loop_main (fun c => decide (c > 0))
    (fun b a => decide (strcmp (h.value b) (h.value a) < 0)) h head ns fuel
    (by
      intro a b
      have := strcmp_antisymm (h.value a) (h.value b)
      rw [Bool.eq_iff_iff]; simp only [decide_eq_true_eq]; omega)
    (by intro a; simp [strcmp_self])
    (by
      intro a b c h1 h2
      simp only [decide_eq_true_eq] at h1 h2 ⊢
      exact strcmp_lt_of_lt_of_le h1 (le_of_lt h2))
    (by
      intro a b c h1 h2
      simp only [decide_eq_false_iff_not, not_lt] at h1 h2 ⊢
      have h3 := strcmp_antisymm (h.value a) (h.value b)
      have h4 := strcmp_antisymm (h.value b) (h.value c)
      have h5 := strcmp_antisymm (h.value a) (h.value c)
      have := strcmp_le_trans (h.value a) (h.value b) (h.value c) (by omega) (by omega)
      omega)
    hr hne hfuel hint
  refine ⟨h', ?_, e2, e3, undominated_sublist _ _, ?_⟩
  · simp only [q_ascend, hr.head_ne_zero, hemp, false_or, Bool.false_eq_true, if_false,
      q_ascend_loop_eq]
    exact e1
  · refine (undominated_pairwise _ ns).imp ?_
    intro a b hab
    simp only [decide_eq_false_iff_not, not_lt] at hab
    have := strcmp_antisymm (h.value a) (h.value b)
    omega

/-- The queue "5","3","4","1","2" keeps "1","2" and `q_ascend` returns 2 (C7 at a
concrete queue). -/
theorem q_ascend_keeps_no_smaller_right_witness :
    ∃ h', q_ascend 5 (build [[53], [51], [52], [49], [50]]) 1 = .ok (2, h') ∧
      Ring h' 1 [5, 6] ∧ h'.value = (build [[53], [51], [52], [49], [50]]).value := by
  obtain ⟨h', e1, e2, e3, -, -⟩ := q_ascend_keeps_no_smaller_right
    (build [[53], [51], [52], [49], [50]]) 1 [2, 3, 4, 5, 6] 5
    (by decide) (by decide) (by decide) (by decide)
  exact ⟨h', e1, e2, e3⟩

/-- C8: on a non-empty queue `q_descend` leaves exactly the nodes that have no node with
a strictly greater value anywhere to their right, in their original order and with their
values, so the survivors are weakly non-increasing, and it returns their number. -/
theorem q_descend_keeps_no_greater_right (h : Heap) (head : Nat) (ns : List Nat) (fuel : Nat)
    (hr : Ring h head ns) (hne : ns ≠ []) (hfuel : ns.length ≤ fuel)
    (hint : (no_greater_right h.value ns).length < 2147483648) :
    ∃ h', q_descend fuel h head = .ok (((no_greater_right h.value ns).length : Int), h') ∧
      Ring h' head (no_greater_right h.value ns) ∧ h'.value = h.value ∧
      (no_greater_right h.value ns).Sublist ns ∧
      (no_greater_right h.value ns).Pairwise
        (fun a b => strcmp (h.value a) (h.value b) ≥ 0) := by
  have hemp : list_empty h head = false := by
    have := hr.empty_iff.not.2 hne
    simpa using this
  obtain ⟨h', e1, e2, e3⟩ := keep_loop_main (fun c => decide (c < 0))
    (fun b a => decide (strcmp (h.value b) (h.value a) > 0)) h head ns fuel
    (by
      intro a b
      have := strcmp_antisymm (h.value a) (h.value b)
      rw [Bool.eq_iff_iff]; simp only [decide_eq_true_eq]; omega)
    (by intro a; simp [strcmp_self])
    (by
      intro a b c h1 h2
      simp only [decide_eq_true_eq, gt_iff_lt] at h1 h2 ⊢
      have h3 := strcmp_antisymm (h.value a) (h.value b)
      have h4 := strcmp_antisymm (h.value b) (h.value c)
      have h5 := strcmp_antisymm (h.value a) (h.value c)
      have := strcmp_lt_of_lt_of_le (a := h.value a) (b := h.value b) (c := h.value c)
        (by omega) (by omega)
      omega)
    (by
      intro a b c h1 h2
      simp only [decide_eq_false_iff_not, not_lt, gt_iff_lt] at h1 h2 ⊢
      exact strcmp_le_trans _ _ _ h2 h1)
    hr hne hfuel hint
  refine ⟨h', ?_, e2, e3, undominated_sublist _ _, ?_⟩
  · simp only [q_descend, hr.head_ne_zero, hemp, false_or, Bool.false_eq_true, if_false,
      q_descend_loop_eq]
    exact e1
  · refine (undominated_pairwise _ ns).imp ?_
    intro a b hab
    simp only [decide_eq_false_iff_not, not_lt, gt_iff_lt] at hab
    have := strcmp_antisymm (h.value a) (h.value b)
    omega

/-- The queue "5","3","4","1","2" keeps "5","4","2" and `q_descend` returns 3 (C8 at a
concrete queue). -/
theorem q_descend_keeps_no_greater_right_witness :
    ∃ h', q_descend 5 (build [[53], [51], [52], [49], [50]]) 1 = .ok (3, h') ∧
      Ring h' 1 [2, 4, 6] ∧ h'.value = (build [[53], [51], [52], [49], [50]]).value := by
  obtain ⟨h', e1, e2, e3, -, -⟩ := q_descend_keeps_no_greater_right
    (build [[53], [51], [52], [49], [50]]) 1 [2, 3, 4, 5, 6] 5
    (by decide) (by decide) (by decide) (by decide)
  exact ⟨h', e1, e2, e3⟩

/-! ## Runs of the code on concrete queues -/

/-- C2 at the queue "a","b": `q_sort` with `descend = true` returns with the queue still
reading "a","b", which is not weakly descending. -/
theorem q_sort_descend_leaves_ascending_pair :
    values_after 3 (q_sort 3 (build [[97], [98]]) 1 true) 1 = some [[97], [98]] ∧
      strcmp [97] [98] < 0 := by
  decide

/-- C3 at the sorted queue "a","a","b","b": `q_delete_dup` returns `true` and leaves
"b","b", a run of two equal adjacent values. -/
theorem q_delete_dup_keeps_second_run :
    returned (q_delete_dup 5 (build [[97], [97], [98], [98]]) 1) = some true ∧
    values_after 5 (memory_after (q_delete_dup 5 (build [[97], [97], [98], [98]]) 1)) 1
      = some [[98], [98]] := by
  decide

/-- C4 at the queue "1","2","3","4" and `k = 2`: after the two blocks are reversed the scan
starts a block at the sentinel, and the queue ends reading, after the bytes of the
sentinel's value slot (empty in `build`), "4","1","3" instead of "2","1","4","3". -/
theorem q_reverseK_full_blocks_garbles :
    values_after 5 (q_reverseK 5 (build [[49], [50], [51], [52]]) 1 2) 1
      = some [[], [52], [49], [51]] ∧
    value_after (q_reverseK 5 (build [[49], [50], [51], [52]]) 1 2) 1 = some [50] := by
  decide

/-- C6 at the chain of the descending queues "b" and "a": `q_merge` with
`descend = true` returns 2 and leaves the first queue reading "a","b", which is not
weakly descending. -/
theorem q_merge_descend_gives_ascending :
    returned (q_merge 3 (build_two [[98]] [[97]]) 1 true) = some 2 ∧
    values_after 3 (memory_after (q_merge 3 (build_two [[98]] [[97]]) 1 true)) 10
      = some [[97], [98]] ∧ strcmp [97] [98] < 0 := by
  decide

/-- The example of the spec for `q_reverseK`: `k = 2` on "1","2","3","4","5" gives
"2","1","4","3","5" (five is not a multiple of two, so no block starts at the sentinel). -/
theorem q_reverseK_partial_block_example :
    values_after 6 (q_reverseK 6 (build [[49], [50], [51], [52], [53]]) 1 2) 1
      = some [[50], [49], [52], [51], [53]] := by
  decide

/-! ## `q_sort` and the capacity of `lists` -/

theorem strcmp_key_lt {a b : Nat} (hab : a < b) (hb : b < 8000000) :
    strcmp (key a) (key b) < 0 := by
  unfold key
  simp only [strcmp]
  split_ifs <;> omega

theorem q_sort_run_descending {h : Heap} {head s : Nat} {S : List Nat} (fuel : Nat)
    (hc : List.Chain' (Link h) (s :: S ++ [head])) (hn : (0 :: head :: s :: S).Nodup)
    (hv : List.Chain' (fun a b => 0 < strcmp (h.value a) (h.value b)) (s :: S)) :
    q_sort_run (fuel + 1) h head s = .ok s := by
  unfold q_sort_run
  cases S with
  | nil =>
    have hl : Link h s head := by simpa using hc
    simp [hl.1]
  | cons s2 S =>
    have hl : h.next s = s2 :=
      (List.chain'_cons.1 (show List.Chain' (Link h) (s :: s2 :: (S ++ [head])) from hc)).1.1
    have hlt := (List.chain'_cons.1 hv).1
    simp only [List.nodup_cons, List.mem_cons, not_or] at hn
    have h1 : s ≠ head := fun e => hn.2.1.1 e.symm
    have h2 : s2 ≠ head := fun e => hn.2.1.2.1 e.symm
    have h3 : s ≠ 0 := fun e => hn.1.2.1 e.symm
    have h4 : s2 ≠ 0 := fun e => hn.1.2.2.1 e.symm
    have h5 : ¬ strcmp (h.value s) (h.value s2) ≤ 0 := by omega
    simp [hl, h1, h2, h3, h4, node_get_val, strcmpP, h5]

theorem q_sort_split_overflow : ∀ (S : List Nat) (h : Heap) (head s : Nat) (lists : Nat → Nat)
    (count n fuel : Nat),
    List.Chain' (Link h) (s :: S ++ [head]) → (0 :: head :: s :: S).Nodup →
    List.Chain' (fun a b => 0 < strcmp (h.value a) (h.value b)) (s :: S) →
    count ≤ LISTS_CAPACITY → LISTS_CAPACITY < count + (S.length + 1) →
    LISTS_CAPACITY - count < n →
    q_sort_split (fuel + 1) n h head s lists count = .error .bounds
  | S, h, head, s, lists, count, 0, fuel, _, _, _, _, _, hfn => by omega
  | [], h, head, s, lists, count, n + 1, fuel, hc, hn, hv, h1, h2, _ => by
    have hs : s ≠ head := by
      simp only [List.nodup_cons, List.mem_cons, not_or] at hn
      exact fun e => hn.2.1.1 e.symm
    have hcap : ¬ count < LISTS_CAPACITY := by simp at h2; omega
    unfold q_sort_split
    rw [q_sort_run_descending fuel hc hn hv]
    simp [hs, hcap]
  | s2 :: S, h, head, s, lists, count, n + 1, fuel, hc, hn, hv, h1, h2, hfn => by
    have hs : s ≠ head := by
      simp only [List.nodup_cons, List.mem_cons, not_or] at hn
      exact fun e => hn.2.1.1 e.symm
    unfold q_sort_split
    rw [q_sort_run_descending fuel hc hn hv]
    simp only [ne_eq, hs, not_false_eq_true, if_true]
    by_cases hcap : count < LISTS_CAPACITY
    · rw [if_pos hcap]
      have hl : h.next s = s2 :=
      (List.chain'_cons.1 (show List.Chain' (Link h) (s :: s2 :: (S ++ [head])) from hc)).1.1
      rw [hl]
      have hsn : s ∉ s2 :: S := by
        simp only [List.nodup_cons, List.mem_cons, not_or] at hn ⊢
        exact ⟨hn.2.2.1.1, hn.2.2.1.2⟩
      have hc' : List.Chain' (Link (h.setNext s 0)) (s2 :: S ++ [head]) := by
        have hc2 : List.Chain' (Link h) (s2 :: S ++ [head]) :=
          (List.chain'_cons.1 (show List.Chain' (Link h) (s :: s2 :: (S ++ [head])) from hc)).2
        refine chain_frame hc2 ?_ ?_
        · intro a ha
          have ha' : a ∈ s2 :: S := by
            have e : (s2 :: S ++ [head]).dropLast = s2 :: S := by
              rw [List.dropLast_concat]
            rw [e] at ha; exact ha
          have : a ≠ s := fun e => hsn (e ▸ ha')
          simp [this]
        · intro b _; simp
      have hn' : (0 :: head :: s2 :: S).Nodup := by
        simp only [List.nodup_cons, List.mem_cons, not_or] at hn ⊢
        tauto
      simp only [List.length_cons] at h2
      exact q_sort_split_overflow S (h.setNext s 0) head s2 _ (count + 1) n fuel hc' hn'
        (List.chain'_cons.1 hv).2 hcap (by omega) (by omega)
    · rw [if_neg hcap]

theorem q_sort_split_error : ∀ (S : List Nat) (h : Heap) (head s : Nat) (lists : Nat → Nat)
    (count n fuel : Nat),
    List.Chain' (Link h) (s :: S ++ [head]) → (0 :: head :: s :: S).Nodup →
    List.Chain' (fun a b => 0 < strcmp (h.value a) (h.value b)) (s :: S) →
    count ≤ LISTS_CAPACITY → LISTS_CAPACITY < count + (S.length + 1) →
    ∃ e, q_sort_split fuel n h head s lists count = .error e
  | _, _, _, _, _, _, 0, _, _, _, _, _, _ => ⟨.fuel, rfl⟩
  | _, h, head, s, lists, count, n + 1, 0, _, hn, _, _, _ => by
    have hs : s ≠ head := by
      simp only [List.nodup_cons, List.mem_cons, not_or] at hn
      exact fun e => hn.2.1.1 e.symm
    exact ⟨.fuel, by simp [q_sort_split, hs, q_sort_run]⟩
  | [], h, head, s, lists, count, n + 1, fuel + 1, hc, hn, hv, h1, h2 =>
    ⟨.bounds, q_sort_split_overflow [] h head s lists count (n + 1) fuel hc hn hv h1 h2
      (by simp only [List.length_nil] at h2; omega)⟩
  | s2 :: S, h, head, s, lists, count, n + 1, fuel + 1, hc, hn, hv, h1, h2 => by
    have hs : s ≠ head := by
      simp only [List.nodup_cons, List.mem_cons, not_or] at hn
      exact fun e => hn.2.1.1 e.symm
    unfold q_sort_split
    rw [q_sort_run_descending fuel hc hn hv]
    simp only [ne_eq, hs, not_false_eq_true, if_true]
    by_cases hcap : count < LISTS_CAPACITY
    · rw [if_pos hcap]
      have hl : h.next s = s2 :=
      (List.chain'_cons.1 (show List.Chain' (Link h) (s :: s2 :: (S ++ [head])) from hc)).1.1
      rw [hl]
      have hsn : s ∉ s2 :: S := by
        simp only [List.nodup_cons, List.mem_cons, not_or] at hn ⊢
        exact ⟨hn.2.2.1.1, hn.2.2.1.2⟩
      have hc' : List.Chain' (Link (h.setNext s 0)) (s2 :: S ++ [head]) := by
        have hc2 : List.Chain' (Link h) (s2 :: S ++ [head]) :=
          (List.chain'_cons.1 (show List.Chain' (Link h) (s :: s2 :: (S ++ [head])) from hc)).2
        refine chain_frame hc2 ?_ ?_
        · intro a ha
          have ha' : a ∈ s2 :: S := by
            have e : (s2 :: S ++ [head]).dropLast = s2 :: S := by
              rw [List.dropLast_concat]
            rw [e] at ha; exact ha
          have : a ≠ s := fun e => hsn (e ▸ ha')
          simp [this]
        · intro b _; simp
      have hn' : (0 :: head :: s2 :: S).Nodup := by
        simp only [List.nodup_cons, List.mem_cons, not_or] at hn ⊢
        tauto
      simp only [List.length_cons] at h2
      exact q_sort_split_error S (h.setNext s 0) head s2 _ (count + 1) n (fuel + 1) hc' hn'
        (List.chain'_cons.1 hv).2 hcap (by omega)
    · rw [if_neg hcap]; exact ⟨.bounds, rfl⟩


theorem Ring.not_singular {h : Heap} {head : Nat} {ns : List Nat} (hr : Ring h head ns)
    (hlen : 2 ≤ ns.length) : list_is_singular h head = false := by
  obtain ⟨a, t, rfl⟩ : ∃ a t, ns = a :: t := by
    cases ns with
    | nil => simp at hlen
    | cons a t => exact ⟨a, t, rfl⟩
  rcases List.eq_nil_or_concat t with rfl | ⟨A, z, rfl⟩
  · simp at hlen
  · have h1 := hr.next_head
    have h2 := hr.prev_head
    simp only [List.concat_eq_append, firstOr_cons, lastOr_cons, lastOr_append_cons,
      lastOr_nil] at h1 h2
    have hne : z ≠ a := by
      have hnd := hr.1
      simp only [List.concat_eq_append, List.nodup_cons, List.nodup_append, List.mem_cons,
        List.mem_append, List.mem_singleton, not_or, List.disjoint_left, List.nodup_nil,
        List.not_mem_nil] at hnd
      aesop
    simp [list_is_singular, h1, h2, hne]

theorem q_sort_overflow_of_descending (h : Heap) (head : Nat) (ns : List Nat) (descend : Bool)
    (hr : Ring h head ns)
    (hv : List.Chain' (fun a b => 0 < strcmp (h.value a) (h.value b)) ns)
    (hlen : LISTS_CAPACITY < ns.length) :
    (∀ fuel, LISTS_CAPACITY < fuel → q_sort fuel h head descend = .error .bounds) ∧
      ∀ fuel, ∃ e, q_sort fuel h head descend = .error e := by
  obtain ⟨s, S, rfl⟩ : ∃ s S, ns = s :: S := by
    cases ns with
    | nil => simp at hlen
    | cons a t => exact ⟨a, t, rfl⟩
  have hemp : list_empty h head = false := by
    have := hr.empty_iff.not.2 (List.cons_ne_nil s S)
    simpa using this
  have hsing := hr.not_singular (by unfold LISTS_CAPACITY at hlen; omega)
  have hnext : h.next head = s := by simpa using hr.next_head
  have hc : List.Chain' (Link h) (s :: S ++ [head]) :=
    (List.chain'_cons.1 (show List.Chain' (Link h) (head :: s :: (S ++ [head])) from hr.chain)).2
  simp only [List.length_cons] at hlen
  constructor
  · intro fuel hf
    obtain ⟨f, rfl⟩ : ∃ f, fuel = f + 1 := ⟨fuel - 1, by omega⟩
    simp only [q_sort, hr.head_ne_zero, hemp, hsing, false_or, Bool.false_eq_true, if_false,
      hnext]
    rw [q_sort_split_overflow S h head s _ 0 (f + 1) f hc hr.1 hv (Nat.zero_le _)
      (by omega) (by omega)]
  · intro fuel
    obtain ⟨e, he⟩ := q_sort_split_error S h head s (fun _ => 0) 0 fuel fuel hc hr.1 hv
      (Nat.zero_le _) (by omega)
    refine ⟨e, ?_⟩
    simp only [q_sort, hr.head_ne_zero, hemp, hsing, false_or, Bool.false_eq_true, if_false,
      hnext]
    rw [he]

theorem descending_keys_chain (n : Nat) (hn : n < 8000000) :
    List.Chain' (fun x y => 0 < strcmp x y) (descending_keys n) := by
  unfold descending_keys
  rw [List.chain'_map]
  cases n with
  | zero => simp
  | succ n =>
    rw [List.chain'_range_succ]
    intro m hm
    have := strcmp_key_lt (a := n + 1 - m.succ) (b := n + 1 - m) (by omega) (by omega)
    have ha := strcmp_antisymm (key (n + 1 - m.succ)) (key (n + 1 - m))
    omega

theorem q_sort_overflow_build (n : Nat) (descend : Bool) (h1 : LISTS_CAPACITY < n)
    (h2 : n < 8000000) :
    (∀ fuel, LISTS_CAPACITY < fuel →
        q_sort fuel (build (descending_keys n)) 1 descend = .error .bounds) ∧
      ∀ fuel, ∃ e, q_sort fuel (build (descending_keys n)) 1 descend = .error e := by
  have hlen : (descending_keys n).length = n := by
    simp [descending_keys]
  obtain ⟨hr, hval⟩ := build_ring (descending_keys n)
  have hv : List.Chain' (fun a b => 0 < strcmp ((build (descending_keys n)).value a)
      ((build (descending_keys n)).value b))
      (List.range' 2 (descending_keys n).length) := by
    rw [← List.chain'_map (build (descending_keys n)).value
      (R := fun x y => 0 < strcmp x y), hval]
    exact descending_keys_chain n h2
  exact q_sort_overflow_of_descending _ 1 _ descend hr hv
    (by rw [List.length_range', hlen]; exact h1)

/-- C1 at the queue of the 100001 strictly descending strings `descending_keys 100001`:
every element is a run of its own, so the 100001st run is stored past the end of the
array `lists` and `q_sort` (with either value of `descend`) produces no queue at all:
the run is out of bounds once the fuel lets the loop get there, and faults with any
fuel. -/
theorem q_sort_overruns_lists (descend : Bool) :
    (∀ fuel, q_sort (100001 + fuel) (build (descending_keys 100001)) 1 descend
        = .error .bounds) ∧
      ∀ fuel, ∃ e, q_sort fuel (build (descending_keys 100001)) 1 descend = .error e :=
  ⟨fun fuel => (q_sort_overflow_build 100001 descend (by unfold LISTS_CAPACITY; omega)
      (by omega)).1 _ (by unfold LISTS_CAPACITY; omega),
    (q_sort_overflow_build 100001 descend (by unfold LISTS_CAPACITY; omega) (by omega)).2⟩

/-! ## `q_merge` -/

theorem list_del_next_of_ne (h : Heap) (x a : Nat) (ha : a ≠ h.prev x) :
    (list_del h x).next a = h.next a := by
  simp [list_del, ha]

theorem list_del_prev_of_ne (h : Heap) (x a : Nat) (ha : a ≠ h.next x) :
    (list_del h x).prev a = h.prev a := by
  simp [list_del, ha]

theorem list_add_tail_next_of_ne (h : Heap) (m y a : Nat) (h1 : a ≠ h.prev y) (h2 : a ≠ m) :
    (list_add_tail h m y).next a = h.next a := by
  simp [list_add_tail, h1, h2]

theorem list_add_tail_prev_of_ne (h : Heap) (m y a : Nat) (h1 : a ≠ m) (h2 : a ≠ y) :
    (list_add_tail h m y).prev a = h.prev a := by
  simp [list_add_tail, h1, h2]

theorem q_merge_scan_spec {h : Heap} {qh x : Nat} (hx : x ≠ 0) : ∀ (B A : List Nat) (fuel : Nat),
    Ring h qh (A ++ B) → B.length < fuel →
    q_merge_scan fuel h qh (firstOr qh B) x
      = .ok (firstOr qh (B.dropWhile (fun a => decide (strcmp (h.value a) (h.value x) < 0))))
  | [], A, fuel, _, hf => by
    obtain ⟨f, rfl⟩ : ∃ f, fuel = f + 1 := ⟨fuel - 1, by simp at hf; omega⟩
    simp [q_merge_scan]
  | b :: B, A, fuel, hr, hf => by
    obtain ⟨f, rfl⟩ : ∃ f, fuel = f + 1 := ⟨fuel - 1, by simp at hf; omega⟩
    have hb0 : b ≠ 0 := hr.ne_zero (by simp)
    have hbh : b ≠ qh := hr.ne_head (by simp)
    have hn : h.next b = firstOr qh B := hr.next_mem
    simp only [List.length_cons] at hf
    unfold q_merge_scan
    simp only [firstOr_cons, ne_eq, hbh, not_false_eq_true, if_true, node_get_val, hb0, hx,
      if_false, strcmpP, hn]
    by_cases hc : strcmp (h.value b) (h.value x) < 0
    · have ih := q_merge_scan_spec hx B (A ++ [b]) f (by simpa using hr) (by omega)
      simp only [hc, if_true, ih, List.dropWhile_cons, decide_True]
    · simp only [hc, if_false, List.dropWhile_cons, decide_False]
      simp

theorem insert_sorted_perm (v : Nat → List Nat) (x : Nat) (ns : List Nat) :
    (insert_sorted v x ns).Perm (x :: ns) := by
  unfold insert_sorted
  refine List.perm_middle.trans ?_
  rw [List.takeWhile_append_dropWhile]

theorem merge_into_perm (v : Nat → List Nat) : ∀ (ns2 ns1 : List Nat),
    (merge_into v ns1 ns2).Perm (ns1 ++ ns2)
  | [], ns1 => by simp [merge_into]
  | x :: ns2, ns1 => by
    have ih := merge_into_perm v ns2 (insert_sorted v x ns1)
    have : merge_into v ns1 (x :: ns2) = merge_into v (insert_sorted v x ns1) ns2 := rfl
    rw [this]
    refine ih.trans ?_
    refine ((insert_sorted_perm v x ns1).append_right ns2).trans ?_
    simpa using (@List.perm_middle _ x ns1 ns2).symm

theorem insert_sorted_ascending (v : Nat → List Nat) (x : Nat) (ns : List Nat)
    (hs : Ascending v ns) : Ascending v (insert_sorted v x ns) := by
  unfold Ascending insert_sorted at *
  have hsplit := List.takeWhile_append_dropWhile
    (fun a => decide (strcmp (v a) (v x) < 0)) ns
  rw [← hsplit] at hs
  rw [List.pairwise_append] at hs ⊢
  obtain ⟨h1, h2, h3⟩ := hs
  have htake : ∀ a ∈ ns.takeWhile (fun a => decide (strcmp (v a) (v x) < 0)),
      strcmp (v a) (v x) < 0 := by
    intro a ha
    simpa using List.mem_takeWhile_imp ha
  have hdrop : ∀ b ∈ ns.dropWhile (fun a => decide (strcmp (v a) (v x) < 0)),
      strcmp (v x) (v b) ≤ 0 := by
    intro b hb
    cases hd : ns.dropWhile (fun a => decide (strcmp (v a) (v x) < 0)) with
    | nil => rw [hd] at hb; simp at hb
    | cons d D =>
      have hdx : ¬ strcmp (v d) (v x) < 0 := by
        have := List.head_dropWhile_not (fun a => decide (strcmp (v a) (v x) < 0)) ns
          (by rw [hd]; simp)
        simp only [hd, List.head_cons] at this
        simpa using this
      have hxd : strcmp (v x) (v d) ≤ 0 := by
        have := strcmp_antisymm (v x) (v d)
        omega
      rw [hd] at hb h2
      rcases List.mem_cons.1 hb with rfl | hb
      · exact hxd
      · exact strcmp_le_trans _ _ _ hxd ((List.pairwise_cons.1 h2).1 b hb)
  refine ⟨h1, List.pairwise_cons.2 ⟨hdrop, h2⟩, ?_⟩
  intro a ha b hb
  rcases List.mem_cons.1 hb with rfl | hb
  · exact le_of_lt (htake a ha)
  · exact h3 a ha b hb

theorem merge_into_ascending (v : Nat → List Nat) : ∀ (ns2 ns1 : List Nat),
    Ascending v ns1 → Ascending v (merge_into v ns1 ns2)
  | [], _, hs => hs
  | x :: ns2, ns1, hs =>
    merge_into_ascending v ns2 (insert_sorted v x ns1) (insert_sorted_ascending v x ns1 hs)


theorem mem_insert_sorted (v : Nat → List Nat) (x a : Nat) (ns : List Nat) :
    a ∈ insert_sorted v x ns ↔ a = x ∨ a ∈ ns := by
  rw [(insert_sorted_perm v x ns).mem_iff]; simp

theorem drain_footprint_perm (v : Nat → List Nat) (q1h q2h x : Nat) (N1 N2 : List Nat) :
    (q1h :: insert_sorted v x N1 ++ q2h :: N2).Perm (q1h :: N1 ++ q2h :: x :: N2) := by
  rw [List.perm_iff_count]
  intro a
  have := (insert_sorted_perm v x N1).count_eq a
  simp only [List.cons_append, List.count_cons, List.count_append] at this ⊢
  omega

theorem q_merge_drain_spec : ∀ (N2 N1 : List Nat) (h : Heap) (q1 q2 : Nat) (n fuel : Nat),
    Ring h (h.q q1) N1 → Ring h (h.q q2) N2 → (h.q q1 :: N1 ++ h.q q2 :: N2).Nodup →
    N2.length < n → N1.length + N2.length < fuel →
    ∃ h', q_merge_drain fuel n h q1 q2 = .ok h' ∧
      Ring h' (h.q q1) (merge_into h.value N1 N2) ∧ Ring h' (h.q q2) [] ∧
      h'.value = h.value ∧ h'.q = h.q ∧ h'.size = h.size ∧
      (∀ a, a ∉ h.q q1 :: N1 ++ h.q q2 :: N2 → h'.next a = h.next a ∧ h'.prev a = h.prev a)
  | [], N1, h, q1, q2, n, fuel, hr1, hr2, _, hn, _ => by
    obtain ⟨n, rfl⟩ : ∃ k, n = k + 1 := ⟨n - 1, by simp at hn; omega⟩
    have : h.next (h.q q2) = h.q q2 := by simpa using hr2.next_head
    exact ⟨h, by simp [q_merge_drain, this], hr1, hr2, rfl, rfl, rfl, fun _ _ => ⟨rfl, rfl⟩⟩
  | x :: N2, N1, h, q1, q2, n, fuel, hr1, hr2, hnd, hn, hf => by
    obtain ⟨n, rfl⟩ : ∃ k, n = k + 1 := ⟨n - 1, by simp at hn; omega⟩
    simp only [List.length_cons] at hn hf
    have hx0 : x ≠ 0 := hr2.ne_zero (by simp)
    have hxh : x ≠ h.q q2 := hr2.ne_head (by simp)
    have hnx : h.next (h.q q2) = x := by simpa using hr2.next_head
    have hn1 : h.next (h.q q1) = firstOr (h.q q1) N1 := hr1.next_head
    have hscan := @q_merge_scan_spec h (h.q q1) x hx0 N1 [] fuel
      (by simpa using hr1) (by omega)
    set T := N1.takeWhile (fun a => decide (strcmp (h.value a) (h.value x) < 0)) with hT
    set D := N1.dropWhile (fun a => decide (strcmp (h.value a) (h.value x) < 0)) with hD
    have hTD : T ++ D = N1 := List.takeWhile_append_dropWhile _ _
    -- membership facts
    have hmem1 : ∀ a, a ∈ h.q q1 :: N1 → a ∉ h.q q2 :: x :: N2 := fun a ha hb =>
      (List.nodup_append.1 hnd).2.2 ha hb
    have hxprev : h.prev x = h.q q2 := by
      have := Ring.prev_mem (A := []) (x := x) (B := N2) (by simpa using hr2)
      simpa using this
    have hxnext : h.next x = firstOr (h.q q2) N2 :=
      Ring.next_mem (A := []) (x := x) (B := N2) (by simpa using hr2)
    have hfm : firstOr (h.q q2) N2 ∈ h.q q2 :: x :: N2 := by
      have := firstOr_mem (h.q q2) N2
      simp only [List.mem_append, List.mem_singleton, List.mem_cons] at this ⊢
      tauto
    -- ring 2 after the unlink
    have hr2d : Ring (list_del h x) (h.q q2) N2 := by
      have := ring_del (A := []) (x := x) (B := N2) (by simpa using hr2)
      simpa using this
    -- ring 1 after the unlink
    have hr1d : Ring (list_del h x) (h.q q1) (T ++ D) := by
      rw [hTD]
      refine hr1.frame ?_ ?_
      · intro a ha
        refine list_del_next_of_ne h x a ?_
        rw [hxprev]
        intro e
        exact hmem1 a ha (by simp [e])
      · intro a ha
        refine list_del_prev_of_ne h x a ?_
        rw [hxnext]
        intro e
        exact hmem1 a ha (e ▸ hfm)
    have hxfresh : x ∉ 0 :: h.q q1 :: (T ++ D) := by
      rw [hTD]
      intro hx
      rcases List.mem_cons.1 hx with e | hx
      · exact hx0 e
      · exact hmem1 x hx (by simp)
    have hr1a := ring_add_tail hr1d hxfresh
    have hlink := hr1d.link
    have hlm : lastOr (h.q q1) T ∈ h.q q1 :: N1 := by
      have := lastOr_mem (h.q q1) T
      rw [← hTD]
      simp only [List.mem_cons, List.mem_append] at this ⊢
      tauto
    have hfm1 : firstOr (h.q q1) D ∈ h.q q1 :: N1 := by
      have := firstOr_mem (h.q q1) D
      rw [← hTD]
      simp only [List.mem_cons, List.mem_append, List.mem_singleton] at this ⊢
      tauto
    have hxn2 : x ∉ h.q q2 :: N2 := by
      have := hr2.1
      simp only [List.nodup_cons, List.mem_cons, not_or] at this ⊢
      exact ⟨fun e => this.2.1.1 e.symm, this.2.2.1⟩
    have hr2a : Ring (list_add_tail (list_del h x) x (firstOr (h.q q1) D)) (h.q q2) N2 := by
      refine hr2d.frame ?_ ?_
      · intro a ha
        refine list_add_tail_next_of_ne _ _ _ _ ?_ ?_
        · rw [hlink.2]
          intro e
          exact hmem1 _ hlm (by
            rw [← e]; simp only [List.mem_cons] at ha ⊢; tauto)
        · intro e; exact hxn2 (e ▸ ha)
      · intro a ha
        refine list_add_tail_prev_of_ne _ _ _ _ ?_ ?_
        · intro e; exact hxn2 (e ▸ ha)
        · intro e
          exact hmem1 _ hfm1 (by
            rw [← e]; simp only [List.mem_cons] at ha ⊢; tauto)
    have hnd' : (h.q q1 :: insert_sorted h.value x N1 ++ h.q q2 :: N2).Nodup :=
      (drain_footprint_perm h.value (h.q q1) (h.q q2) x N1 N2).nodup_iff.2 hnd
    have hlen' : (insert_sorted h.value x N1).length = N1.length + 1 := by
      simpa using (insert_sorted_perm h.value x N1).length_eq
    obtain ⟨h', e1, e2, e3, e4, e5, e6, e7⟩ := q_merge_drain_spec N2
      (insert_sorted h.value x N1) (list_add_tail (list_del h x) x (firstOr (h.q q1) D)) q1 q2
      n fuel hr1a hr2a hnd' (by omega) (by rw [hlen']; omega)
    simp only [list_add_tail_value, list_del_value, list_add_tail_q, list_del_q,
      list_add_tail_size, list_del_size] at e1 e2 e3 e4 e5 e6 e7
    refine ⟨h', ?_, e2, e3, e4, e5, e6, ?_⟩
    · unfold q_merge_drain
      simp only [hnx, ne_eq, hxh, not_false_eq_true, if_true, hn1, hscan]
      exact e1
    · intro a ha
      have ha' : a ∉ h.q q1 :: insert_sorted h.value x N1 ++ h.q q2 :: N2 := by
        intro hm
        exact ha ((drain_footprint_perm h.value (h.q q1) (h.q q2) x N1 N2).mem_iff.1 hm)
      obtain ⟨f1, f2⟩ := e7 a ha'
      have hane : ∀ b, b ∈ h.q q1 :: N1 ++ h.q q2 :: x :: N2 → a ≠ b := fun b hb e => ha (e ▸ hb)
      have m1 : firstOr (h.q q1) D ∈ h.q q1 :: N1 ++ h.q q2 :: x :: N2 :=
        List.mem_append_left _ hfm1
      have m2 : lastOr (h.q q1) T ∈ h.q q1 :: N1 ++ h.q q2 :: x :: N2 :=
        List.mem_append_left _ hlm
      have m3 : x ∈ h.q q1 :: N1 ++ h.q q2 :: x :: N2 := by simp
      have m4 : h.q q2 ∈ h.q q1 :: N1 ++ h.q q2 :: x :: N2 := by simp
      have m5 : firstOr (h.q q2) N2 ∈ h.q q1 :: N1 ++ h.q q2 :: x :: N2 :=
        List.mem_append_right _ hfm
      rw [f1, f2, list_add_tail_next_of_ne _ _ _ _ (by rw [hlink.2]; exact hane _ m2)
        (hane _ m3), list_add_tail_prev_of_ne _ _ _ _ (hane _ m3) (hane _ m1),
        list_del_next_of_ne _ _ _ (by rw [hxprev]; exact hane _ m4),
        list_del_prev_of_ne _ _ _ (by rw [hxnext]; exact hane _ m5)]
      exact ⟨rfl, rfl⟩

theorem count_le_flatten_of_mem {a : Nat} {l : List Nat} {L : List (List Nat)} (hl : l ∈ L) :
    l.count a ≤ L.flatten.count a :=
  (List.sublist_flatten_of_mem hl).count_le a

theorem merge_all_perm (v : Nat → List Nat) : ∀ (rest : List (Nat × List Nat)) (ns1 : List Nat),
    (merge_all v ns1 rest).Perm (ns1 ++ (rest.map Prod.snd).flatten)
  | [], ns1 => by simp [merge_all]
  | c :: rest, ns1 => by
    have ih := merge_all_perm v rest (merge_into v ns1 c.2)
    have e : merge_all v ns1 (c :: rest) = merge_all v (merge_into v ns1 c.2) rest := rfl
    rw [e]
    refine ih.trans ?_
    simpa using (merge_into_perm v c.2 ns1).append_right _

theorem merge_all_ascending (v : Nat → List Nat) : ∀ (rest : List (Nat × List Nat))
    (ns1 : List Nat), Ascending v ns1 → Ascending v (merge_all v ns1 rest)
  | [], _, hs => hs
  | c :: rest, ns1, hs =>
    merge_all_ascending v rest (merge_into v ns1 c.2) (merge_into_ascending v c.2 ns1 hs)

theorem q_merge_loop_spec (head c1 : Nat) (Q : Nat → Nat) (V : Nat → List Nat) :
    ∀ (rest : List (Nat × List Nat)) (done M : List Nat) (h : Heap) (n fuel : Nat),
    h.q = Q → h.value = V →
    Ring h head (c1 :: done ++ rest.map Prod.fst) →
    Ring h (Q c1) M → h.size c1 = (M.length : Int) →
    (∀ c ∈ done, Ring h (Q c) [] ∧ h.size c = 0) →
    (∀ c ∈ rest, Ring h (Q c.1) c.2 ∧ h.size c.1 = (c.2.length : Int)) →
    (head :: c1 :: done ++ rest.map Prod.fst ++ (Q c1 :: M) ++ done.map Q
      ++ rest.map (fun c => Q c.1) ++ (rest.map Prod.snd).flatten).Nodup →
    rest.length < n → M.length + (rest.map Prod.snd).flatten.length < fuel →
    M.length + (rest.map Prod.snd).flatten.length < 2147483648 →
    ∃ h', q_merge_loop fuel n h head c1 (firstOr head (rest.map Prod.fst)) = .ok h' ∧
      h'.q = Q ∧ h'.value = V ∧
      Ring h' head (c1 :: done ++ rest.map Prod.fst) ∧
      Ring h' (Q c1) (merge_all V M rest) ∧
      h'.size c1 = ((merge_all V M rest).length : Int) ∧
      (∀ c ∈ done ++ rest.map Prod.fst, Ring h' (Q c) [] ∧ h'.size c = 0)
  | [], done, M, h, n, fuel, hq, hv, hch, hr1, hs1, hdone, _, _, hn, _, _ => by
    obtain ⟨n, rfl⟩ : ∃ k, n = k + 1 := ⟨n - 1, by simp at hn; omega⟩
    refine ⟨h, by simp [q_merge_loop], hq, hv, hch, hr1, hs1, ?_⟩
    simpa using hdone
  | (c, ns) :: rest, done, M, h, n, fuel, hq, hv, hch, hr1, hs1, hdone, hrest, hnd, hn, hf,
      hint => by
    obtain ⟨n, rfl⟩ : ∃ k, n = k + 1 := ⟨n - 1, by simp at hn; omega⟩
    simp only [List.map_cons, List.flatten_cons, List.length_append, List.length_cons] at hn hf hint
    have hcnt := fun a => List.nodup_iff_count_le_one.1 hnd a
    simp only [List.map_cons, List.flatten_cons, List.cons_append, List.count_cons,
      List.count_append] at hcnt
    have hc := hrest (c, ns) (by simp)
    have hch' : Ring h head ((c1 :: done) ++ c :: rest.map Prod.fst) := by simpa using hch
    have hchead : c ≠ head := hch'.ne_head (by simp)
    have hnextc : h.next c = firstOr head (rest.map Prod.fst) := hch'.next_mem
    -- footprint of the drain
    have hfoot : (h.q c1 :: M ++ h.q c :: ns).Nodup := by
      rw [hq, List.nodup_iff_count_le_one]
      intro a
      have := hcnt a
      simp only [List.cons_append, List.count_cons, List.count_append]
      omega
    have hout : ∀ a, 0 < (head :: c1 :: done ++ rest.map Prod.fst ++ done.map Q
        ++ rest.map (fun c => Q c.1) ++ (rest.map Prod.snd).flatten).count a ∨ a = c →
        a ∉ h.q c1 :: M ++ h.q c :: ns := by
      intro a ha hm
      rw [hq] at hm
      have h1 := List.count_pos_iff.2 hm
      have := hcnt a
      simp only [List.cons_append, List.count_cons, List.count_append] at h1 ha
      rcases ha with ha | rfl
      · omega
      · simp only [beq_self_eq_true, if_true] at this
        omega
    obtain ⟨h1, e1, e2, e3, e4, e5, e6, e7⟩ := q_merge_drain_spec ns M h c1 c (n := fuel) fuel
      (by rw [hq]; exact hr1) (by rw [hq]; exact hc.1) hfoot (by omega) (by omega)
    rw [hq] at e2 e3 e5
    rw [hv] at e2 e4
    have hframe : ∀ (r : Nat) (R : List Nat), Ring h r R →
        (∀ a ∈ r :: R, 0 < (head :: c1 :: done ++ rest.map Prod.fst ++ done.map Q
          ++ rest.map (fun c => Q c.1) ++ (rest.map Prod.snd).flatten).count a ∨ a = c) →
        Ring ((h1.setSize c1 (int32 (h1.size c1 + h1.size c))).setSize c 0) r R := by
      intro r R hr hmem
      refine hr.frame ?_ ?_
      · intro a ha
        simpa using (e7 a (hout a (hmem a ha))).1
      · intro a ha
        simpa using (e7 a (hout a (hmem a ha))).2
    have hc1c : c1 ≠ c := by
      intro e
      have := hcnt c
      simp only [e, beq_self_eq_true, if_true] at this
      omega
    have hlenM : (merge_into V M ns).length = M.length + ns.length := by
      simpa using (merge_into_perm V ns M).length_eq
    have hsz : int32 (h1.size c1 + h1.size c) = ((merge_into V M ns).length : Int) := by
      rw [e6, hs1, hc.2, hlenM, int32_of_range] <;> push_cast <;> omega
    have hpos_of_mem : ∀ {a : Nat} {l : List Nat}, a ∈ l → 0 < l.count a :=
      fun hm => List.count_pos_iff.2 hm
    obtain ⟨h', f1, f2, f3, f4, f5, f6, f7⟩ := q_merge_loop_spec head c1 Q V rest (done ++ [c])
      (merge_into V M ns) ((h1.setSize c1 (int32 (h1.size c1 + h1.size c))).setSize c 0) n fuel
      (by simpa using e5) (by simpa using e4)
      (by
        have := hframe head (c1 :: done ++ c :: rest.map Prod.fst) (by simpa using hch) (by
          intro a ha
          by_cases hac : a = c
          · exact Or.inr hac
          · left
            refine hpos_of_mem ?_
            simp only [List.mem_cons, List.mem_append, List.cons_append] at ha ⊢
            tauto)
        simpa using this)
      (by
        refine e2.frame (by simp) (by simp))
      (by simp [hc1c, hsz])
      (by
        intro d hd
        rcases List.mem_append.1 hd with hd | hd
        · have hdc : d ≠ c := by
            intro e
            have := hcnt c
            have h2 := hpos_of_mem (e ▸ hd : c ∈ done)
            simp only [beq_self_eq_true, if_true] at this
            omega
          have hdc1 : d ≠ c1 := by
            intro e
            have := hcnt c1
            have h2 := hpos_of_mem (e ▸ hd : c1 ∈ done)
            simp only [beq_self_eq_true, if_true] at this
            omega
          refine ⟨hframe (Q d) [] (hdone d hd).1 ?_, ?_⟩
          · intro a ha
            have : a = Q d := by simpa using ha
            subst this
            left
            refine hpos_of_mem ?_
            simp only [List.mem_cons, List.mem_append, List.cons_append, List.mem_map]
            exact Or.inr (Or.inr (Or.inl (Or.inl (Or.inr ⟨d, hd, rfl⟩))))
          · simp only [setSize_size, hdc, hdc1, if_false]
            rw [e6]; exact (hdone d hd).2
        · have : d = c := by simpa using hd
          subst this
          exact ⟨e3.frame (by simp) (by simp), by simp⟩)
      (by
        intro c' hc'
        have hc'r := hrest c' (List.mem_cons_of_mem _ hc')
        have hne : c'.1 ≠ c ∧ c'.1 ≠ c1 := by
          have h2 := hpos_of_mem (List.mem_map_of_mem Prod.fst hc')
          constructor
          · intro e
            have := hcnt c
            rw [e] at h2
            simp only [beq_self_eq_true, if_true] at this
            omega
          · intro e
            have := hcnt c1
            rw [e] at h2
            simp only [beq_self_eq_true, if_true] at this
            omega
        refine ⟨hframe (Q c'.1) c'.2 hc'r.1 ?_, ?_⟩
        · intro a ha
          left
          rcases List.mem_cons.1 ha with rfl | ha
          · refine hpos_of_mem ?_
            simp only [List.mem_cons, List.mem_append, List.cons_append, List.mem_map]
            exact Or.inr (Or.inr (Or.inl (Or.inr ⟨c', hc', rfl⟩)))
          · have h3 := count_le_flatten_of_mem (a := a)
              (List.mem_map_of_mem Prod.snd hc')
            have h4 := hpos_of_mem ha
            simp only [List.cons_append, List.count_cons, List.count_append]
            omega
        · simp only [setSize_size, hne.1, hne.2, if_false]
          rw [e6]; exact hc'r.2)
      (by
        rw [List.nodup_iff_count_le_one]
        intro a
        have := hcnt a
        have hp := (merge_into_perm V ns M).count_eq a
        simp only [List.map_append, List.map_cons, List.map_nil, List.cons_append,
          List.count_cons, List.count_append, List.count_nil] at hp ⊢
        omega)
      (by omega) (by rw [hlenM]; omega) (by rw [hlenM]; omega)
    refine ⟨h', ?_, f2, f3, ?_, f5, f6, ?_⟩
    · unfold q_merge_loop
      simp only [List.map_cons, firstOr_cons, ne_eq, hchead, not_false_eq_true, if_true, e1]
      have hn3 : ((h1.setSize c1 (int32 (h1.size c1 + h1.size c))).setSize c 0).next c
          = firstOr head (rest.map Prod.fst) := by
        simp only [setSize_next]
        rw [(e7 c (hout c (Or.inr rfl))).1, hnextc]
      rw [hn3]
      exact f1
    · simpa using f4
    · intro d hd
      refine f7 d ?_
      simp only [List.map_cons, List.mem_append, List.mem_cons, List.mem_singleton] at hd ⊢
      tauto


theorem q_merge_spec (h : Heap) (head c1 : Nat) (ns1 : List Nat)
    (rest : List (Nat × List Nat)) (fuel : Nat) (descend : Bool)
    (hc : Contexts h head ((c1, ns1) :: rest))
    (hint : ns1.length + (rest.map Prod.snd).flatten.length < 2147483648)
    (hfuel : rest.length + ns1.length + (rest.map Prod.snd).flatten.length < fuel) :
    ∃ h', q_merge fuel h head descend
        = .ok (((ns1.length + (rest.map Prod.snd).flatten.length : Nat) : Int), h') ∧
      Ring h' (h.q c1) (merge_all h.value ns1 rest) ∧
      h'.value = h.value ∧ h'.q = h.q ∧
      h'.size c1 = ((ns1.length + (rest.map Prod.snd).flatten.length : Nat) : Int) ∧
      (∀ c ∈ rest, Ring h' (h.q c.1) [] ∧ h'.size c.1 = 0) ∧
      Ring h' head (c1 :: rest.map Prod.fst) := by
  obtain ⟨hch, hqs, hnd⟩ := hc
  simp only [List.map_cons] at hch
  have hn1 : h.next head = c1 := by simpa using hch.next_head
  have hn2 : h.next c1 = firstOr head (rest.map Prod.fst) :=
    Ring.next_mem (A := []) (x := c1) (B := rest.map Prod.fst) (by simpa using hch)
  have h1 := hqs (c1, ns1) (by simp)
  obtain ⟨h', f1, f2, f3, f4, f5, f6, f7⟩ := q_merge_loop_spec head c1 h.q h.value rest [] ns1 h
    fuel fuel rfl rfl (by simpa using hch) h1.1 h1.2 (by simp)
    (fun c hc => hqs c (List.mem_cons_of_mem _ hc))
    (by
      rw [List.nodup_iff_count_le_one] at hnd ⊢
      intro a
      have := hnd a
      simp only [List.map_cons, List.map_nil, List.flatten_cons, List.cons_append,
        List.nil_append, List.append_nil, List.count_cons, List.count_append,
        List.count_nil] at this ⊢
      omega)
    (by omega) (by omega) hint
  have hlen : (merge_all h.value ns1 rest).length
      = ns1.length + (rest.map Prod.snd).flatten.length := by
    simpa using (merge_all_perm h.value rest ns1).length_eq
  refine ⟨h', ?_, f5, f3, f2, by rw [f6, hlen], ?_, by simpa using f4⟩
  · simp only [q_merge, hch.head_ne_zero, if_false, hn1, hn2, f1, f6, hlen]
  · intro c hc
    exact f7 c.1 (by simpa using List.mem_map_of_mem Prod.fst hc)

/-- C5: for a chain of one or more queue contexts whose queues are sorted ascending and
whose cached sizes are right, `q_merge` with `descend = false` returns the total number of
elements and leaves the first queue well formed, weakly ascending and a permutation of
the nodes of all queues (each with its value), with `size` the total, and every other
queue empty with `size` 0; the chain itself is unchanged. -/
theorem q_merge_ascending (h : Heap) (head c1 : Nat) (ns1 : List Nat)
    (rest : List (Nat × List Nat)) (fuel : Nat)
    (hc : Contexts h head ((c1, ns1) :: rest))
    (hs : ∀ c ∈ (c1, ns1) :: rest, Ascending h.value c.2)
    (hint : ns1.length + (rest.map Prod.snd).flatten.length < 2147483648)
    (hfuel : rest.length + ns1.length + (rest.map Prod.snd).flatten.length < fuel) :
    ∃ h' merged, q_merge fuel h head false
        = .ok (((ns1.length + (rest.map Prod.snd).flatten.length : Nat) : Int), h') ∧
      Ring h' (h.q c1) merged ∧ Ascending h'.value merged ∧
      merged.Perm (ns1 ++ (rest.map Prod.snd).flatten) ∧
      h'.value = h.value ∧ h'.q = h.q ∧
      h'.size c1 = ((ns1.length + (rest.map Prod.snd).flatten.length : Nat) : Int) ∧
      (∀ c ∈ rest, Ring h' (h.q c.1) [] ∧ h'.size c.1 = 0) ∧
      Ring h' head (c1 :: rest.map Prod.fst) := by
  obtain ⟨h', e1, e2, e3, e4, e5, e6, e7⟩ := q_merge_spec h head c1 ns1 rest fuel false hc hint
    hfuel
  refine ⟨h', merge_all h.value ns1 rest, e1, e2, ?_, merge_all_perm _ _ _, e3, e4, e5, e6, e7⟩
  rw [e3]
  exact merge_all_ascending _ _ _ (hs (c1, ns1) (by simp))

/-- The example of the spec for `q_merge`: the queues "1","3","5" and "2","4" are merged
into one ascending queue of the five nodes, 5 is returned, and the second queue is left
empty with size 0 (C5 at a concrete chain). -/
theorem q_merge_ascending_witness :
    ∃ h' merged, q_merge 8 (build_two [[49], [51], [53]] [[50], [52]]) 1 false = .ok (5, h') ∧
      Ring h' 10 merged ∧ Ascending h'.value merged ∧
      merged.Perm [11, 12, 13, 21, 22] ∧
      h'.value = (build_two [[49], [51], [53]] [[50], [52]]).value ∧
      h'.q = (build_two [[49], [51], [53]] [[50], [52]]).q ∧
      h'.size 2 = 5 ∧
      (∀ c ∈ [(3, [21, 22])],
        Ring h' ((build_two [[49], [51], [53]] [[50], [52]]).q c.1) [] ∧ h'.size c.1 = 0) ∧
      Ring h' 1 [2, 3] :=
  q_merge_ascending (build_two [[49], [51], [53]] [[50], [52]]) 1 2 [11, 12, 13]
    [(3, [21, 22])] 8 (by decide) (by decide) (by decide) (by decide)

/-- The run of `q_merge` on the example of the spec: the first queue reads
"1","2","3","4","5", the second is empty, and 5 is returned. -/
theorem q_merge_spec_example :
    returned (q_merge 8 (build_two [[49], [51], [53]] [[50], [52]]) 1 false) = some 5 ∧
    values_after 8 (memory_after (q_merge 8 (build_two [[49], [51], [53]] [[50], [52]]) 1 false))
      10 = some [[49], [50], [51], [52], [53]] ∧
    values_after 8 (memory_after (q_merge 8 (build_two [[49], [51], [53]] [[50], [52]]) 1 false))
      20 = some [] := by
  decide

/-! ## `mergeTwoLists`, `merge_lists` and `q_sort` on queues within the capacity -/

theorem NullList.transport {h h' : Heap} : ∀ {l : List Nat} {p : Nat}, NullList h p l →
    (∀ a ∈ l, h'.next a = h.next a) → NullList h' p l
  | [], _, hl, _ => hl
  | a :: l, p, hl, hf => by
    obtain ⟨h1, h2, h3⟩ := hl
    refine ⟨h1, h2, ?_⟩
    rw [hf a (by simp)]
    exact h3.transport (fun x hx => hf x (List.mem_cons_of_mem _ hx))

theorem NullList.mem_ne_zero {h : Heap} : ∀ {l : List Nat} {p : Nat}, NullList h p l →
    ∀ a ∈ l, a ≠ 0
  | [], _, _, a, ha => by simp at ha
  | b :: l, p, hl, a, ha => by
    obtain ⟨_, h2, h3⟩ := hl
    rcases List.mem_cons.1 ha with rfl | ha
    · exact h2
    · exact h3.mem_ne_zero a ha

theorem NullList.next_cons {h : Heap} {a p : Nat} {l : List Nat} (hl : NullList h p (a :: l)) :
    NullList h (h.next a) l := hl.2.2

theorem NullList.next_nil {h : Heap} {a p : Nat} (hl : NullList h p [a]) : h.next a = 0 :=
  hl.2.2

theorem NullList.next_first {h : Heap} {a b p : Nat} {l : List Nat}
    (hl : NullList h p (a :: b :: l)) : h.next a = b := hl.2.2.1

theorem store_indir_none (h : Heap) (sorted v : Nat) : store_indir h sorted none v = (v, h) := rfl

theorem store_indir_some (h : Heap) (sorted p v : Nat) :
    store_indir h sorted (some p) v = (sorted, h.setNext p v) := rfl

/-- The state `mergeTwoLists_loop` is entered with is well formed: `l1` and `l2` are
disjoint `NULL`-terminated chains and `indir_iter` does not point into them. -/
theorem mergeTwoLists_loop_spec (d : Bool) : ∀ (fuel : Nat) (A B : List Nat) (a b : Nat)
    (h : Heap) (sorted : Nat) (indir : Option Nat),
    NullList h a (a :: A) → NullList h b (b :: B) → ((a :: A) ++ (b :: B)).Nodup →
    (∀ p ∈ indir, p ∉ (a :: A) ++ (b :: B)) → A.length + B.length < fuel →
    ∃ s' h', mergeTwoLists_loop fuel h sorted indir a b d = .ok (s', h') ∧
      NullList h' (indir.elim s' (fun p => h'.next p))
        (List.merge (a :: A) (b :: B) (picks_first h.value d)) ∧
      (∀ p ∈ indir, s' = sorted) ∧
      (∀ x, x ∉ (a :: A) ++ (b :: B) → (∀ p ∈ indir, x ≠ p) → h'.next x = h.next x) ∧
      h'.prev = h.prev ∧ h'.value = h.value ∧ h'.q = h.q ∧ h'.size = h.size ∧
      h'.released = h.released
  | 0, _, _, _, _, _, _, _, _, _, _, _, hf => by omega
  | fuel + 1, A, B, a, b, h, sorted, indir, h1, h2, hnd, hp, hf => by
    have ha0 : a ≠ 0 := h1.2.1
    have hb0 : b ≠ 0 := h2.2.1
    have hdis : ∀ x, x ∈ a :: A → x ∉ b :: B := fun x hx hy =>
      (List.nodup_append.1 hnd).2.2 hx hy
    have hndA : (a :: A).Nodup := (List.nodup_append.1 hnd).1
    have hndB : (b :: B).Nodup := (List.nodup_append.1 hnd).2.1
    -- the memory after the store through `indir_iter`
    have hstore : ∀ c, c ∈ (a :: A) ++ (b :: B) →
        (store_indir h sorted indir c).1 = indir.elim c (fun _ => sorted) ∧
        (∀ x, (∀ p ∈ indir, x ≠ p) → (store_indir h sorted indir c).2.next x = h.next x) ∧
        (∀ p ∈ indir, (store_indir h sorted indir c).2.next p = c) ∧
        (store_indir h sorted indir c).2.prev = h.prev ∧
        (store_indir h sorted indir c).2.value = h.value ∧
        (store_indir h sorted indir c).2.q = h.q ∧
        (store_indir h sorted indir c).2.size = h.size ∧
        (store_indir h sorted indir c).2.released = h.released := by
      intro c _
      cases indir with
      | none => simp [store_indir_none]
      | some p =>
        simp only [store_indir_some, Option.elim, Option.mem_def, Option.some.injEq, forall_eq',
          setNext_next, if_true, setNext_prev, setNext_value, setNext_q, setNext_size,
          setNext_released, and_self, and_true, true_and]
        intro x hx
        simp [hx]
    have hin : ∀ x, x ∈ (a :: A) ++ (b :: B) → ∀ p ∈ indir, x ≠ p := by
      intro x hx p hpm e
      exact hp p hpm (e ▸ hx)
    unfold mergeTwoLists_loop
    simp only [node_get_val, ha0, hb0, if_false, strcmpP]
    have hpick : (if d = true then decide (strcmp (h.value a) (h.value b) > 0)
        else decide (strcmp (h.value a) (h.value b) < 0)) = picks_first h.value d a b := rfl
    rw [hpick]
    by_cases hc : picks_first h.value d a b = true
    · -- `l1` is taken
      simp only [hc, if_true]
      obtain ⟨s1, s2, s3, s4, s5, s6, s7, s8⟩ := hstore a (by simp)
      have hna : (store_indir h sorted indir a).2.next a = h.next a :=
        s2 a (hin a (by simp))
      rw [hna, List.cons_merge_cons_pos _ _ _ hc]
      cases A with
      | nil =>
        have hz : h.next a = 0 := h1.next_nil
        have hab : a ∉ b :: B := hdis a (by simp)
        refine ⟨(store_indir h sorted indir a).1, (store_indir h sorted indir a).2.setNext a b,
          by simp only [hz, if_true], ?_, ?_, ?_, by simpa using s4,
          by simpa using s5, by simpa using s6, by simpa using s7, by simpa using s8⟩
        · have hout : indir.elim (store_indir h sorted indir a).1
              (fun p => ((store_indir h sorted indir a).2.setNext a b).next p) = a := by
            cases indir with
            | none => simp [store_indir_none]
            | some p =>
              have hpa : p ≠ a := by
                intro e
                exact hp p rfl (by simp [e])
              have := s3 p rfl
              simp [Option.elim, hpa, this]
          rw [hout, List.nil_merge]
          refine ⟨rfl, ha0, ?_⟩
          simp only [setNext_next, if_true]
          refine h2.transport ?_
          intro x hx
          have hxa : x ≠ a := fun e => hab (e ▸ hx)
          simp only [setNext_next, hxa, if_false]
          exact s2 x (hin x (by simp only [List.mem_append]; exact Or.inr hx))
        · intro p hpm
          rw [s1]
          cases indir with
          | none => simp at hpm
          | some q => rfl
        · intro x hx hxp
          have hxa : x ≠ a := fun e => hx (by simp [e])
          simp only [setNext_next, hxa, if_false]
          exact s2 x hxp
      | cons a2 A =>
        have hn : h.next a = a2 := h1.next_first
        have ha20 : a2 ≠ 0 := h1.mem_ne_zero a2 (by simp)
        have h1' : NullList (store_indir h sorted indir a).2 a2 (a2 :: A) := by
          have := h1.next_cons
          rw [hn] at this
          refine this.transport ?_
          intro x hx
          exact s2 x (hin x (by
            simp only [List.mem_append, List.mem_cons] at hx ⊢; tauto))
        have h2' : NullList (store_indir h sorted indir a).2 b (b :: B) := by
          refine h2.transport ?_
          intro x hx
          exact s2 x (hin x (by simp only [List.mem_append]; exact Or.inr hx))
        have hnd' : ((a2 :: A) ++ (b :: B)).Nodup := by
          have := hnd
          simp only [List.cons_append, List.nodup_cons] at this ⊢
          exact this.2
        have hpa : ∀ p ∈ (some a : Option Nat), p ∉ (a2 :: A) ++ (b :: B) := by
          intro p hpm
          have : p = a := by simpa using hpm.symm
          subst this
          have := hnd
          simp only [List.cons_append, List.nodup_cons] at this
          exact this.1
        obtain ⟨s', h', e1, e2, e3, e4, e5, e6, e7, e8, e9⟩ := mergeTwoLists_loop_spec d fuel A
          (b :: B).tail a2 b (store_indir h sorted indir a).2 (store_indir h sorted indir a).1
          (some a) h1' h2' hnd' hpa (by simp only [List.length_cons, List.tail_cons] at hf ⊢; omega)
        simp only [List.tail_cons, Option.elim] at e1 e2 e4
        rw [s5] at e2
        have es : s' = (store_indir h sorted indir a).1 := e3 a rfl
        refine ⟨s', h', by simp only [hn, ha20, if_false]; exact e1, ?_, ?_, ?_, by rw [e5, s4],
          by rw [e6, s5], by rw [e7, s6], by rw [e8, s7], by rw [e9, s8]⟩
        · have hout : indir.elim s' (fun p => h'.next p) = a := by
            cases indir with
            | none => rw [es]; simp [store_indir_none]
            | some p =>
              have hpn : p ∉ (a :: a2 :: A) ++ (b :: B) := hp p rfl
              have hpa' : p ≠ a := fun e => hpn (by simp [e])
              have hpn' : p ∉ (a2 :: A) ++ (b :: B) := by
                intro hm
                exact hpn (by
                  simp only [List.cons_append, List.mem_cons, List.mem_append] at hm ⊢; tauto)
              have := e4 p hpn' (by
                intro q hq
                have : q = a := by simpa using hq.symm
                rw [this]; exact hpa')
              simp only [Option.elim]
              rw [this]
              exact s3 p rfl
          rw [hout]
          exact ⟨rfl, ha0, e2⟩
        · intro p hpm
          rw [es, s1]
          cases indir with
          | none => simp at hpm
          | some q => rfl
        · intro x hx hxp
          have hxa : x ≠ a := fun e => hx (by simp [e])
          have hx' : x ∉ (a2 :: A) ++ (b :: B) := by
            intro hm
            exact hx (by
              simp only [List.cons_append, List.mem_cons, List.mem_append] at hm ⊢; tauto)
          rw [e4 x hx' (by
            intro q hq
            have : q = a := by simpa using hq.symm
            rw [this]; exact hxa)]
          exact s2 x hxp
    · -- `l2` is taken
      simp only [hc, Bool.false_eq_true, if_false]
      obtain ⟨s1, s2, s3, s4, s5, s6, s7, s8⟩ := hstore b (by simp)
      have hnb : (store_indir h sorted indir b).2.next b = h.next b :=
        s2 b (hin b (by simp))
      rw [hnb, List.cons_merge_cons_neg _ _ _ hc]
      cases B with
      | nil =>
        have hz : h.next b = 0 := h2.next_nil
        have hba : b ∉ a :: A := fun hm => hdis b hm (by simp)
        refine ⟨(store_indir h sorted indir b).1, (store_indir h sorted indir b).2.setNext b a,
          by simp only [hz, if_true], ?_, ?_, ?_, by simpa using s4,
          by simpa using s5, by simpa using s6, by simpa using s7, by simpa using s8⟩
        · have hout : indir.elim (store_indir h sorted indir b).1
              (fun p => ((store_indir h sorted indir b).2.setNext b a).next p) = b := by
            cases indir with
            | none => simp [store_indir_none]
            | some p =>
              have hpb : p ≠ b := by
                intro e
                exact hp p rfl (by simp [e])
              have := s3 p rfl
              simp [Option.elim, hpb, this]
          rw [hout, List.merge_right]
          refine ⟨rfl, hb0, ?_⟩
          simp only [setNext_next, if_true]
          refine h1.transport ?_
          intro x hx
          have hxb : x ≠ b := fun e => hba (e ▸ hx)
          simp only [setNext_next, hxb, if_false]
          exact s2 x (hin x (by simp only [List.mem_append]; exact Or.inl hx))
        · intro p hpm
          rw [s1]
          cases indir with
          | none => simp at hpm
          | some q => rfl
        · intro x hx hxp
          have hxb : x ≠ b := fun e => hx (by simp [e])
          simp only [setNext_next, hxb, if_false]
          exact s2 x hxp
      | cons b2 B =>
        have hn : h.next b = b2 := h2.next_first
        have hb20 : b2 ≠ 0 := h2.mem_ne_zero b2 (by simp)
        have h2' : NullList (store_indir h sorted indir b).2 b2 (b2 :: B) := by
          have := h2.next_cons
          rw [hn] at this
          refine this.transport ?_
          intro x hx
          exact s2 x (hin x (by
            simp only [List.mem_append, List.mem_cons] at hx ⊢; tauto))
        have h1' : NullList (store_indir h sorted indir b).2 a (a :: A) := by
          refine h1.transport ?_
          intro x hx
          exact s2 x (hin x (by simp only [List.mem_append]; exact Or.inl hx))
        have hnd' : ((a :: A) ++ (b2 :: B)).Nodup := by
          have := List.nodup_middle.1 hnd
          exact (List.nodup_cons.1 this).2
        have hpb : ∀ p ∈ (some b : Option Nat), p ∉ (a :: A) ++ (b2 :: B) := by
          intro p hpm
          have : p = b := by simpa using hpm.symm
          subst this
          have := List.nodup_middle.1 hnd
          exact (List.nodup_cons.1 this).1
        obtain ⟨s', h', e1, e2, e3, e4, e5, e6, e7, e8, e9⟩ := mergeTwoLists_loop_spec d fuel A
          B a b2 (store_indir h sorted indir b).2 (store_indir h sorted indir b).1
          (some b) h1' h2' hnd' hpb (by simp only [List.length_cons] at hf ⊢; omega)
        simp only [Option.elim] at e1 e2 e4
        rw [s5] at e2
        have es : s' = (store_indir h sorted indir b).1 := e3 b rfl
        refine ⟨s', h', by simp only [hn, hb20, if_false]; exact e1, ?_, ?_, ?_, by rw [e5, s4],
          by rw [e6, s5], by rw [e7, s6], by rw [e8, s7], by rw [e9, s8]⟩
        · have hout : indir.elim s' (fun p => h'.next p) = b := by
            cases indir with
            | none => rw [es]; simp [store_indir_none]
            | some p =>
              have hpn : p ∉ (a :: A) ++ (b :: b2 :: B) := hp p rfl
              have hpb' : p ≠ b := fun e => hpn (by simp [e])
              have hpn' : p ∉ (a :: A) ++ (b2 :: B) := by
                intro hm
                exact hpn (by
                  simp only [List.cons_append, List.mem_cons, List.mem_append] at hm ⊢; tauto)
              have := e4 p hpn' (by
                intro q hq
                have : q = b := by simpa using hq.symm
                rw [this]; exact hpb')
              simp only [Option.elim]
              rw [this]
              exact s3 p rfl
          rw [hout]
          exact ⟨rfl, hb0, e2⟩
        · intro p hpm
          rw [es, s1]
          cases indir with
          | none => simp at hpm
          | some q => rfl
        · intro x hx hxp
          have hxb : x ≠ b := fun e => hx (by simp [e])
          have hx' : x ∉ (a :: A) ++ (b2 :: B) := by
            intro hm
            exact hx (by
              simp only [List.cons_append, List.mem_cons, List.mem_append] at hm ⊢; tauto)
          rw [e4 x hx' (by
            intro q hq
            have : q = b := by simpa using hq.symm
            rw [this]; exact hxb)]
          exact s2 x hxp

theorem mergeTwoLists_spec (d : Bool) (fuel : Nat) (h : Heap) (l1 l2 : Nat) (L1 L2 : List Nat)
    (h1 : NullList h l1 L1) (h2 : NullList h l2 L2) (n1 : L1 ≠ []) (n2 : L2 ≠ [])
    (hnd : (L1 ++ L2).Nodup) (hf : L1.length + L2.length ≤ fuel + 1) :
    ∃ r h', mergeTwoLists fuel h l1 l2 d = .ok (r, h') ∧
      NullList h' r (List.merge L1 L2 (picks_first h.value d)) ∧
      (∀ x, x ∉ L1 ++ L2 → h'.next x = h.next x) ∧
      h'.prev = h.prev ∧ h'.value = h.value ∧ h'.q = h.q ∧ h'.size = h.size ∧
      h'.released = h.released := by
  obtain ⟨a, A, rfl⟩ := List.exists_cons_of_ne_nil n1
  obtain ⟨b, B, rfl⟩ := List.exists_cons_of_ne_nil n2
  have ea : l1 = a := h1.1
  have eb : l2 = b := h2.1
  subst ea eb
  obtain ⟨s', h', e1, e2, -, e4, e5, e6, e7, e8, e9⟩ := mergeTwoLists_loop_spec d fuel A B l1 l2 h
    0 none h1 h2 hnd (by simp) (by simp only [List.length_cons] at hf; omega)
  exact ⟨s', h', e1, e2, fun x hx => e4 x hx (by simp), e5, e6, e7, e8, e9⟩

theorem merge_ascending (v : Nat → List Nat) : ∀ (L1 L2 : List Nat),
    Ascending v L1 → Ascending v L2 → Ascending v (List.merge L1 L2 (picks_first v false))
  | [], L2, _, h2 => by simpa using h2
  | a :: A, [], h1, _ => by simpa using h1
  | a :: A, b :: B, h1, h2 => by
    unfold Ascending at *
    by_cases hc : picks_first v false a b = true
    · rw [List.cons_merge_cons_pos _ _ _ hc]
      have hlt : strcmp (v a) (v b) < 0 := by simpa [picks_first] using hc
      refine List.pairwise_cons.2 ⟨?_, merge_ascending v A (b :: B) (List.pairwise_cons.1 h1).2 h2⟩
      intro x hx
      rcases List.mem_merge.1 hx with hx | hx
      · exact (List.pairwise_cons.1 h1).1 x hx
      · rcases List.mem_cons.1 hx with rfl | hx
        · exact le_of_lt hlt
        · exact strcmp_le_trans _ _ _ (le_of_lt hlt) ((List.pairwise_cons.1 h2).1 x hx)
    · rw [List.cons_merge_cons_neg _ _ _ hc]
      have hge : strcmp (v b) (v a) ≤ 0 := by
        have h0 : ¬ strcmp (v a) (v b) < 0 := by simpa [picks_first] using hc
        have := strcmp_antisymm (v a) (v b)
        omega
      refine List.pairwise_cons.2 ⟨?_, merge_ascending v (a :: A) B h1 (List.pairwise_cons.1 h2).2⟩
      intro x hx
      rcases List.mem_merge.1 hx with hx | hx
      · rcases List.mem_cons.1 hx with rfl | hx
        · exact hge
        · exact strcmp_le_trans _ _ _ hge ((List.pairwise_cons.1 h1).1 x hx)
      · exact (List.pairwise_cons.1 h2).1 x hx
termination_by L1 L2 => L1.length + L2.length



theorem merge_lists_mid (lo len : Nat) (h2 : 2 ≤ len) (hb : lo + len ≤ 1000000000) :
    (int32 ((lo : Int) + ((lo + len - 1 : Nat) : Int))).tdiv 2
      = ((lo + ((len - 1) / 2 + 1) - 1 : Nat) : Int) := by
  rw [int32_of_range (by omega) (by omega), Int.tdiv_eq_ediv (by omega) (by decide)]
  omega

theorem merge_lists_mid_succ (lo len : Nat) (hb : lo + len ≤ 1000000000) :
    int32 (((lo + ((len - 1) / 2 + 1) - 1 : Nat) : Int) + 1)
      = ((lo + ((len - 1) / 2 + 1) : Nat) : Int) := by
  rw [int32_of_range (by omega) (by omega)]
  omega

theorem merge_lists_spec (d : Bool) (lists : Nat → Nat) (fuel : Nat) :
    ∀ (n : Nat) (seg : List (List Nat)) (lo : Nat) (h : Heap),
    seg ≠ [] → seg.length ≤ n → lo + seg.length ≤ 1000000000 →
    (∀ i (hi : i < seg.length), NullList h (lists (lo + i)) seg[i]) →
    (∀ s ∈ seg, s ≠ []) → seg.flatten.Nodup → seg.flatten.length ≤ fuel + 1 →
    ∃ r h' M, merge_lists fuel n h lists (lo : Int) ((lo + seg.length - 1 : Nat) : Int) d
        = .ok (r, h') ∧
      NullList h' r M ∧ M ≠ [] ∧ M.Perm seg.flatten ∧
      (d = false → (∀ s ∈ seg, Ascending h.value s) → Ascending h.value M) ∧
      (∀ x, x ∉ seg.flatten → h'.next x = h.next x) ∧
      h'.prev = h.prev ∧ h'.value = h.value ∧ h'.q = h.q ∧ h'.size = h.size ∧
      h'.released = h.released
  | 0, seg, _, _, hne, hn, _, _, _, _, _ => by
    have : 0 < seg.length := List.length_pos.2 hne
    omega
  | n + 1, seg, lo, h, hne, hn, hlo, hl, hs, hnd, hf => by
    have hpos : 0 < seg.length := List.length_pos.2 hne
    by_cases hone : seg.length = 1
    · obtain ⟨s, rfl⟩ : ∃ s, seg = [s] := by
        match seg, hone with
        | [s], _ => exact ⟨s, rfl⟩
      have hl0 := hl 0 (by simp)
      refine ⟨lists lo, h, s, ?_, by simpa using hl0, hs s (by simp), by simp, ?_,
        fun _ _ => rfl, rfl, rfl, rfl, rfl, rfl⟩
      · unfold merge_lists
        simp
      · intro _ ha
        exact ha s (by simp)
    · have hlen2 : 2 ≤ seg.length := by omega
      obtain ⟨k, hk1, hk2, hkdef⟩ : ∃ k, 1 ≤ k ∧ k < seg.length ∧ k = (seg.length - 1) / 2 + 1 :=
        ⟨(seg.length - 1) / 2 + 1, by omega, by omega, rfl⟩
      have hlt : (seg.take k).length = k := by
        rw [List.length_take]; omega
      have hld : (seg.drop k).length = seg.length - k := List.length_drop k seg
      have hsplit : seg.take k ++ seg.drop k = seg := List.take_append_drop k seg
      have hflat : seg.flatten = (seg.take k).flatten ++ (seg.drop k).flatten := by
        rw [← List.flatten_append, hsplit]
      have hndL : (seg.take k).flatten.Nodup := by
        rw [hflat] at hnd; exact (List.nodup_append.1 hnd).1
      have hndR : (seg.drop k).flatten.Nodup := by
        rw [hflat] at hnd; exact (List.nodup_append.1 hnd).2.1
      have hdisj : ∀ x, x ∈ (seg.take k).flatten → x ∉ (seg.drop k).flatten := by
        intro x hx hy
        rw [hflat] at hnd
        exact (List.nodup_append.1 hnd).2.2 hx hy
      have hlenflat : (seg.take k).flatten.length + (seg.drop k).flatten.length
          = seg.flatten.length := by
        rw [hflat, List.length_append]
      have hnL : (seg.take k).length ≤ n := by rw [hlt]; clear hkdef; omega
      have hnR : (seg.drop k).length ≤ n := by rw [hld]; clear hkdef; omega
      have hbL : lo + (seg.take k).length ≤ 1000000000 := by rw [hlt]; clear hkdef; omega
      have hbR : lo + k + (seg.drop k).length ≤ 1000000000 := by rw [hld]; clear hkdef; omega
      have hfL : (seg.take k).flatten.length ≤ fuel + 1 := by clear hkdef; omega
      have hfR : (seg.drop k).flatten.length ≤ fuel + 1 := by clear hkdef; omega
      -- the left half
      obtain ⟨r1, h1, M1, a1, a2, a3, a4, a5, a6, a7, a8, a9, a10, a11⟩ := merge_lists_spec d
        lists fuel n (seg.take k) lo h
        (by intro e; rw [e] at hlt; simp at hlt; clear hkdef; omega)
        hnL hbL
        (by
          intro i hi
          have hi' : i < seg.length := by rw [hlt] at hi; clear hkdef; omega
          rw [List.getElem_take]
          exact hl i hi')
        (fun s hs' => hs s (List.mem_of_mem_take hs')) hndL hfL
      -- the right half
      obtain ⟨r2, h2, M2, b1, b2, b3, b4, b5, b6, b7, b8, b9, b10, b11⟩ := merge_lists_spec d
        lists fuel n (seg.drop k) (lo + k) h1
        (by intro e; rw [e] at hld; simp at hld; clear hkdef; omega)
        hnR hbR
        (by
          intro i hi
          have hi' : k + i < seg.length := by rw [hld] at hi; clear hkdef; omega
          have hmem : ∀ x ∈ (seg.drop k)[i], x ∈ (seg.drop k).flatten :=
            fun x hx => List.mem_flatten.2 ⟨_, List.getElem_mem _, hx⟩
          rw [List.getElem_drop] at hmem ⊢
          rw [Nat.add_assoc]
          refine (hl (k + i) hi').transport ?_
          intro x hx
          refine a6 x ?_
          intro hm
          exact hdisj x hm (hmem x hx))
        (fun s hs' => hs s (List.mem_of_mem_drop hs')) hndR hfR
      have hM1 : NullList h2 r1 M1 := by
        refine a2.transport ?_
        intro x hx
        refine b6 x ?_
        intro hm
        exact hdisj x (a4.mem_iff.1 hx) hm
      have hndM : (M1 ++ M2).Nodup := by
        have hp : (M1 ++ M2).Perm seg.flatten := by
          rw [hflat]; exact a4.append b4
        exact hp.nodup_iff.2 hnd
      have hlenM : M1.length + M2.length ≤ fuel + 1 := by
        have := a4.length_eq
        have := b4.length_eq
        clear hkdef; omega
      obtain ⟨r, h', c1, c2, c3, c4, c5, c6, c7, c8⟩ := mergeTwoLists_spec d fuel h2 r1 r2 M1 M2
        hM1 b2 a3 b3 hndM hlenM
      have hv2 : h2.value = h.value := by rw [b8, a8]
      refine ⟨r, h', List.merge M1 M2 (picks_first h2.value d), ?_, c2, ?_, ?_, ?_, ?_,
        by rw [c4, b7, a7], by rw [c5, b8, a8], by rw [c6, b9, a9], by rw [c7, b10, a10],
        by rw [c8, b11, a11]⟩
      · have hgt : ¬ ((lo : Int) > ((lo + seg.length - 1 : Nat) : Int)) := by
          clear hkdef; omega
        have hneq : ¬ ((lo : Int) = ((lo + seg.length - 1 : Nat) : Int)) := by
          clear hkdef; omega
        have hmid := merge_lists_mid lo seg.length hlen2 hlo
        have hmid1 := merge_lists_mid_succ lo seg.length hlo
        rw [← hkdef] at hmid hmid1
        have hhigh : ((lo + seg.length - 1 : Nat) : Int)
            = ((lo + k + (seg.drop k).length - 1 : Nat) : Int) := by
          have e : lo + seg.length - 1 = lo + k + (seg.length - k) - 1 := by
            clear hkdef hmid hmid1; omega
          rw [hld, e]
        rw [hlt] at a1
        unfold merge_lists
        rw [if_neg hgt, if_neg hneq]
        simp only [hmid, a1, hmid1]
        rw [hhigh]
        simp only [b1, c1]
      · intro e
        have h3 := congrArg List.length e
        rw [List.length_merge] at h3
        have h4 := List.length_pos.2 a3
        simp only [List.length_nil] at h3
        clear hkdef; omega
      · refine (List.merge_perm_append _).trans ?_
        rw [hflat]
        exact a4.append b4
      · intro hd hasc
        subst hd
        rw [hv2]
        refine merge_ascending h.value M1 M2 ?_ ?_
        · exact a5 rfl (fun s hs' => hasc s (List.mem_of_mem_take hs'))
        · have := b5 rfl (fun s hs' => by
            rw [a8]; exact hasc s (List.mem_of_mem_drop hs'))
          rwa [a8] at this
      · intro x hx
        have hx1 : x ∉ (seg.take k).flatten := fun hm => hx (by rw [hflat]; simp [hm])
        have hx2 : x ∉ (seg.drop k).flatten := fun hm => hx (by rw [hflat]; simp [hm])
        rw [c3 x (by
          intro hm
          rcases List.mem_append.1 hm with hm | hm
          · exact hx1 (a4.mem_iff.1 hm)
          · exact hx2 (b4.mem_iff.1 hm)), b6 x hx2, a6 x hx1]

theorem first_run_append (v : Nat → List Nat) : ∀ (l : List Nat) (s : Nat),
    (first_run v s l).1 ++ (first_run v s l).2 = s :: l
  | [], s => rfl
  | t :: l, s => by
    unfold first_run
    split
    · simp [first_run_append v l t]
    · rfl

theorem first_run_cons (v : Nat → List Nat) : ∀ (l : List Nat) (s : Nat),
    ∃ r, (first_run v s l).1 = s :: r
  | [], s => ⟨[], rfl⟩
  | t :: l, s => by
    unfold first_run
    split
    · exact ⟨_, rfl⟩
    · exact ⟨[], rfl⟩

theorem first_run_rest_length (v : Nat → List Nat) (l : List Nat) (s : Nat) :
    (first_run v s l).2.length ≤ l.length := by
  have h1 := congrArg List.length (first_run_append v l s)
  obtain ⟨r, hr⟩ := first_run_cons v l s
  rw [List.length_append, hr] at h1
  simp only [List.length_cons] at h1
  omega

theorem first_run_ascending (v : Nat → List Nat) : ∀ (l : List Nat) (s : Nat),
    Ascending v (first_run v s l).1
  | [], s => by simp [first_run, Ascending]
  | t :: l, s => by
    unfold first_run
    split
    · rename_i hc
      have ih := first_run_ascending v l t
      obtain ⟨r, hr⟩ := first_run_cons v l t
      unfold Ascending at *
      simp only
      rw [hr] at ih ⊢
      refine List.pairwise_cons.2 ⟨?_, ih⟩
      intro x hx
      rcases List.mem_cons.1 hx with rfl | hx
      · exact hc
      · exact strcmp_le_trans _ _ _ hc ((List.pairwise_cons.1 ih).1 x hx)
    · simp [Ascending]

theorem runs_upto_flatten (v : Nat → List Nat) : ∀ (n : Nat) (l : List Nat), l.length ≤ n →
    (runs_upto v n l).flatten = l
  | 0, l, hl => by
    have : l = [] := List.length_eq_zero.1 (by omega)
    subst this; rfl
  | n + 1, [], _ => rfl
  | n + 1, s :: l, hl => by
    simp only [List.length_cons] at hl
    have := runs_upto_flatten v n (first_run v s l).2
      (by have := first_run_rest_length v l s; omega)
    simp only [runs_upto, List.flatten_cons, this, first_run_append]

theorem runs_upto_ne_nil (v : Nat → List Nat) : ∀ (n : Nat) (l : List Nat),
    ∀ r ∈ runs_upto v n l, r ≠ []
  | 0, _, r, hr => by simp [runs_upto] at hr
  | n + 1, [], r, hr => by simp [runs_upto] at hr
  | n + 1, s :: l, r, hr => by
    simp only [runs_upto, List.mem_cons] at hr
    rcases hr with rfl | hr
    · obtain ⟨r', e⟩ := first_run_cons v l s
      rw [e]; simp
    · exact runs_upto_ne_nil v n _ r hr

theorem runs_upto_ascending (v : Nat → List Nat) : ∀ (n : Nat) (l : List Nat),
    ∀ r ∈ runs_upto v n l, Ascending v r
  | 0, _, r, hr => by simp [runs_upto] at hr
  | n + 1, [], r, hr => by simp [runs_upto] at hr
  | n + 1, s :: l, r, hr => by
    simp only [runs_upto, List.mem_cons] at hr
    rcases hr with rfl | hr
    · exact first_run_ascending v l s
    · exact runs_upto_ascending v n _ r hr

theorem q_sort_run_spec {h : Heap} {head : Nat} : ∀ (l : List Nat) (s fuel : Nat),
    List.Chain' (Link h) (s :: l ++ [head]) → (0 :: head :: s :: l).Nodup → l.length < fuel →
    q_sort_run fuel h head s = .ok (lastOr 0 (first_run h.value s l).1)
  | [], s, fuel, hc, hn, hf => by
    obtain ⟨f, rfl⟩ : ∃ f, fuel = f + 1 := ⟨fuel - 1, by omega⟩
    have hl : Link h s head := by simpa using hc
    simp [q_sort_run, hl.1, first_run]
  | t :: l, s, fuel, hc, hn, hf => by
    obtain ⟨f, rfl⟩ : ∃ f, fuel = f + 1 := ⟨fuel - 1, by omega⟩
    have hc1 := List.chain'_cons.1 (show List.Chain' (Link h) (s :: t :: (l ++ [head])) from hc)
    have hl : h.next s = t := hc1.1.1
    simp only [List.nodup_cons, List.mem_cons, not_or] at hn
    have h1 : s ≠ head := fun e => hn.2.1.1 e.symm
    have h2 : t ≠ head := fun e => hn.2.1.2.1 e.symm
    have h3 : s ≠ 0 := fun e => hn.1.2.1 e.symm
    have h4 : t ≠ 0 := fun e => hn.1.2.2.1 e.symm
    simp only [List.length_cons] at hf
    unfold q_sort_run first_run
    simp only [ne_eq, h1, not_false_eq_true, hl, h2, and_self, if_true, node_get_val, h3, h4,
      if_false, strcmpP]
    by_cases hle : strcmp (h.value s) (h.value t) ≤ 0
    · have ih := q_sort_run_spec l t f hc1.2 (by
        simp only [List.nodup_cons, List.mem_cons, not_or]; tauto) (by omega)
      obtain ⟨r, hr⟩ := first_run_cons h.value l t
      simp only [hle, if_true, ih, hr, lastOr_cons]
    · simp only [hle, if_false, lastOr_cons, lastOr_nil]


theorem runs_upto_nil (v : Nat → List Nat) (n : Nat) : runs_upto v n [] = [] := by
  cases n <;> rfl

theorem nulllist_of_chain {h : Heap} : ∀ (r : List Nat) (s : Nat) (t : List Nat),
    List.Chain' (Link h) (s :: r ++ t) → (0 :: s :: r).Nodup →
    NullList (h.setNext (lastOr s r) 0) s (s :: r)
  | [], s, _, _, hn => by
    simp only [List.nodup_cons, List.mem_cons, not_or] at hn
    refine ⟨rfl, fun e => hn.1.1 e.symm, ?_⟩
    simp [NullList]
  | a :: r, s, t, hc, hn => by
    have hc1 := List.chain'_cons.1 (show List.Chain' (Link h) (s :: a :: (r ++ t)) from hc)
    have hn' : (0 :: a :: r).Nodup := by
      simp only [List.nodup_cons, List.mem_cons, not_or] at hn ⊢; tauto
    have ih := nulllist_of_chain r a t hc1.2 hn'
    have hs0 : s ≠ 0 := by
      simp only [List.nodup_cons, List.mem_cons, not_or] at hn
      exact fun e => hn.1.1 e.symm
    have hsl : s ≠ lastOr a r := by
      intro e
      have hm := lastOr_mem a r
      rw [← e] at hm
      simp only [List.nodup_cons, List.mem_cons, not_or] at hn hm
      tauto
    refine ⟨rfl, hs0, ?_⟩
    simp only [lastOr_cons, setNext_next, hsl, if_false, hc1.1.1]
    exact ih

theorem q_sort_split_spec (fuel head : Nat) : ∀ (n : Nat) (S : List Nat) (h : Heap)
    (lists : Nat → Nat) (count : Nat),
    List.Chain' (Link h) (S ++ [head]) → (0 :: head :: S).Nodup → S.length ≤ n →
    S.length < fuel → count + (runs_upto h.value n S).length ≤ LISTS_CAPACITY →
    ∃ lists' h', q_sort_split fuel (n + 1) h head (firstOr head S) lists count
        = .ok (lists', count + (runs_upto h.value n S).length, h') ∧
      (∀ i (hi : i < (runs_upto h.value n S).length),
        NullList h' (lists' (count + i)) (runs_upto h.value n S)[i]) ∧
      (∀ i, i < count → lists' i = lists i) ∧
      (∀ x, x ∉ S → h'.next x = h.next x) ∧ h'.prev = h.prev ∧ h'.value = h.value ∧
      h'.q = h.q ∧ h'.size = h.size ∧ h'.released = h.released
  | n, [], h, lists, count, _, _, _, _, _ => by
    refine ⟨lists, h, ?_, ?_, fun _ _ => rfl, fun _ _ => rfl, rfl, rfl, rfl, rfl, rfl⟩
    · simp [q_sort_split, runs_upto_nil]
    · intro i hi
      simp [runs_upto_nil] at hi
  | 0, _ :: _, _, _, _, _, _, hl, _, _ => by simp at hl
  | m + 1, s :: l, h, lists, count, hc, hn, hl, hf, hcap => by
    simp only [List.length_cons] at hl hf
    obtain ⟨r', hr⟩ := first_run_cons h.value l s
    have happ := first_run_append h.value l s
    rw [hr] at happ
    have hruns : runs_upto h.value (m + 1) (s :: l)
        = (s :: r') :: runs_upto h.value m (first_run h.value s l).2 := by
      simp only [runs_upto, hr]
    rw [hruns] at hcap ⊢
    simp only [List.length_cons] at hcap ⊢
    have hlrem0 := first_run_rest_length h.value l s
    clear hruns
    generalize (first_run h.value s l).2 = rem at *
    have hsl : s :: l = s :: r' ++ rem := by simpa using happ.symm
    have hs : s ≠ head := by
      simp only [List.nodup_cons, List.mem_cons, not_or] at hn
      exact fun e => hn.2.1.1 e.symm
    have hrun := @q_sort_run_spec h head l s fuel hc hn (by omega)
    rw [hr, lastOr_cons] at hrun
    have hc' : List.Chain' (Link h) (s :: r' ++ (rem ++ [head])) := by
      have e : s :: r' ++ (rem ++ [head]) = (s :: l) ++ [head] := by
        rw [hsl]; simp
      rw [e]; exact hc
    obtain ⟨hc1, hc2, hc3⟩ := (chain_append_iff s head r' rem).1 hc'
    have hnd2 : (0 :: head :: (s :: r' ++ rem)).Nodup := by rw [← hsl]; exact hn
    have hzmem : lastOr s r' ∈ s :: r' := lastOr_mem s r'
    have hdis : ∀ x, x ∈ s :: r' → x ∉ rem := by
      intro x hx hy
      have := hnd2
      simp only [List.nodup_cons] at this
      exact (List.nodup_append.1 this.2.2).2.2 hx hy
    have hcrem : List.Chain' (Link (h.setNext (lastOr s r') 0)) (rem ++ [head]) := by
      refine chain_frame hc2 ?_ ?_
      · intro a ha
        rw [List.dropLast_concat] at ha
        have : a ≠ lastOr s r' := fun e => hdis _ hzmem (e ▸ ha)
        simp [this]
      · intro b _; simp
    have hnrem : (0 :: head :: rem).Nodup := by
      have := hnd2
      simp only [List.nodup_cons, List.mem_cons, List.mem_append, not_or, List.cons_append,
        List.nodup_append] at this ⊢
      tauto
    have hlrem : rem.length ≤ m := by omega
    obtain ⟨lists', h', e1, e2, e3, e4, e5, e6, e7, e8, e9⟩ := q_sort_split_spec fuel head m rem
      (h.setNext (lastOr s r') 0) (fun i => if i = count then s else lists i) (count + 1)
      hcrem hnrem hlrem (by omega) (by simp only [setNext_value]; omega)
    simp only [setNext_value, setNext_prev] at e1 e2 e5 e6
    simp only [setNext_q, setNext_size, setNext_released] at e7 e8 e9
    have hnullr : NullList h' s (s :: r') := by
      have h1 := nulllist_of_chain r' s (rem ++ [head]) hc' (by
        have := hnd2
        simp only [List.nodup_cons, List.mem_cons, List.mem_append, not_or, List.cons_append,
          List.nodup_append] at this ⊢
        tauto)
      refine h1.transport ?_
      intro x hx
      exact e4 x (hdis x hx)
    refine ⟨lists', h', ?_, ?_, ?_, ?_, e5, e6, e7, e8, e9⟩
    · unfold q_sort_split
      have hcc : count < LISTS_CAPACITY := by omega
      simp only [firstOr_cons, ne_eq, hs, not_false_eq_true, if_true, hrun, hcc, hc3.1]
      rw [e1]
      congr 3
      omega
    · intro i hi
      cases i with
      | zero =>
        simp only [List.getElem_cons_zero, Nat.add_zero]
        rw [e3 count (by omega)]
        simpa using hnullr
      | succ j =>
        simp only [List.length_cons, Nat.add_lt_add_iff_right] at hi
        have := e2 j hi
        simp only [List.getElem_cons_succ]
        rw [show count + (j + 1) = count + 1 + j by omega]
        exact this
    · intro i hi
      rw [e3 i (by omega)]
      have : i ≠ count := by omega
      simp [this]
    · intro x hx
      have hx1 : x ∉ rem := by
        intro hm
        exact hx (by rw [hsl]; simp only [List.cons_append, List.mem_cons, List.mem_append]; tauto)
      have hx2 : x ≠ lastOr s r' := by
        intro e
        exact hx (by
          rw [hsl, e]
          exact List.mem_append_left _ hzmem)
      rw [e4 x hx1]
      simp [hx2]


theorem NullList.congr {h h' : Heap} {l : List Nat} {p : Nat} (hl : NullList h p l)
    (hn : h'.next = h.next) : NullList h' p l :=
  hl.transport (fun a _ => by rw [hn])

theorem q_sort_fix_spec : ∀ (L : List Nat) (p : Nat) (h : Heap) (fuel : Nat),
    NullList h (h.next p) L → (p :: L).Nodup → L.length < fuel →
    ∃ h', q_sort_fix fuel h p = .ok (lastOr p L, h') ∧ List.Chain' (Link h') (p :: L) ∧
      h'.next = h.next ∧ (∀ x, x ∉ L → h'.prev x = h.prev x) ∧ h'.value = h.value ∧
      h'.q = h.q ∧ h'.size = h.size ∧ h'.released = h.released
  | [], p, h, fuel, hl, _, hf => by
    obtain ⟨f, rfl⟩ : ∃ f, fuel = f + 1 := ⟨fuel - 1, by omega⟩
    have hz : h.next p = 0 := hl
    exact ⟨h, by simp [q_sort_fix, hz], List.chain'_singleton _, rfl, fun _ _ => rfl, rfl, rfl,
      rfl, rfl⟩
  | a :: L, p, h, fuel, hl, hn, hf => by
    obtain ⟨f, rfl⟩ : ∃ f, fuel = f + 1 := ⟨fuel - 1, by omega⟩
    simp only [List.length_cons] at hf
    have hpa : h.next p = a := hl.1
    have ha0 : a ≠ 0 := hl.2.1
    have hn' : (a :: L).Nodup := (List.nodup_cons.1 hn).2
    have haL : a ∉ L := (List.nodup_cons.1 hn').1
    obtain ⟨h', e1, e2, e3, e4, e5, e6, e7, e8⟩ := q_sort_fix_spec L a (h.setPrev a p) f
      (hl.2.2.congr (by simp)) hn' (by omega)
    refine ⟨h', ?_, ?_, by rw [e3]; rfl, ?_, by rw [e5]; rfl, by rw [e6]; rfl, by rw [e7]; rfl,
      by rw [e8]; rfl⟩
    · unfold q_sort_fix
      simp only [hpa, ne_eq, ha0, not_false_eq_true, if_true, lastOr_cons]
      exact e1
    · refine List.Chain'.cons ⟨?_, ?_⟩ e2
      · rw [e3]; exact hpa
      · rw [e4 a haL]; simp
    · intro x hx
      have hxa : x ≠ a := fun e => hx (by simp [e])
      rw [e4 x (fun hm => hx (List.mem_cons_of_mem _ hm))]
      simp [hxa]

theorem runs_upto_stable (v : Nat → List Nat) : ∀ (n n' : Nat) (l : List Nat),
    l.length ≤ n → l.length ≤ n' → runs_upto v n l = runs_upto v n' l
  | _, _, [], _, _ => by rw [runs_upto_nil, runs_upto_nil]
  | 0, _, _ :: _, h1, _ => by simp at h1
  | _, 0, _ :: _, _, h2 => by simp at h2
  | n + 1, n' + 1, s :: l, h1, h2 => by
    simp only [List.length_cons] at h1 h2
    have := first_run_rest_length v l s
    simp only [runs_upto]
    rw [runs_upto_stable v n n' _ (by omega) (by omega)]

theorem length_le_flatten_length : ∀ (L : List (List Nat)), (∀ r ∈ L, r ≠ []) →
    L.length ≤ L.flatten.length
  | [], _ => by simp
  | r :: L, hne => by
    have ih := length_le_flatten_length L (fun x hx => hne x (List.mem_cons_of_mem _ hx))
    have : 0 < r.length := List.length_pos.2 (hne r (by simp))
    simp only [List.length_cons, List.flatten_cons, List.length_append]
    omega

theorem Ring.singular {h : Heap} {head a : Nat} (hr : Ring h head [a]) :
    list_is_singular h head = true := by
  have h1 := hr.next_head
  have h2 := hr.prev_head
  have h3 : a ≠ head := hr.ne_head (by simp)
  simp only [firstOr_cons, lastOr_cons, lastOr_nil] at h1 h2
  simp [list_is_singular, list_empty, h1, h2, h3]

theorem ring_of_fixed {h : Heap} {head : Nat} {M : List Nat} (hc : List.Chain' (Link h) (head :: M))
    (hn : (0 :: head :: M).Nodup) :
    Ring ((h.setNext (lastOr head M) head).setPrev head (lastOr head M)) head M := by
  refine Ring.of_chain hn ?_
  have e : head :: (M ++ [head]) = head :: M ++ ([] ++ [head]) := by simp
  rw [e, chain_append_iff]
  have hnd : (head :: M).Nodup := (List.nodup_cons.1 hn).2
  refine ⟨chain_frame hc ?_ ?_, List.chain'_singleton _, ?_, ?_⟩
  · intro a ha
    have : a ≠ lastOr head M := fun e => lastOr_not_mem_dropLast head M hnd (e ▸ ha)
    simp [this]
  · intro b hb
    have hb' : b ∈ M := by simpa using hb
    have : b ≠ head := fun e => (List.nodup_cons.1 hnd).1 (e ▸ hb')
    simp [this]
  · simp
  · simp

/-- On a queue whose maximal ascending runs fit the array `lists`, `q_sort` returns with
the queue well formed and holding the same nodes with the same values, weakly ascending
when `descend` is `false`. -/
theorem q_sort_within_capacity (h : Heap) (head : Nat) (ns : List Nat) (fuel : Nat)
    (descend : Bool) (hr : Ring h head ns)
    (hcap : (runs_of h.value ns).length ≤ LISTS_CAPACITY) (hf : ns.length < fuel) :
    ∃ h' ns', q_sort fuel h head descend = .ok h' ∧ Ring h' head ns' ∧ ns'.Perm ns ∧
      (descend = false → Ascending h'.value ns') ∧ h'.value = h.value := by
  by_cases hlen : ns.length < 2
  · refine ⟨h, ns, ?_, hr, List.Perm.refl _, ?_, rfl⟩
    · match ns, hr, hlen with
      | [], hr, _ =>
        have := hr.empty_iff.2 rfl
        simp [q_sort, this]
      | [a], hr, _ =>
        have := hr.singular
        simp [q_sort, this]
      | _ :: _ :: _, _, hlen => exact absurd hlen (by simp)
    · intro _
      match ns, hlen with
      | [], _ => simp [Ascending]
      | [a], _ => simp [Ascending]
      | _ :: _ :: _, hlen => exact absurd hlen (by simp)
  · have hlen2 : 2 ≤ ns.length := by omega
    have hne : ns ≠ [] := by intro e; rw [e] at hlen2; simp at hlen2
    have hemp : list_empty h head = false := by
      have := hr.empty_iff.not.2 hne
      simpa using this
    have hsing := hr.not_singular hlen2
    obtain ⟨f, rfl⟩ : ∃ f, fuel = f + 1 := ⟨fuel - 1, by omega⟩
    have hchain : List.Chain' (Link h) (ns ++ [head]) := by
      have := hr.chain.tail
      simpa using this
    have hruns : runs_upto h.value f ns = runs_of h.value ns :=
      runs_upto_stable h.value f ns.length ns (by omega) (le_refl _)
    obtain ⟨lists, h1, a1, a2, -, a4, a5, a6, a7, a8, a9⟩ := q_sort_split_spec (f + 1) head f ns
      h (fun _ => 0) 0 hchain hr.1 (by omega) (by omega) (by rw [hruns]; omega)
    rw [hruns] at a1 a2
    simp only [Nat.zero_add] at a1 a2
    have hflat : (runs_of h.value ns).flatten = ns :=
      runs_upto_flatten h.value ns.length ns (le_refl _)
    have hrne : ∀ r ∈ runs_of h.value ns, r ≠ [] := runs_upto_ne_nil h.value ns.length ns
    have hrasc : ∀ r ∈ runs_of h.value ns, Ascending h.value r :=
      runs_upto_ascending h.value ns.length ns
    have hrlen : (runs_of h.value ns).length ≤ ns.length := by
      have := length_le_flatten_length _ hrne
      rwa [hflat] at this
    have hrpos : runs_of h.value ns ≠ [] := by
      intro e
      rw [e] at hflat
      exact hne hflat.symm
    have hrpos' : 0 < (runs_of h.value ns).length := List.length_pos.2 hrpos
    have hnsnd : ns.Nodup := by
      have := hr.1
      simp only [List.nodup_cons] at this
      exact this.2.2
    obtain ⟨m, h2, M, b1, b2, b3, b4, b5, b6, b7, b8, b9, b10, b11⟩ := merge_lists_spec descend
      lists (f + 1) (f + 1) (runs_of h.value ns) 0 h1 hrpos (by omega)
      (by unfold LISTS_CAPACITY at hcap; omega)
      (by intro i hi; simpa using a2 i hi) hrne (by rw [hflat]; exact hnsnd)
      (by rw [hflat]; omega)
    rw [hflat] at b4 b6
    have hhigh : int32 (((runs_of h.value ns).length : Int) - 1)
        = ((0 + (runs_of h.value ns).length - 1 : Nat) : Int) := by
      unfold LISTS_CAPACITY at hcap
      rw [int32_of_range (by omega) (by omega)]
      omega
    have hheadM : head ∉ M := by
      intro hm
      have := hr.ne_head (b4.mem_iff.1 hm)
      exact this rfl
    have hndM : (0 :: head :: M).Nodup := by
      have hp : (0 :: head :: M).Perm (0 :: head :: ns) := (b4.cons head).cons 0
      exact hp.nodup_iff.2 hr.1
    have hnull : NullList (h2.setNext head m) ((h2.setNext head m).next head) M := by
      simp only [setNext_next, if_true]
      refine b2.transport ?_
      intro a ha
      have : a ≠ head := fun e => hheadM (e ▸ ha)
      simp [this]
    obtain ⟨h3, c1, c2, c3, c4, c5, c6, c7, c8⟩ := q_sort_fix_spec M head (h2.setNext head m)
      (f + 1) hnull (List.nodup_cons.1 hndM).2 (by rw [b4.length_eq]; omega)
    have hval : h3.value = h.value := by rw [c5]; simp only [setNext_value]; rw [b8, a6]
    refine ⟨(h3.setNext (lastOr head M) head).setPrev head (lastOr head M), M, ?_,
      ring_of_fixed c2 hndM, b4, ?_, by simpa using hval⟩
    · have hnext : h.next head = firstOr head ns := hr.next_head
      simp only [q_sort, hr.head_ne_zero, hemp, hsing, false_or, Bool.false_eq_true, if_false,
        hnext, a1, hhigh]
      have b1' : merge_lists (f + 1) (f + 1) h1 lists 0
          ((0 + (runs_of h.value ns).length - 1 : Nat) : Int) descend = .ok (m, h2) := by
        simpa using b1
      simp only [b1', c1]
    · intro hd
      simp only [setPrev_value, setNext_value, hval]
      have := b5 hd (fun s hs => by rw [a6]; exact hrasc s hs)
      rwa [a6] at this

/-- A run of `q_sort` within the capacity: "3","1","2","5","4" becomes
"1","2","3","4","5". -/
theorem q_sort_ascending_example :
    values_after 6 (q_sort 6 (build [[51], [49], [50], [53], [52]]) 1 false) 1
      = some [[49], [50], [51], [52], [53]] := by
  decide

/-- The example of the spec for `q_delete_dup`: "a","a","b","c","c","c" becomes "b". -/
theorem q_delete_dup_spec_example :
    values_after 7
      (memory_after (q_delete_dup 7 (build [[97], [97], [98], [99], [99], [99]]) 1)) 1
      = some [[98]] := by
  decide

/-! ## Null and empty queues -/

/-- C16: on a null queue or an empty queue `q_remove_head` and `q_remove_tail` return
`NULL`, `q_delete_mid` returns `false`, `q_ascend` and `q_descend` return 0, and each of
them leaves the buffer and the whole memory exactly as they were. -/
theorem null_or_empty_is_noop (h : Heap) (head : Nat) (sp : Option (Nat → Nat))
    (bufsize fuel : Nat) (hq : head = 0 ∨ Ring h head []) :
    q_remove_head h head sp bufsize = (0, sp, h) ∧
    q_remove_tail h head sp bufsize = (0, sp, h) ∧
    q_delete_mid fuel h head = .ok (false, h) ∧
    q_ascend fuel h head = .ok (0, h) ∧
    q_descend fuel h head = .ok (0, h) := by
  have hg : head = 0 ∨ list_empty h head = true := by
    rcases hq with h0 | hr
    · exact Or.inl h0
    · exact Or.inr (hr.empty_iff.2 rfl)
  simp [q_remove_head, q_remove_tail, q_delete_mid, q_ascend, q_descend, hg]

/-- C16 at the null queue and at a freshly created empty queue. -/
theorem null_or_empty_is_noop_witness :
    (q_remove_head Heap.blank 0 none 0 = (0, none, Heap.blank) ∧
     q_remove_tail Heap.blank 0 none 0 = (0, none, Heap.blank) ∧
     q_delete_mid 0 Heap.blank 0 = .ok (false, Heap.blank) ∧
     q_ascend 0 Heap.blank 0 = .ok (0, Heap.blank) ∧
     q_descend 0 Heap.blank 0 = .ok (0, Heap.blank)) ∧
    (q_remove_head (q_new Heap.blank 1).2 1 none 0 = (0, none, (q_new Heap.blank 1).2) ∧
     q_remove_tail (q_new Heap.blank 1).2 1 none 0 = (0, none, (q_new Heap.blank 1).2) ∧
     q_delete_mid 0 (q_new Heap.blank 1).2 1 = .ok (false, (q_new Heap.blank 1).2) ∧
     q_ascend 0 (q_new Heap.blank 1).2 1 = .ok (0, (q_new Heap.blank 1).2) ∧
     q_descend 0 (q_new Heap.blank 1).2 1 = .ok (0, (q_new Heap.blank 1).2)) :=
  ⟨null_or_empty_is_noop Heap.blank 0 none 0 0 (Or.inl rfl),
   null_or_empty_is_noop (q_new Heap.blank 1).2 1 none 0 0 (Or.inr (by decide))⟩

/-! ## The reversal of a queue -/

@[simp] theorem node_swap_val_next (h : Heap) (a b : Nat) :
    (node_swap_val h a b).next = h.next := by
  unfold node_swap_val; split <;> rfl
@[simp] theorem node_swap_val_prev (h : Heap) (a b : Nat) :
    (node_swap_val h a b).prev = h.prev := by
  unfold node_swap_val; split <;> rfl
@[simp] theorem node_swap_val_q (h : Heap) (a b : Nat) : (node_swap_val h a b).q = h.q := by
  unfold node_swap_val; split <;> rfl
@[simp] theorem node_swap_val_size (h : Heap) (a b : Nat) :
    (node_swap_val h a b).size = h.size := by
  unfold node_swap_val; split <;> rfl
@[simp] theorem node_swap_val_released (h : Heap) (a b : Nat) :
    (node_swap_val h a b).released = h.released := by
  unfold node_swap_val; split <;> rfl

theorem node_swap_val_value (h : Heap) {a b : Nat} (ha : a ≠ 0) (hb : b ≠ 0) (hab : a ≠ b)
    (x : Nat) : (node_swap_val h a b).value x
      = if x = b then h.value a else if x = a then h.value b else h.value x := by
  simp [node_swap_val, ha, hb, hab]

theorem Ring.swap_val {h : Heap} {head : Nat} {ns : List Nat} (hr : Ring h head ns) (a b : Nat) :
    Ring (node_swap_val h a b) head ns :=
  hr.frame (by simp) (by simp)

theorem swap_inward_spec (head : Nat) : ∀ (k : Nat) (M A B : List Nat) (h : Heap) (fuel : Nat),
    M.length ≤ k → Ring h head (A ++ M ++ B) → M.length / 2 < fuel →
    ∃ h', swap_inward fuel h (firstOr (firstOr head B) M) (lastOr (lastOr head A) M) = .ok h' ∧
      M.map h'.value = (M.map h.value).reverse ∧ (∀ a, a ∉ M → h'.value a = h.value a) ∧
      h'.next = h.next ∧ h'.prev = h.prev ∧ h'.q = h.q ∧ h'.size = h.size ∧
      h'.released = h.released
  | _, [], A, B, h, fuel, _, hr, hf => by
    obtain ⟨f, rfl⟩ : ∃ f, fuel = f + 1 := ⟨fuel - 1, by omega⟩
    have hl := Ring.link (A := A) (B := B) (by simpa using hr)
    refine ⟨h, ?_, by simp, fun _ _ => rfl, rfl, rfl, rfl, rfl, rfl⟩
    simp [swap_inward, hl.1]
  | _, [x], A, B, h, fuel, _, hr, hf => by
    obtain ⟨f, rfl⟩ : ∃ f, fuel = f + 1 := ⟨fuel - 1, by omega⟩
    refine ⟨h, ?_, by simp, fun _ _ => rfl, rfl, rfl, rfl, rfl, rfl⟩
    simp [swap_inward]
  | 0, _ :: _ :: _, _, _, _, _, hk, _, _ => by simp at hk
  | k + 1, x :: y :: t, A, B, h, fuel, hk, hr, hf => by
    obtain ⟨M, z, hMz⟩ : ∃ M z, y :: t = M ++ [z] := by
      rcases List.eq_nil_or_concat (y :: t) with e | ⟨M, z, e⟩
      · simp at e
      · exact ⟨M, z, by simpa using e⟩
    rw [hMz] at hk hr hf ⊢
    simp only [List.length_cons, List.length_append, List.length_singleton] at hk hf
    obtain ⟨f, rfl⟩ : ∃ f, fuel = f + 1 := ⟨fuel - 1, by omega⟩
    have hr1 : Ring h head (A ++ x :: (M ++ z :: B)) := by simpa using hr
    have hr2 : Ring h head ((A ++ x :: M) ++ z :: B) := by simpa using hr
    have hr3 : Ring h head ((A ++ [x]) ++ M ++ (z :: B)) := by simpa using hr
    have hx0 : x ≠ 0 := hr1.ne_zero (by simp)
    have hz0 : z ≠ 0 := hr2.ne_zero (by simp)
    have hxz : x ≠ z := by
      have := hr1.mid.1
      intro e
      exact this (by simp [← e])
    have hxM : x ∉ M := by
      have := hr1.mid.1
      intro hm
      exact this (by simp [hm])
    have hzM : z ∉ M := by
      have := hr2.mid.1
      intro hm
      exact this (by simp [hm])
    have hnz : h.next z = firstOr head B := hr2.next_mem
    have hxf : x ≠ firstOr head B := by
      intro e
      have hm := firstOr_mem head B
      rw [← e] at hm
      have := hr1.mid.1
      rcases List.mem_append.1 hm with hm | hm
      · exact this (by simp [hm])
      · exact this (by simp at hm; simp [hm])
    have hnx : h.next x = firstOr z M := by
      have := hr1.next_mem
      rw [this]
      cases M <;> rfl
    have hpz : h.prev z = lastOr x M := by
      have := hr2.prev_mem
      rw [this]
      simp
    obtain ⟨h', e1, e2, e3, e4, e5, e6, e7, e8⟩ := swap_inward_spec head k M (A ++ [x]) (z :: B)
      (node_swap_val h x z) f (by omega) (hr3.swap_val x z) (by omega)
    simp only [firstOr_cons, lastOr_append_cons, lastOr_nil, node_swap_val_next,
      node_swap_val_prev] at e1 e4 e5
    simp only [node_swap_val_q, node_swap_val_size, node_swap_val_released] at e6 e7 e8
    have hvM : M.map (node_swap_val h x z).value = M.map h.value := by
      apply List.map_congr_left
      intro a ha
      rw [node_swap_val_value h hx0 hz0 hxz]
      have h1 : a ≠ z := fun e => hzM (e ▸ ha)
      have h2 : a ≠ x := fun e => hxM (e ▸ ha)
      simp [h1, h2]
    refine ⟨h', ?_, ?_, ?_, e4, e5, e6, e7, e8⟩
    · unfold swap_inward
      simp only [firstOr_cons, lastOr_cons, lastOr_append_cons, lastOr_nil, ne_eq, hxz,
        not_false_eq_true, hnz, hxf, and_self, if_true, node_swap_val_next, node_swap_val_prev,
        hnx, hpz]
      exact e1
    · simp only [List.map_cons, List.map_append, List.map_nil, List.reverse_cons,
        List.reverse_append, List.reverse_nil, List.nil_append, List.cons_append,
        List.singleton_append]
      rw [e2, hvM, e3 x hxM, e3 z hzM, node_swap_val_value h hx0 hz0 hxz,
        node_swap_val_value h hx0 hz0 hxz]
      simp [hxz]
    · intro a ha
      have h1 : a ≠ x := fun e => ha (by simp [e])
      have h2 : a ≠ z := fun e => ha (by simp [e])
      have h3 : a ∉ M := fun hm => ha (by simp [hm])
      rw [e3 a h3, node_swap_val_value h hx0 hz0 hxz]
      simp [h1, h2]

theorem q_reverse_spec {h : Heap} {head : Nat} {ns : List Nat} (hr : Ring h head ns)
    {fuel : Nat} (hf : ns.length / 2 < fuel) :
    ∃ h', q_reverse fuel h head = .ok h' ∧ Ring h' head ns ∧
      ns.map h'.value = (ns.map h.value).reverse ∧ (∀ a, a ∉ ns → h'.value a = h.value a) ∧
      h'.released = h.released := by
  have h0 := hr.head_ne_zero
  match ns, hr, hf with
  | [], hr, _ =>
    exact ⟨h, by simp [q_reverse, hr.empty_iff.2 rfl], hr, by simp, fun _ _ => rfl, rfl⟩
  | [a], hr, _ =>
    exact ⟨h, by simp [q_reverse, hr.singular], hr, by simp, fun _ _ => rfl, rfl⟩
  | a :: b :: t, hr, hf =>
    have he : list_empty h head = false := by
      rw [Bool.eq_false_iff]
      exact fun e => by simpa using hr.empty_iff.1 e
    have hs := hr.not_singular (by simp)
    obtain ⟨h', e1, e2, e3, e4, e5, -, -, e8⟩ := swap_inward_spec head (a :: b :: t).length
      (a :: b :: t) [] [] h fuel le_rfl (by simpa using hr) hf
    simp only [firstOr_nil, lastOr_nil] at e1
    refine ⟨h', ?_, hr.frame (fun _ _ => by rw [e4]) (fun _ _ => by rw [e5]), e2, e3, e8⟩
    simp only [q_reverse, h0, he, hs, false_or, if_false, Bool.false_eq_true]
    rw [hr.next_head, hr.prev_head]
    exact e1

/-- C14: on a queue of `n` elements `q_reverse` returns with every node in place and the
value sequence exactly reversed: position `i` holds what position `n - 1 - i` held; a
second call restores the original sequence. -/
theorem q_reverse_reverses_values (h : Heap) (head : Nat) (ns : List Nat) (fuel : Nat)
    (hr : Ring h head ns) (hfuel : ns.length / 2 < fuel) :
    ∃ h', q_reverse fuel h head = .ok h' ∧ Ring h' head ns ∧
      ns.map h'.value = (ns.map h.value).reverse ∧
      (∀ i, i < ns.length → (ns.map h'.value)[i]? = (ns.map h.value)[ns.length - 1 - i]?) ∧
      ∃ h'', q_reverse fuel h' head = .ok h'' ∧ Ring h'' head ns ∧
        ns.map h''.value = ns.map h.value := by
  obtain ⟨h', e1, e2, e3, -, -⟩ := q_reverse_spec hr hfuel
  obtain ⟨h'', f1, f2, f3, -, -⟩ := q_reverse_spec e2 hfuel
  refine ⟨h', e1, e2, e3, ?_, h'', f1, f2, ?_⟩
  · intro i hi
    rw [e3, List.getElem?_reverse (by simpa using hi)]
    simp
  · rw [f3, e3, List.reverse_reverse]

/-- The queue "1","2","3" becomes "3","2","1" and a second call restores it (C14 at a
concrete queue). -/
theorem q_reverse_reverses_values_witness :
    ∃ h', q_reverse 2 (build [[49], [50], [51]]) 1 = .ok h' ∧ Ring h' 1 [2, 3, 4] ∧
      [2, 3, 4].map h'.value = ([2, 3, 4].map (build [[49], [50], [51]]).value).reverse ∧
      (∀ i, i < [2, 3, 4].length → ([2, 3, 4].map h'.value)[i]?
        = ([2, 3, 4].map (build [[49], [50], [51]]).value)[[2, 3, 4].length - 1 - i]?) ∧
      ∃ h'', q_reverse 2 h' 1 = .ok h'' ∧ Ring h'' 1 [2, 3, 4] ∧
        [2, 3, 4].map h''.value = [2, 3, 4].map (build [[49], [50], [51]]).value :=
  q_reverse_reverses_values (build [[49], [50], [51]]) 1 [2, 3, 4] 2 (by decide) (by decide)

/-! ## The pairwise swap of a queue -/

theorem q_swap_loop_spec (head : Nat) : ∀ (k : Nat) (B A : List Nat) (h : Heap) (fuel : Nat),
    B.length ≤ k → Ring h head (A ++ B) → B.length / 2 < fuel →
    ∃ h', q_swap_loop fuel h head (lastOr head A) = .ok h' ∧
      B.map h'.value = swap_pairs (B.map h.value) ∧ (∀ a, a ∉ B → h'.value a = h.value a) ∧
      h'.next = h.next ∧ h'.prev = h.prev ∧ h'.released = h.released
  | _, [], A, h, fuel, _, hr, hf => by
    obtain ⟨f, rfl⟩ : ∃ f, fuel = f + 1 := ⟨fuel - 1, by omega⟩
    have hl := Ring.link (A := A) (B := []) (by simpa using hr)
    refine ⟨h, ?_, by simp [swap_pairs], fun _ _ => rfl, rfl, rfl, rfl⟩
    simp only [firstOr_nil] at hl
    simp [q_swap_loop, hl.1]
  | _, [x], A, h, fuel, _, hr, hf => by
    obtain ⟨f, rfl⟩ : ∃ f, fuel = f + 1 := ⟨fuel - 1, by omega⟩
    have hl := Ring.link (A := A) (B := [x]) hr
    have hx : h.next x = head := by
      have := hr.next_mem
      simpa using this
    refine ⟨h, ?_, by simp [swap_pairs], fun _ _ => rfl, rfl, rfl, rfl⟩
    simp only [firstOr_cons] at hl
    simp [q_swap_loop, hl.1, hx]
  | 0, _ :: _ :: _, _, _, _, hk, _, _ => by simp at hk
  | k + 1, x :: y :: t, A, h, fuel, hk, hr, hf => by
    simp only [List.length_cons] at hk hf
    obtain ⟨f, rfl⟩ : ∃ f, fuel = f + 1 := ⟨fuel - 1, by omega⟩
    have hl := Ring.link (A := A) (B := x :: y :: t) hr
    simp only [firstOr_cons] at hl
    have hr1 : Ring h head ((A ++ [x]) ++ y :: t) := by simpa using hr
    have hr2 : Ring h head ((A ++ [x, y]) ++ t) := by simpa using hr
    have hx0 : x ≠ 0 := hr.ne_zero (by simp)
    have hy0 : y ≠ 0 := hr.ne_zero (by simp)
    have hxh : x ≠ head := hr.ne_head (by simp)
    have hyh : y ≠ head := hr.ne_head (by simp)
    have hnx : h.next x = y := by
      have := hr.next_mem
      simpa using this
    have hm := hr.mid
    have hm1 := hr1.mid
    have hxy : x ≠ y := fun e => hm.1 (by simp [e])
    have hxt : x ∉ t := fun hmem => hm.1 (by simp [hmem])
    have hyt : y ∉ t := fun hmem => hm1.1 (by simp [hmem])
    obtain ⟨h', e1, e2, e3, e4, e5, e6⟩ := q_swap_loop_spec head k t (A ++ [x, y])
      (node_swap_val h x y) f (by omega) (hr2.swap_val x y) (by omega)
    simp only [lastOr_append_cons, lastOr_cons, lastOr_nil, node_swap_val_next,
      node_swap_val_prev, node_swap_val_released] at e1 e4 e5 e6
    have hvt : t.map (node_swap_val h x y).value = t.map h.value := by
      apply List.map_congr_left
      intro a ha
      rw [node_swap_val_value h hx0 hy0 hxy]
      have h1 : a ≠ y := fun e => hyt (e ▸ ha)
      have h2 : a ≠ x := fun e => hxt (e ▸ ha)
      simp [h1, h2]
    refine ⟨h', ?_, ?_, ?_, e4, e5, e6⟩
    · unfold q_swap_loop
      simp only [hl.1, hnx, ne_eq, hxh, hyh, not_false_eq_true, and_self, if_true]
      exact e1
    · simp only [List.map_cons, swap_pairs]
      rw [e2, hvt, e3 x hxt, e3 y hyt, node_swap_val_value h hx0 hy0 hxy,
        node_swap_val_value h hx0 hy0 hxy]
      simp [hxy]
    · intro a ha
      have h1 : a ≠ x := fun e => ha (by simp [e])
      have h2 : a ≠ y := fun e => ha (by simp [e])
      have h3 : a ∉ t := fun hmem => ha (by simp [hmem])
      rw [e3 a h3, node_swap_val_value h hx0 hy0 hxy]
      simp [h1, h2]

theorem q_swap_spec {h : Heap} {head : Nat} {ns : List Nat} (hr : Ring h head ns)
    {fuel : Nat} (hf : ns.length / 2 < fuel) :
    ∃ h', q_swap fuel h head = .ok h' ∧ Ring h' head ns ∧
      ns.map h'.value = swap_pairs (ns.map h.value) ∧ h'.next = h.next ∧ h'.prev = h.prev ∧
      h'.released = h.released := by
  have h0 := hr.head_ne_zero
  match ns, hr, hf with
  | [], hr, _ =>
    exact ⟨h, by simp [q_swap, hr.empty_iff.2 rfl], hr, by simp [swap_pairs], rfl, rfl, rfl⟩
  | [a], hr, _ =>
    exact ⟨h, by simp [q_swap, hr.singular], hr, by simp [swap_pairs], rfl, rfl, rfl⟩
  | a :: b :: t, hr, hf =>
    have he : list_empty h head = false := by
      rw [Bool.eq_false_iff]
      exact fun e => by simpa using hr.empty_iff.1 e
    have hs := hr.not_singular (by simp)
    obtain ⟨h', e1, e2, -, e4, e5, e6⟩ := q_swap_loop_spec head (a :: b :: t).length
      (a :: b :: t) [] h fuel le_rfl (by simpa using hr) hf
    simp only [lastOr_nil] at e1
    refine ⟨h', ?_, hr.frame (fun _ _ => by rw [e4]) (fun _ _ => by rw [e5]), e2, e4, e5, e6⟩
    simp only [q_swap, h0, he, hs, false_or, if_false, Bool.false_eq_true]
    exact e1

theorem swap_pairs_length {α : Type} : ∀ l : List α, (swap_pairs l).length = l.length
  | [] => rfl
  | [_] => rfl
  | a :: b :: t => by simp [swap_pairs, swap_pairs_length t]

theorem swap_pairs_even {α : Type} : ∀ (l : List α) (i : Nat), 2 * i + 1 < l.length →
    (swap_pairs l)[2 * i]? = l[2 * i + 1]? ∧ (swap_pairs l)[2 * i + 1]? = l[2 * i]?
  | [], _, hi => by simp at hi
  | [_], _, hi => by simp at hi
  | a :: b :: t, 0, _ => by simp [swap_pairs]
  | a :: b :: t, i + 1, hi => by
    have ih := swap_pairs_even t i (by simp at hi; omega)
    rw [show 2 * (i + 1) = 2 * i + 1 + 1 by ring]
    simpa [swap_pairs] using ih

theorem swap_pairs_last {α : Type} : ∀ (l : List α), l.length % 2 = 1 →
    (swap_pairs l)[l.length - 1]? = l[l.length - 1]?
  | [], hi => by simp at hi
  | [_], _ => by simp [swap_pairs]
  | a :: b :: t, hi => by
    have hi' : t.length % 2 = 1 := by simp at hi; omega
    have ih := swap_pairs_last t hi'
    have : (a :: b :: t).length - 1 = (t.length - 1) + 1 + 1 := by simp; omega
    rw [this]
    simpa [swap_pairs] using ih

/-- C15: on a queue of `n` elements `q_swap` returns with every node in place (no link
changes) and the values at positions `2i` and `2i + 1` exchanged for every `i` with
`2i + 1 < n`; when `n` is odd the last element keeps its value. -/
theorem q_swap_exchanges_pairs (h : Heap) (head : Nat) (ns : List Nat) (fuel : Nat)
    (hr : Ring h head ns) (hfuel : ns.length / 2 < fuel) :
    ∃ h', q_swap fuel h head = .ok h' ∧ Ring h' head ns ∧
      h'.next = h.next ∧ h'.prev = h.prev ∧
      ns.map h'.value = swap_pairs (ns.map h.value) ∧
      (∀ i, 2 * i + 1 < ns.length →
        (ns.map h'.value)[2 * i]? = (ns.map h.value)[2 * i + 1]? ∧
        (ns.map h'.value)[2 * i + 1]? = (ns.map h.value)[2 * i]?) ∧
      (ns.length % 2 = 1 →
        (ns.map h'.value)[ns.length - 1]? = (ns.map h.value)[ns.length - 1]?) := by
  obtain ⟨h', e1, e2, e3, e4, e5, -⟩ := q_swap_spec hr hfuel
  refine ⟨h', e1, e2, e4, e5, e3, ?_, ?_⟩
  · intro i hi
    rw [e3]
    exact swap_pairs_even _ i (by simpa using hi)
  · intro hodd
    rw [e3]
    have := swap_pairs_last (ns.map h.value) (by simpa using hodd)
    simpa using this

/-- The queue "1","2","3" becomes "2","1","3" (C15 at a concrete queue). -/
theorem q_swap_exchanges_pairs_witness :
    ∃ h', q_swap 2 (build [[49], [50], [51]]) 1 = .ok h' ∧ Ring h' 1 [2, 3, 4] ∧
      h'.next = (build [[49], [50], [51]]).next ∧ h'.prev = (build [[49], [50], [51]]).prev ∧
      [2, 3, 4].map h'.value = swap_pairs ([2, 3, 4].map (build [[49], [50], [51]]).value) ∧
      (∀ i, 2 * i + 1 < [2, 3, 4].length →
        ([2, 3, 4].map h'.value)[2 * i]?
          = ([2, 3, 4].map (build [[49], [50], [51]]).value)[2 * i + 1]? ∧
        ([2, 3, 4].map h'.value)[2 * i + 1]?
          = ([2, 3, 4].map (build [[49], [50], [51]]).value)[2 * i]?) ∧
      ([2, 3, 4].length % 2 = 1 →
        ([2, 3, 4].map h'.value)[[2, 3, 4].length - 1]?
          = ([2, 3, 4].map (build [[49], [50], [51]]).value)[[2, 3, 4].length - 1]?) :=
  q_swap_exchanges_pairs (build [[49], [50], [51]]) 1 [2, 3, 4] 2 (by decide) (by decide)

/-! ## The size of a queue after insertions and removals -/

theorem ring_add {h : Heap} {head m : Nat} {ns : List Nat} (hr : Ring h head ns)
    (hm : m ∉ 0 :: head :: ns) : Ring (list_add h m head) head (m :: ns) := by
  have hr1 := ring_add_tail (A := []) (B := ns) (by simpa using hr) (by simpa using hm)
  have hl := Ring.link (A := []) (B := ns) (by simpa using hr)
  simp only [lastOr_nil, Link] at hl
  have hmh : m ≠ head := fun e => hm (by simp [e])
  have hnh := hr.next_head
  refine Ring.frame (by simpa using hr1) ?_ ?_
  · intro a _
    simp only [list_add, list_add_tail, hnh, hl.2, setNext_next, setPrev_next]
    by_cases e1 : a = head
    · simp [e1, hmh.symm]
    · simp [e1]
  · intro a _
    simp only [list_add, list_add_tail, hnh, hl.2, setNext_prev, setPrev_prev]
    have hmf : m ≠ firstOr head ns := by
      intro e
      have hmem := firstOr_mem head ns
      rw [← e] at hmem
      rcases List.mem_append.1 hmem with hmem | hmem
      · exact hm (by simp [hmem])
      · exact hmh (by simpa using hmem)
    by_cases e1 : a = m
    · simp [e1, hmf]
    · simp [e1]

theorem fresh_of_nodup {head m : Nat} {ns ms : List Nat}
    (hnd : (0 :: head :: (ns ++ m :: ms)).Nodup) :
    m ∉ 0 :: head :: ns ∧ (0 :: head :: ((m :: ns) ++ ms)).Nodup ∧
      (0 :: head :: ((ns ++ [m]) ++ ms)).Nodup := by
  have p := List.nodup_middle.1 (show ((0 :: head :: ns) ++ m :: ms).Nodup from hnd)
  have q := List.nodup_cons.1 p
  refine ⟨fun hmem => q.1 (List.mem_append_left _ hmem), ?_, by simpa using hnd⟩
  have : (0 :: head :: ((m :: ns) ++ ms)).Perm (m :: ((0 :: head :: ns) ++ ms)) := by
    simp only [List.cons_append]
    exact ((List.Perm.swap m head _).cons 0).trans (List.Perm.swap m 0 _)
  exact this.nodup_iff.2 p

theorem insert_head_ring {h : Heap} {head m : Nat} {ns : List Nat} (hr : Ring h head ns)
    (hm : m ∉ 0 :: head :: ns) (s : List Nat) :
    q_insert_head h head s m true = (true, list_add (h.setValue m s) m head) ∧
      Ring (list_add (h.setValue m s) m head) head (m :: ns) := by
  have hm0 : m ≠ 0 := fun e => hm (by simp [e])
  refine ⟨by simp [q_insert_head, q_create_element, hr.head_ne_zero, hm0], ?_⟩
  have hr0 : Ring (h.setValue m s) head ns := hr.frame (by simp) (by simp)
  exact ring_add hr0 hm

theorem q_size_loop_spec {h : Heap} {head : Nat} : ∀ (B A : List Nat) (fuel : Nat),
    Ring h head (A ++ B) → (A ++ B).length < 2147483648 → B.length < fuel →
    q_size_loop fuel h head (firstOr head B) A.length = .ok ((A ++ B).length : Int)
  | [], A, fuel, _, _, hf => by
    obtain ⟨f, rfl⟩ : ∃ f, fuel = f + 1 := ⟨fuel - 1, by omega⟩
    simp [q_size_loop]
  | x :: B, A, fuel, hr, hs, hf => by
    obtain ⟨f, rfl⟩ : ∃ f, fuel = f + 1 := ⟨fuel - 1, by omega⟩
    have hxh : x ≠ head := hr.ne_head (by simp)
    have hnx := hr.next_mem
    have hr1 : Ring h head ((A ++ [x]) ++ B) := by simpa using hr
    have ih := q_size_loop_spec B (A ++ [x]) f hr1 (by simpa using hs)
      (by simp at hf; omega)
    simp only [List.length_append, List.length_cons, List.length_nil] at ih hs
    have e : int32 ((A.length : Int) + 1) = ((A.length + (0 + 1) : Nat) : Int) := by
      rw [int32_of_range (by omega) (by omega)]
      push_cast
      ring
    simp only [q_size_loop, firstOr_cons, ne_eq, hxh, not_false_eq_true, if_true, hnx, e]
    rw [ih]
    simp only [List.length_append, List.length_cons, List.length_nil]
    push_cast
    ring_nf

theorem q_size_spec {h : Heap} {head : Nat} {ns : List Nat} (hr : Ring h head ns)
    (hs : ns.length < 2147483648) {fuel : Nat} (hf : ns.length < fuel) :
    q_size fuel h head = .ok (ns.length : Int) := by
  cases ns with
  | nil => simp [q_size, hr.empty_iff.2 rfl]
  | cons a t =>
    have he : list_empty h head = false := by
      rw [Bool.eq_false_iff]
      exact fun e => by simpa using hr.empty_iff.1 e
    have := q_size_loop_spec (a :: t) [] fuel (by simpa using hr) (by simpa using hs) hf
    simp only [q_size, hr.head_ne_zero, he, false_or, if_false, Bool.false_eq_true, hr.next_head]
    simpa using this

theorem run_ops_ring : ∀ (ops : List Op) (h : Heap) (head : Nat) (ns : List Nat),
    Ring h head ns → (0 :: head :: (ns ++ allocs ops)).Nodup →
    removes_nonempty ns.length ops = true →
    ∃ ns', Ring (run_ops h head ops) head ns' ∧
      ns'.length + removes ops = ns.length + inserts ops
  | [], h, head, ns, hr, _, _ => ⟨ns, hr, rfl⟩
  | .insert_head s m :: ops, h, head, ns, hr, hnd, hg => by
    obtain ⟨hm, hnd1, -⟩ := fresh_of_nodup (show (0 :: head :: (ns ++ m :: allocs ops)).Nodup
      from hnd)
    obtain ⟨e, hr1⟩ := insert_head_ring hr hm s
    obtain ⟨ns', a, b⟩ := run_ops_ring ops (list_add (h.setValue m s) m head) head (m :: ns) hr1
      hnd1 (by simpa [removes_nonempty] using hg)
    refine ⟨ns', by simpa [run_ops, apply_op, e] using a, ?_⟩
    simp only [removes, inserts, List.length_cons] at b ⊢
    omega
  | .insert_tail s m :: ops, h, head, ns, hr, hnd, hg => by
    obtain ⟨hm, -, hnd1⟩ := fresh_of_nodup (show (0 :: head :: (ns ++ m :: allocs ops)).Nodup
      from hnd)
    obtain ⟨e, hr1⟩ := insert_tail_ring hr hm s
    obtain ⟨ns', a, b⟩ := run_ops_ring ops (list_add_tail (h.setValue m s) m head) head
      (ns ++ [m]) hr1 hnd1 (by simpa [removes_nonempty] using hg)
    refine ⟨ns', by simpa [run_ops, apply_op, e] using a, ?_⟩
    simp only [removes, inserts, List.length_append, List.length_singleton] at b ⊢
    omega
  | .remove_head :: ops, h, head, [], _, _, hg => by simp [removes_nonempty] at hg
  | .remove_tail :: ops, h, head, [], _, _, hg => by simp [removes_nonempty] at hg
  | .remove_head :: ops, h, head, x :: t, hr, hnd, hg => by
    have hr0 : Ring h head ([] ++ x :: t) := by simpa using hr
    have e := remove_head_at hr0 none 0
    have hr1 := ring_del_init hr0
    simp only [lastOr_nil, List.nil_append] at e hr1
    obtain ⟨ns', a, b⟩ := run_ops_ring ops (list_del_init h x) head t hr1
      (by
        have := hnd
        simp only [allocs, List.cons_append, List.nodup_cons, List.mem_cons, not_or] at this ⊢
        exact ⟨⟨this.1.1, this.1.2.2⟩, this.2.1.2, this.2.2.2⟩)
      (by simpa [removes_nonempty] using hg)
    refine ⟨ns', by simpa [run_ops, apply_op, e] using a, ?_⟩
    simp only [removes, inserts, List.length_cons] at b ⊢
    omega
  | .remove_tail :: ops, h, head, x :: t, hr, hnd, hg => by
    obtain ⟨A, z, hAz⟩ : ∃ A z, x :: t = A ++ [z] := by
      rcases List.eq_nil_or_concat (x :: t) with e | ⟨A, z, e⟩
      · simp at e
      · exact ⟨A, z, by simpa using e⟩
    rw [hAz] at hr hnd hg
    have e := remove_tail_at hr none 0
    have hr1 := ring_del hr
    simp only [firstOr_nil, List.append_nil] at e hr1
    obtain ⟨ns', a, b⟩ := run_ops_ring ops (list_del h z) head A hr1
      (by
        have : (0 :: head :: (A ++ [z] ++ allocs (Op.remove_tail :: ops))).Perm
            (z :: 0 :: head :: (A ++ allocs ops)) := by
          simp only [allocs, List.append_assoc, List.singleton_append]
          exact @List.perm_middle _ z (0 :: head :: A) (allocs ops)
        exact (List.nodup_cons.1 (this.nodup_iff.1 hnd)).2)
      (by simpa [removes_nonempty] using hg)
    rw [hAz]
    refine ⟨ns', by simpa [run_ops, apply_op, e] using a, ?_⟩
    simp only [removes, inserts, List.length_append, List.length_singleton] at b ⊢
    omega

/-- C11, counterexample: one removal followed by one insertion on a fresh empty queue
(one insert, one remove, so `k - m = 0`) leaves a queue on which `q_size` returns 1: the
removal met the empty queue and removed nothing. -/
theorem q_size_after_remove_on_empty :
    inserts [Op.remove_head, Op.insert_tail [97] 2] = 1 ∧
    removes [Op.remove_head, Op.insert_tail [97] 2] = 1 ∧
    q_size 2 (run_ops (q_new Heap.blank 1).2 1 [Op.remove_head, Op.insert_tail [97] 2]) 1
      = .ok 1 := by
  exact ⟨rfl, rfl, rfl⟩

/-- C11, amended: after a sequence of insertions (allocations succeeding at fresh
addresses) and removals on an initially empty queue in which every removal meets a queue
that holds an element, `q_size` returns the number of insertions minus the number of
removals, provided that number fits a C `int`; `q_size` returns 0 for a null queue, and
for every well-formed queue of fewer than `2^31` elements the number of its non-sentinel
nodes (0 when it is empty). -/
theorem q_size_after_ops (h : Heap) (head : Nat) (ops : List Op) (fuel : Nat)
    (hr : Ring h head []) (hfresh : (0 :: head :: allocs ops).Nodup)
    (hguard : removes_nonempty 0 ops = true)
    (hsmall : inserts ops < removes ops + 2147483648)
    (hfuel : inserts ops < removes ops + fuel) :
    q_size fuel (run_ops h head ops) head = .ok ((inserts ops : Int) - removes ops) ∧
    (∀ g : Heap, q_size fuel g 0 = .ok 0) ∧
    (∀ (g : Heap) (p : Nat) (ns : List Nat), Ring g p ns → ns.length < 2147483648 →
      ns.length < fuel → q_size fuel g p = .ok (ns.length : Int)) := by
  obtain ⟨ns', a, b⟩ := run_ops_ring ops h head [] hr (by simpa using hfresh) hguard
  simp only [List.length_nil, Nat.zero_add] at b
  refine ⟨?_, fun g => by simp [q_size], fun g p ns hg h1 h2 => q_size_spec hg h1 h2⟩
  rw [q_size_spec a (by omega) (by omega)]
  congr 1
  omega

/-- Two insertions and one removal on a fresh queue leave a queue of size one (C11,
amended, at a concrete sequence). -/
theorem q_size_after_ops_witness :
    q_size 3 (run_ops (q_new Heap.blank 1).2 1
        [Op.insert_tail [97] 2, Op.insert_head [98] 3, Op.remove_tail]) 1
      = .ok ((inserts [Op.insert_tail [97] 2, Op.insert_head [98] 3, Op.remove_tail] : Int)
          - removes [Op.insert_tail [97] 2, Op.insert_head [98] 3, Op.remove_tail]) ∧
    (∀ g : Heap, q_size 3 g 0 = .ok 0) ∧
    (∀ (g : Heap) (p : Nat) (ns : List Nat), Ring g p ns → ns.length < 2147483648 →
      ns.length < 3 → q_size 3 g p = .ok (ns.length : Int)) :=
  q_size_after_ops (q_new Heap.blank 1).2 1
    [Op.insert_tail [97] 2, Op.insert_head [98] 3, Op.remove_tail] 3
    (by decide) (by decide) (by decide) (by decide) (by decide)

/-! ## The buffer of the removal functions -/

theorem size_t_pred {bufsize : Nat} (h1 : 1 ≤ bufsize) (h2 : bufsize < 18446744073709551616) :
    size_t ((bufsize : Int) - 1) = bufsize - 1 := by
  unfold size_t
  omega

/-- With `1 ≤ bufsize` the buffer update of `q_remove_head` and `q_remove_tail` writes
below `bufsize` only, copies the first `min (len v) (bufsize - 1)` bytes of `v` and puts
a zero byte right after them. -/
theorem copy_out_within_buffer (buf : Nat → Nat) (v : List Nat) {bufsize : Nat}
    (h1 : 1 ≤ bufsize) (h2 : bufsize < 18446744073709551616) :
    ∃ f, copy_out (some buf) v bufsize = some f ∧
      (∀ i, bufsize ≤ i → f i = buf i) ∧
      (∀ i, i < min v.length (bufsize - 1) → f i = v.getD i 0) ∧
      f (min v.length (bufsize - 1)) = 0 ∧ min v.length (bufsize - 1) < bufsize := by
  refine ⟨_, rfl, ?_, ?_, ?_, by omega⟩
  · intro i hi
    simp only [size_t_pred h1 h2, strncpy]
    rw [if_neg (by omega), if_neg (by omega)]
  · intro i hi
    simp only [size_t_pred h1 h2, strncpy]
    rw [if_neg (by omega), if_pos (by omega)]
  · simp only [size_t_pred h1 h2, strncpy]
    by_cases e : min v.length (bufsize - 1) = bufsize - 1
    · rw [if_pos e]
    · rw [if_neg e, if_pos (by omega)]
      have : v.length ≤ min v.length (bufsize - 1) := by omega
      simp [List.getD_eq_getElem?_getD, List.getElem?_eq_none this]

/-- C13, amended: on a non-empty queue and with a buffer size of at least 1 (and in the
range of `size_t`), `q_remove_head` and `q_remove_tail` called with a buffer leave it
unchanged from position `bufsize` on, holding the first `min (len v) (bufsize - 1)` bytes
of the value `v` of the removed element, and a zero byte right after them. -/
theorem q_remove_copies_within_buffer (h : Heap) (head : Nat) (ns : List Nat)
    (buf : Nat → Nat) (bufsize : Nat) (hr : Ring h head ns) (hne : ns ≠ [])
    (h1 : 1 ≤ bufsize) (h2 : bufsize < 18446744073709551616) :
    (∃ f, (q_remove_head h head (some buf) bufsize).2.1 = some f ∧
      (∀ i, bufsize ≤ i → f i = buf i) ∧
      (∀ i, i < min (h.value (firstOr head ns)).length (bufsize - 1) →
        f i = (h.value (firstOr head ns)).getD i 0) ∧
      f (min (h.value (firstOr head ns)).length (bufsize - 1)) = 0) ∧
    (∃ f, (q_remove_tail h head (some buf) bufsize).2.1 = some f ∧
      (∀ i, bufsize ≤ i → f i = buf i) ∧
      (∀ i, i < min (h.value (lastOr head ns)).length (bufsize - 1) →
        f i = (h.value (lastOr head ns)).getD i 0) ∧
      f (min (h.value (lastOr head ns)).length (bufsize - 1)) = 0) := by
  constructor
  · obtain ⟨x, t, rfl⟩ : ∃ x t, ns = x :: t := by
      cases ns with
      | nil => exact absurd rfl hne
      | cons x t => exact ⟨x, t, rfl⟩
    have e := remove_head_at (A := []) (B := t) (by simpa using hr) (some buf) bufsize
    simp only [lastOr_nil] at e
    obtain ⟨f, a, b, c, d, -⟩ := copy_out_within_buffer buf (h.value x) h1 h2
    exact ⟨f, by rw [e]; exact a, b, c, d⟩
  · obtain ⟨A, z, rfl⟩ : ∃ A z, ns = A ++ [z] := by
      rcases List.eq_nil_or_concat ns with e | ⟨A, z, e⟩
      · exact absurd e hne
      · exact ⟨A, z, by simpa using e⟩
    have e := remove_tail_at (A := A) (B := []) hr (some buf) bufsize
    simp only [firstOr_nil] at e
    obtain ⟨f, a, b, c, d, -⟩ := copy_out_within_buffer buf (h.value z) h1 h2
    exact ⟨f, by rw [e]; exact a, by simpa using b, by simpa using c, by simpa using d⟩

/-- The value "abc" removed into a buffer of two bytes leaves "a" and a zero byte (C13,
amended, at a concrete queue). -/
theorem q_remove_copies_within_buffer_witness :
    (∃ f, (q_remove_head (build [[97, 98, 99]]) 1 (some fun _ => 7) 2).2.1 = some f ∧
      (∀ i, 2 ≤ i → f i = (fun _ => 7) i) ∧
      (∀ i, i < min ((build [[97, 98, 99]]).value (firstOr 1 [2])).length (2 - 1) →
        f i = ((build [[97, 98, 99]]).value (firstOr 1 [2])).getD i 0) ∧
      f (min ((build [[97, 98, 99]]).value (firstOr 1 [2])).length (2 - 1)) = 0) ∧
    (∃ f, (q_remove_tail (build [[97, 98, 99]]) 1 (some fun _ => 7) 2).2.1 = some f ∧
      (∀ i, 2 ≤ i → f i = (fun _ => 7) i) ∧
      (∀ i, i < min ((build [[97, 98, 99]]).value (lastOr 1 [2])).length (2 - 1) →
        f i = ((build [[97, 98, 99]]).value (lastOr 1 [2])).getD i 0) ∧
      f (min ((build [[97, 98, 99]]).value (lastOr 1 [2])).length (2 - 1)) = 0) :=
  q_remove_copies_within_buffer (build [[97, 98, 99]]) 1 [2] (fun _ => 7) 2
    (by decide) (by decide) (by decide) (by decide)

/-- C13, counterexample at `bufsize = 0`: on the queue "a" and a buffer whose bytes are all 7,
`q_remove_head` and `q_remove_tail` called with `bufsize = 0` return the element and
write position 0 (the byte `'a'`) and position 1 (a padding zero) of the buffer, both
outside the zero bytes the caller announced: `bufsize - 1` wraps to `2^64 - 1`. -/
theorem q_remove_bufsize_zero_overruns_buffer :
    size_t ((0 : Int) - 1) = 18446744073709551615 ∧
    (∃ f, q_remove_head (build [[97]]) 1 (some fun _ => 7) 0
        = (2, some f, list_del_init (build [[97]]) 2) ∧ f 0 = 97 ∧ f 1 = 0) ∧
    (∃ f, q_remove_tail (build [[97]]) 1 (some fun _ => 7) 0
        = (2, some f, list_del (build [[97]]) 2) ∧ f 0 = 97 ∧ f 1 = 0) := by
  have hr : Ring (build [[97]]) 1 ([] ++ 2 :: []) := by decide
  refine ⟨by decide, ⟨_, remove_head_at hr _ 0, by decide, by decide⟩,
    ⟨_, remove_tail_at hr _ 0, by decide, by decide⟩⟩

/-! ## Termination of `q_delete_dup` -/

/-- The inner loop of `q_delete_dup` started with `*indir` at the node `x` of the ring: it
unlinks and releases a prefix `D` of `x :: B`, stops at a node `y` that stays linked, and
`has_dup` tells whether a node was removed. -/
theorem q_delete_dup_run_spec {head : Nat} : ∀ (B : List Nat) (x : Nat) (A : List Nat)
    (h : Heap) (fuel : Nat) (d : Bool), Ring h head (A ++ x :: B) → B.length < fuel →
    ∃ h' y D C, x :: B = D ++ y :: C ∧
      q_delete_dup_run fuel h head (lastOr head A) d = .ok (d || decide (D ≠ []), h') ∧
      Ring h' head (A ++ y :: C) ∧ h'.value = h.value
  | [], x, A, h, fuel, d, hr, hf => by
    obtain ⟨f, rfl⟩ : ∃ f, fuel = f + 1 := ⟨fuel - 1, by omega⟩
    have hl := hr.link
    have hnx := hr.next_mem
    simp only [firstOr_cons] at hl
    simp only [firstOr_nil] at hnx
    refine ⟨h, x, [], [], rfl, ?_, hr, rfl⟩
    simp [q_delete_dup_run, hl.1, hnx]
  | b :: B, x, A, h, fuel, d, hr, hf => by
    obtain ⟨f, rfl⟩ : ∃ f, fuel = f + 1 := ⟨fuel - 1, by omega⟩
    have hl := hr.link
    have hnx := hr.next_mem
    simp only [firstOr_cons] at hl hnx
    have hx0 : x ≠ 0 := hr.ne_zero (by simp)
    have hb0 : b ≠ 0 := hr.ne_zero (by simp)
    have hbh : b ≠ head := hr.ne_head (by simp)
    by_cases hc : strcmp (h.value x) (h.value b) = 0
    · have e := remove_tail_at hr none 0
      simp only [firstOr_cons] at e
      have hr1 : Ring (q_release_element (list_del h x) x) head (A ++ b :: B) :=
        (ring_del hr).release x
      obtain ⟨h', y, D, C, e1, e2, e3, e4⟩ := q_delete_dup_run_spec B b A
        (q_release_element (list_del h x) x) f true hr1 (by simp at hf; omega)
      refine ⟨h', y, x :: D, C, by simp [e1], ?_, e3, by simpa using e4⟩
      unfold q_delete_dup_run
      simp only [hl.1, hnx, ne_eq, hbh, not_false_eq_true, if_true, node_get_val, hx0, hb0,
        if_false, strcmpP, hc, e]
      simpa using e2
    · refine ⟨h, x, [], b :: B, rfl, ?_, hr, rfl⟩
      unfold q_delete_dup_run
      simp [hl.1, hnx, hbh, node_get_val, hx0, hb0, strcmpP, hc]

theorem sq_bound {n m r : Nat} (h1 : m + 2 ≤ n) (h2 : r ≤ m) : m * m + r + 1 ≤ n * n := by
  have := Nat.mul_le_mul h1 h1
  have e : (m + 2) * (m + 2) = m * m + 4 * m + 4 := by ring
  omega

/-- The outer loop of `q_delete_dup` returns on every ring: an iteration that removes
nothing moves `indir` one node on, every other iteration removes at least two nodes. -/
theorem q_delete_dup_loop_spec (head fuel : Nat) : ∀ (n : Nat) (A B : List Nat) (h : Heap),
    Ring h head (A ++ B) → (A ++ B).length < fuel →
    (A ++ B).length * (A ++ B).length + B.length < n →
    ∃ h' ns', q_delete_dup_loop fuel n h head (lastOr head A) = .ok h' ∧ Ring h' head ns' ∧
      ns'.Sublist (A ++ B) ∧ h'.value = h.value
  | 0, _, _, _, _, _, hn => by omega
  | n + 1, A, [], h, hr, _, _ => by
    have hl := hr.link
    simp only [firstOr_nil] at hl
    exact ⟨h, A ++ [], by simp [q_delete_dup_loop, hl.1], hr, List.Sublist.refl _, rfl⟩
  | n + 1, A, x :: B, h, hr, hf, hn => by
    have hl := hr.link
    simp only [firstOr_cons] at hl
    have hxh : x ≠ head := hr.ne_head (by simp)
    obtain ⟨h1, y, D, C, e1, e2, e3, e4⟩ := q_delete_dup_run_spec B x A h fuel false hr
      (by simp at hf; omega)
    have hlen := congrArg List.length e1
    simp only [List.length_cons, List.length_append] at hlen hf hn
    have hl1 := Ring.link (A := A) (B := y :: C) e3
    simp only [firstOr_cons] at hl1
    have hny := e3.next_mem
    cases D with
    | nil =>
      have hr2 : Ring h1 head ((A ++ [y]) ++ C) := by simpa using e3
      obtain ⟨h', ns', f1, f2, f3, f4⟩ := q_delete_dup_loop_spec head fuel n (A ++ [y]) C h1 hr2
        (by simp only [List.length_append, List.length_cons, List.length_nil] at hlen ⊢; omega)
        (by
          simp only [List.length_append, List.length_cons, List.length_nil] at hlen ⊢
          have e : A.length + 1 + C.length = A.length + (B.length + 1) := by omega
          rw [e]
          omega)
      simp only [lastOr_append_cons, lastOr_nil] at f1
      refine ⟨h', ns', ?_, f2, ?_, by rw [f4, e4]⟩
      · unfold q_delete_dup_loop
        simp only [hl.1, ne_eq, hxh, not_false_eq_true, if_true, e2]
        simpa [hl1.1] using f1
      · rw [e1]
        simpa using f3
    | cons d D =>
      have e := remove_tail_at e3 none 0
      have hr2 : Ring (q_release_element (list_del h1 y) y) head (A ++ C) :=
        (ring_del e3).release y
      have hl2 := hr2.link
      have hsub : (A ++ C).Sublist (A ++ x :: B) := by
        rw [e1]
        exact List.Sublist.append_left
          ((List.sublist_append_right _ _).trans
            ((List.sublist_cons_self y C).append_left (d :: D))) A
      have hstep : q_delete_dup_loop fuel (n + 1) h head (lastOr head A)
          = q_delete_dup_loop fuel n (q_release_element (list_del h1 y) y) head
              (firstOr head C) := by
        conv_lhs => unfold q_delete_dup_loop
        simp only [hl.1, ne_eq, hxh, not_false_eq_true, if_true, e2]
        simp [hl1.1, hny, e, hl2.1]
      rw [hstep]
      cases C with
      | nil =>
        have hr3 : Ring (q_release_element (list_del h1 y) y) head ([] ++ A) := by
          simpa using hr2
        obtain ⟨h', ns', f1, f2, f3, f4⟩ := q_delete_dup_loop_spec head fuel n [] A _ hr3
          (by simp only [List.length_append, List.length_cons, List.length_nil] at hlen ⊢; omega)
          (by
            simp only [List.length_append, List.length_cons, List.length_nil, Nat.zero_add]
              at hlen ⊢
            have := @sq_bound (A.length + (B.length + 1)) A.length A.length (by omega) le_rfl
            omega)
        refine ⟨h', ns', f1, f2, ?_, by rw [f4]; simpa using e4⟩
        exact (by simpa using f3 : ns'.Sublist A).trans (by simp)
      | cons c C =>
        have hr3 : Ring (q_release_element (list_del h1 y) y) head ((A ++ [c]) ++ C) := by
          simpa using hr2
        obtain ⟨h', ns', f1, f2, f3, f4⟩ := q_delete_dup_loop_spec head fuel n (A ++ [c]) C _ hr3
          (by simp only [List.length_append, List.length_cons, List.length_nil] at hlen ⊢; omega)
          (by
            simp only [List.length_append, List.length_cons, List.length_nil, Nat.zero_add]
              at hlen ⊢
            have := @sq_bound (A.length + (B.length + 1)) (A.length + 1 + C.length) C.length
              (by omega) (by omega)
            omega)
        simp only [lastOr_append_cons, lastOr_nil] at f1
        refine ⟨h', ns', f1, f2, ?_, by rw [f4]; simpa using e4⟩
        exact (by simpa using f3 : ns'.Sublist (A ++ c :: C)).trans hsub

/-- C20: on every queue that satisfies the ring invariant, sorted or not, `q_delete_dup`
returns `true` once the fuel exceeds `n * n + n` for the `n` elements of the queue; what
is left is a well-formed queue whose nodes are a subsequence of the original ones, with
their values. -/
theorem q_delete_dup_terminates (h : Heap) (head : Nat) (ns : List Nat) (fuel : Nat)
    (hr : Ring h head ns) (hfuel : ns.length * ns.length + ns.length < fuel) :
    ∃ h' ns', q_delete_dup fuel h head = .ok (true, h') ∧ Ring h' head ns' ∧
      ns'.Sublist ns ∧ h'.value = h.value := by
  obtain ⟨h', ns', e1, e2, e3, e4⟩ := q_delete_dup_loop_spec head fuel fuel [] ns h
    (by simpa using hr) (by simp only [List.nil_append]; nlinarith [Nat.zero_le ns.length])
    (by simpa using hfuel)
  simp only [lastOr_nil] at e1
  exact ⟨h', ns', by simp [q_delete_dup, hr.head_ne_zero, e1], e2, by simpa using e3, e4⟩

/-- The unsorted queue "a","b","b" makes the scan restart at the first node after the
trailing run "b","b" is removed, and `q_delete_dup` returns `true` (C20 at a concrete
queue). -/
theorem q_delete_dup_terminates_witness :
    ∃ h' ns', q_delete_dup 13 (build [[97], [98], [98]]) 1 = .ok (true, h') ∧ Ring h' 1 ns' ∧
      ns'.Sublist [2, 3, 4] ∧ h'.value = (build [[97], [98], [98]]).value :=
  q_delete_dup_terminates (build [[97], [98], [98]]) 1 [2, 3, 4] 13 (by decide) (by decide)

/-! ## The run count of `q_sort` -/

theorem first_run_rest_cons (v : Nat → List Nat) (s t : Nat) (l : List Nat)
    (hc : strcmp (v s) (v t) ≤ 0) : (first_run v s (t :: l)).2 = (first_run v t l).2 := by
  rw [first_run, if_pos hc]

theorem runs_upto_length (v : Nat → List Nat) : ∀ (l : List Nat) (s n : Nat), l.length < n →
    (runs_upto v n (s :: l)).length = 1 + descents v (s :: l)
  | _, _, 0, hn => by omega
  | [], s, n + 1, _ => by simp [runs_upto, first_run, runs_upto_nil, descents]
  | t :: l, s, n + 1, hn => by
    simp only [List.length_cons] at hn
    have ih := runs_upto_length v l t n (by omega)
    obtain ⟨m, rfl⟩ : ∃ m, n = m + 1 := ⟨n - 1, by omega⟩
    by_cases hc : strcmp (v s) (v t) ≤ 0
    · have hd : descents v (s :: t :: l) = descents v (t :: l) := by
        simp only [descents]
        rw [if_neg (by omega)]
        omega
      have hst := runs_upto_stable v m (m + 1) (first_run v t l).2
        (by have := first_run_rest_length v l t; omega)
        (by have := first_run_rest_length v l t; omega)
      simp only [runs_upto, List.length_cons] at ih ⊢
      rw [first_run_rest_cons v s t l hc, hd, ← hst]
      omega
    · have hd : descents v (s :: t :: l) = 1 + descents v (t :: l) := by
        simp only [descents]
        rw [if_pos (by omega)]
      have hf : first_run v s (t :: l) = ([s], t :: l) := by
        rw [first_run, if_neg hc]
      simp only [runs_upto, hf, List.length_cons] at ih ⊢
      rw [hd]
      omega

theorem runs_of_length (v : Nat → List Nat) (s : Nat) (l : List Nat) :
    (runs_of v (s :: l)).length = 1 + descents v (s :: l) :=
  runs_upto_length v l s _ (by simp)

theorem descents_of_descending (v : Nat → List Nat) : ∀ (l : List Nat),
    List.Chain' (fun a b => 0 < strcmp (v a) (v b)) l → descents v l = l.length - 1
  | [], _ => rfl
  | [_], _ => rfl
  | a :: b :: t, hc => by
    have hc1 := List.chain'_cons.1 hc
    have ih := descents_of_descending v (b :: t) hc1.2
    simp only [descents, hc1.1, if_true, List.length_cons] at ih ⊢
    omega

/-- The run-splitting loop of `q_sort` faults with `Fault.bounds` as soon as the runs
that are still to be recorded do not fit what is left of the array. -/
theorem q_sort_split_bounds (fuel head : Nat) : ∀ (n : Nat) (S : List Nat) (h : Heap)
    (lists : Nat → Nat) (count : Nat),
    List.Chain' (Link h) (S ++ [head]) → (0 :: head :: S).Nodup → S.length ≤ n →
    S.length < fuel → count ≤ LISTS_CAPACITY →
    LISTS_CAPACITY < count + (runs_upto h.value n S).length →
    q_sort_split fuel (n + 1) h head (firstOr head S) lists count = .error .bounds
  | n, [], h, lists, count, _, _, _, _, h1, h2 => by
    simp only [runs_upto_nil, List.length_nil] at h2
    omega
  | 0, _ :: _, _, _, _, _, _, hl, _, _, _ => by simp at hl
  | m + 1, s :: l, h, lists, count, hc, hn, hl, hf, hcap, hover => by
    simp only [List.length_cons] at hl hf
    obtain ⟨r', hr⟩ := first_run_cons h.value l s
    have happ := first_run_append h.value l s
    rw [hr] at happ
    have hruns : runs_upto h.value (m + 1) (s :: l)
        = (s :: r') :: runs_upto h.value m (first_run h.value s l).2 := by
      simp only [runs_upto, hr]
    rw [hruns] at hover
    simp only [List.length_cons] at hover
    have hlrem0 := first_run_rest_length h.value l s
    clear hruns
    generalize (first_run h.value s l).2 = rem at *
    have hsl : s :: l = s :: r' ++ rem := by simpa using happ.symm
    have hs : s ≠ head := by
      simp only [List.nodup_cons, List.mem_cons, not_or] at hn
      exact fun e => hn.2.1.1 e.symm
    have hrun := @q_sort_run_spec h head l s fuel hc hn (by omega)
    rw [hr, lastOr_cons] at hrun
    have hc' : List.Chain' (Link h) (s :: r' ++ (rem ++ [head])) := by
      have e : s :: r' ++ (rem ++ [head]) = (s :: l) ++ [head] := by
        rw [hsl]; simp
      rw [e]; exact hc
    obtain ⟨hc1, hc2, hc3⟩ := (chain_append_iff s head r' rem).1 hc'
    have hnd2 : (0 :: head :: (s :: r' ++ rem)).Nodup := by rw [← hsl]; exact hn
    have hzmem : lastOr s r' ∈ s :: r' := lastOr_mem s r'
    have hdis : ∀ x, x ∈ s :: r' → x ∉ rem := by
      intro x hx hy
      have := hnd2
      simp only [List.nodup_cons] at this
      exact (List.nodup_append.1 this.2.2).2.2 hx hy
    have hcrem : List.Chain' (Link (h.setNext (lastOr s r') 0)) (rem ++ [head]) := by
      refine chain_frame hc2 ?_ ?_
      · intro a ha
        rw [List.dropLast_concat] at ha
        have : a ≠ lastOr s r' := fun e => hdis _ hzmem (e ▸ ha)
        simp [this]
      · intro b _; simp
    have hnrem : (0 :: head :: rem).Nodup := by
      have := hnd2
      simp only [List.nodup_cons, List.mem_cons, List.mem_append, not_or, List.cons_append,
        List.nodup_append] at this ⊢
      tauto
    have hlrem : rem.length ≤ m := by omega
    unfold q_sort_split
    by_cases hcc : count < LISTS_CAPACITY
    · have ih := q_sort_split_bounds fuel head m rem (h.setNext (lastOr s r') 0)
        (fun i => if i = count then s else lists i) (count + 1) hcrem hnrem hlrem (by omega)
        (by omega) (by simp only [setNext_value]; omega)
      simp only [firstOr_cons, ne_eq, hs, not_false_eq_true, if_true, hrun, hcc, hc3.1]
      exact ih
    · simp only [firstOr_cons, ne_eq, hs, not_false_eq_true, if_true, hrun, hcc, if_false]

/-- On a queue of at least two elements the `q_sort` of `queue.c` either records
`1 + descents` runs or, when that number exceeds the capacity, faults. -/
theorem q_sort_split_count {h : Heap} {head : Nat} {ns : List Nat} (hr : Ring h head ns)
    (hne : ns ≠ []) {fuel : Nat} (hf : ns.length < fuel) :
    (1 + descents h.value ns ≤ LISTS_CAPACITY →
      ∃ lists' h', q_sort_split fuel fuel h head (h.next head) (fun _ => 0) 0
        = .ok (lists', 1 + descents h.value ns, h')) ∧
    (LISTS_CAPACITY < 1 + descents h.value ns →
      q_sort_split fuel fuel h head (h.next head) (fun _ => 0) 0 = .error .bounds) := by
  obtain ⟨s, l, rfl⟩ : ∃ s l, ns = s :: l := by
    cases ns with
    | nil => exact absurd rfl hne
    | cons s l => exact ⟨s, l, rfl⟩
  obtain ⟨f, rfl⟩ : ∃ f, fuel = f + 1 := ⟨fuel - 1, by omega⟩
  have hlen := runs_upto_length h.value l s f (by simpa using hf)
  have hc : List.Chain' (Link h) ((s :: l) ++ [head]) := (List.chain'_cons'.1 hr.chain).2
  have hle : (s :: l).length ≤ f := by simp only [List.length_cons] at hf ⊢; omega
  rw [hr.next_head]
  constructor
  · intro hcap
    obtain ⟨lists', h', e, -⟩ := q_sort_split_spec (f + 1) head f (s :: l) h (fun _ => 0) 0 hc
      hr.1 hle hf (by rw [hlen]; omega)
    rw [hlen, Nat.zero_add] at e
    exact ⟨lists', h', e⟩
  · intro hover
    exact q_sort_split_bounds (f + 1) head f (s :: l) h (fun _ => 0) 0 hc hr.1 hle hf
      (Nat.zero_le _) (by rw [hlen]; omega)

theorem q_sort_bounds_of_split {h : Heap} {head : Nat} {ns : List Nat} (hr : Ring h head ns)
    (hlen : 2 ≤ ns.length) {fuel : Nat} (descend : Bool)
    (hs : q_sort_split fuel fuel h head (h.next head) (fun _ => 0) 0 = .error .bounds) :
    q_sort fuel h head descend = .error .bounds := by
  have hemp : list_empty h head = false := by
    rw [Bool.eq_false_iff]
    intro e
    have := hr.empty_iff.1 e
    subst this
    simp at hlen
  have hsing := hr.not_singular hlen
  simp [q_sort, hr.head_ne_zero, hemp, hsing, hs]

theorem descents_build_descending (n : Nat) (h2 : n < 8000000) :
    Ring (build (descending_keys n)) 1 (List.range' 2 n) ∧
      descents (build (descending_keys n)).value (List.range' 2 n) = n - 1 := by
  have hlen : (descending_keys n).length = n := by
    simp [descending_keys]
  obtain ⟨hr, hval⟩ := build_ring (descending_keys n)
  rw [hlen] at hr hval
  have hv : List.Chain' (fun a b => 0 < strcmp ((build (descending_keys n)).value a)
      ((build (descending_keys n)).value b)) (List.range' 2 n) := by
    rw [← List.chain'_map (build (descending_keys n)).value
      (R := fun x y => 0 < strcmp x y), hval]
    exact descending_keys_chain n h2
  refine ⟨hr, ?_⟩
  rw [descents_of_descending _ _ hv, List.length_range']

/-- C19: on a queue of at least two elements (a shorter queue returns before the array is
used) the run-splitting loop of `q_sort` records `1 + d` runs in `lists`, `d` being the
number of adjacent pairs whose left value is strictly greater than the right value, when
`1 + d` is at most the capacity 100000; when `1 + d` exceeds it, the loop stores a run
past the end of the array and `q_sort` faults.  The queue of the 100001 strictly
descending strings `descending_keys 100001` has `1 + d = 100001`. -/
theorem q_sort_run_count_exceeds_capacity (h : Heap) (head : Nat) (ns : List Nat)
    (fuel : Nat) (descend : Bool) (hr : Ring h head ns) (hlen : 2 ≤ ns.length)
    (hfuel : ns.length < fuel) :
    (1 + descents h.value ns ≤ LISTS_CAPACITY →
      ∃ lists' h', q_sort_split fuel fuel h head (h.next head) (fun _ => 0) 0
        = .ok (lists', 1 + descents h.value ns, h')) ∧
    (LISTS_CAPACITY < 1 + descents h.value ns →
      q_sort_split fuel fuel h head (h.next head) (fun _ => 0) 0 = .error .bounds ∧
      q_sort fuel h head descend = .error .bounds) ∧
    (Ring (build (descending_keys 100001)) 1 (List.range' 2 100001) ∧
      1 + descents (build (descending_keys 100001)).value (List.range' 2 100001) = 100001 ∧
      ∀ big, 100001 < big →
        q_sort big (build (descending_keys 100001)) 1 descend = .error .bounds) := by
  have hne : ns ≠ [] := by
    intro e
    subst e
    simp at hlen
  obtain ⟨a, b⟩ := q_sort_split_count hr hne hfuel
  obtain ⟨hr1, hd1⟩ := descents_build_descending 100001 (by omega)
  have hl1 : (List.range' 2 100001).length = 100001 := List.length_range' _ _ _
  refine ⟨a, fun hover => ⟨b hover, q_sort_bounds_of_split hr hlen descend (b hover)⟩,
    hr1, by rw [hd1], fun big hbig => ?_⟩
  have hne1 : List.range' 2 100001 ≠ [] := by
    intro e
    rw [e] at hl1
    simp at hl1
  have hb := (q_sort_split_count hr1 hne1 (by rw [hl1]; exact hbig)).2
    (by rw [hd1]; unfold LISTS_CAPACITY; omega)
  exact q_sort_bounds_of_split hr1 (by rw [hl1]; omega) descend hb

/-- The queue "2","1","3" has one descent and `q_sort` records two runs (C19 at a concrete
queue). -/
theorem q_sort_run_count_exceeds_capacity_witness :
    (1 + descents (build [[50], [49], [51]]).value [2, 3, 4] ≤ LISTS_CAPACITY →
      ∃ lists' h', q_sort_split 4 4 (build [[50], [49], [51]]) 1
          ((build [[50], [49], [51]]).next 1) (fun _ => 0) 0
        = .ok (lists', 1 + descents (build [[50], [49], [51]]).value [2, 3, 4], h')) ∧
    (LISTS_CAPACITY < 1 + descents (build [[50], [49], [51]]).value [2, 3, 4] →
      q_sort_split 4 4 (build [[50], [49], [51]]) 1
          ((build [[50], [49], [51]]).next 1) (fun _ => 0) 0 = .error .bounds ∧
      q_sort 4 (build [[50], [49], [51]]) 1 false = .error .bounds) ∧
    (Ring (build (descending_keys 100001)) 1 (List.range' 2 100001) ∧
      1 + descents (build (descending_keys 100001)).value (List.range' 2 100001) = 100001 ∧
      ∀ big, 100001 < big →
        q_sort big (build (descending_keys 100001)) 1 false = .error .bounds) :=
  q_sort_run_count_exceeds_capacity (build [[50], [49], [51]]) 1 [2, 3, 4] 4 false
    (by decide) (by decide) (by decide)

/-! ## The sentinel in `q_reverseK` and the array of `q_sort` -/

/-- C18 at the queue "1","2" and `k = 2`: after the one block is reversed the scan starts
a block at the sentinel (address 1) and `node_swap_val` is called on the sentinel and the
first element (address 2): the sentinel's value slot, empty before the call, ends holding
"2", and the first element ends holding the former content of that slot. -/
theorem q_reverseK_swaps_sentinel :
    q_reverseK 3 (build [[49], [50]]) 1 2
      = .ok (node_swap_val (node_swap_val (build [[49], [50]]) 2 3) 1 2) ∧
    (build [[49], [50]]).value 1 = [] ∧
    value_after (q_reverseK 3 (build [[49], [50]]) 1 2) 1 = some [50] ∧
    value_after (q_reverseK 3 (build [[49], [50]]) 1 2) 2 = some [] ∧
    values_after 3 (q_reverseK 3 (build [[49], [50]]) 1 2) 1 = some [[], [49]] :=
  ⟨rfl, by decide, by decide, by decide, by decide⟩

theorem build_descending_values (n : Nat) :
    (List.range' 2 n).map (build (descending_keys n)).value = descending_keys n := by
  have hlen : (descending_keys n).length = n := by
    simp [descending_keys]
  have := (build_ring (descending_keys n)).2
  rw [hlen] at this
  exact this

/-- C17 at the queue of the 100001 strictly descending strings `descending_keys 100001`
(the values its nodes hold, front to back): with either value of `descend` and any fuel
`q_sort` leaves no queue whose values could be read front to back, so nothing that a
permutation of the values could be: the 100001st run does not fit the array `lists`. -/
theorem q_sort_overflow_loses_queue (descend : Bool) :
    (List.range' 2 100001).map (build (descending_keys 100001)).value
      = descending_keys 100001 ∧
    ∀ fuel, values_after fuel (q_sort fuel (build (descending_keys 100001)) 1 descend) 1
      = none := by
  refine ⟨build_descending_values 100001, fun fuel => ?_⟩
  obtain ⟨e, he⟩ := (q_sort_overflow_build 100001 descend (by unfold LISTS_CAPACITY; omega)
    (by omega)).2 fuel
  rw [he]
  rfl

/-- C12 at the queue of the 100001 strictly descending strings `descending_keys 100001`:
the ring invariant holds before the call, and `q_sort`, with either value of `descend`
and any fuel, returns no memory in which it could hold: the 100001st run is stored past
the end of the array `lists`. -/
theorem q_sort_overflow_breaks_ring (descend : Bool) :
    Ring (build (descending_keys 100001)) 1 (List.range' 2 100001) ∧
    ∀ fuel h', q_sort fuel (build (descending_keys 100001)) 1 descend ≠ .ok h' := by
  refine ⟨(descents_build_descending 100001 (by omega)).1, fun fuel h' e => ?_⟩
  obtain ⟨x, hx⟩ := (q_sort_overflow_build 100001 descend (by unfold LISTS_CAPACITY; omega)
    (by omega)).2 fuel
  rw [hx] at e
  cases e

end Queue
